import Mathlib

/-!
# dc_saxparser.c: the entity decoder and the markup tokenizer

A shallow embedding of `xml_decode`, `call_text_cb`, `dc_attr_find` and
`dc_saxparser_parse`
(deltachat-core, `src/dc_saxparser.c`).

Conventions of the embedding.

* A byte is a natural number (`char` values are taken modulo 256 when stored).
* A C string is the list of its bytes up to, and without, the terminating NUL.
* Where the code depends on what lies behind a terminator (the first loop of
  `xml_decode`), memory is a list of bytes with explicit NUL bytes; the end of
  the list is the end of the allocation, and a read behind it is undefined
  behaviour.
* A pointer into the working buffer is the list of bytes from that position on.
  The tokenizer only ever writes behind its scan pointer `p` (temporary or
  permanent NUL bytes, decoded values), with one exception, the first loop of
  `xml_decode`, which is followed explicitly.
* `long` is 64 bits wide (LP64, the iOS target of the repository).
* `isspace` and `tolower` are those of the "C" locale; a byte from 0x80 on is neither
  white space nor a letter.
* Allocation failure (`malloc`, `realloc`, `dc_strdup` returning NULL) is not modelled.
-/

namespace DcSaxparser

/-! ## Results of running C code -/

/-- Result of running a piece of the C program: a value, undefined behaviour
(an access outside an allocation, an invalid shift count), or an embedding
loop that ran out of iterations. -/
inductive Outcome (α : Type) where
  | done (a : α)
  | undefined
  | outOfFuel
  deriving DecidableEq, Repr

namespace Outcome

/-- Sequencing: a failure of the first computation is the failure of the whole. -/
def bind {α β : Type} (x : Outcome α) (f : α → Outcome β) : Outcome β :=
  match x with
  | done a => f a
  | undefined => undefined
  | outOfFuel => outOfFuel

/-- Apply a function to the value of a finished computation. -/
def map {α β : Type} (f : α → β) (x : Outcome α) : Outcome β :=
  match x with
  | done a => done (f a)
  | undefined => undefined
  | outOfFuel => outOfFuel

end Outcome

/-! ## Bytes and the C library -/

/-- Bytes of an ASCII string literal. -/
def ascii (s : String) : List Nat := s.toList.map Char.toNat

/-- The C string stored at the start of a piece of memory: the bytes before the first NUL. -/
def cstr (m : List Nat) : List Nat := m.takeWhile (fun c => c != 0)

/-- C `isspace` in the "C" locale: space, `\t`, `\n`, `\v`, `\f`, `\r`. -/
def isspace (c : Nat) : Bool := c == 32 || (9 ≤ c && c ≤ 13)

/-- Membership in `XML_WS`, the string `"\t\r\n "`. -/
def is_xml_ws (c : Nat) : Bool := c == 9 || c == 13 || c == 10 || c == 32

/-- C `tolower` in the "C" locale. -/
def tolower (c : Nat) : Nat := if 65 ≤ c ∧ c ≤ 90 then c + 32 else c

/-- Modelled from the spec: `dc_strlower_in_place` (dc_tools.c, not among the
sources) is the case-folding string utility; it folds every byte of the string
to lowercase. -/
def dc_strlower_in_place (s : List Nat) : List Nat := s.map tolower

/-- C `strchr(s, ch)` for `ch != 0`: the string from the first `ch` on, or `none` (NULL). -/
def strchr : List Nat → Nat → Option (List Nat)
  | [], _ => none
  | c :: t, ch => if c = ch then some (c :: t) else strchr t ch

/-- C `strstr(s, needle)`: the string from the first occurrence of `needle` on, or `none`. -/
def strstr : List Nat → List Nat → Option (List Nat)
  | [], needle => if needle = [] then some [] else none
  | c :: t, needle => if needle.isPrefixOf (c :: t) then some (c :: t) else strstr t needle

/-- Value of a digit or letter for `strtol`. -/
def digit_val (c : Nat) : Option Nat :=
  if 48 ≤ c ∧ c ≤ 57 then some (c - 48)
  else if 97 ≤ c ∧ c ≤ 122 then some (c - 87)
  else if 65 ≤ c ∧ c ≤ 90 then some (c - 55)
  else none

/-- The digit loop of `strtol`: accumulates the digits valid in `base`; returns the
value, whether a digit was seen, and the string at the first byte that is no digit. -/
def strtol_digits (base : Nat) : List Nat → Nat → Bool → Nat × Bool × List Nat
  | [], acc, any => (acc, any, [])
  | c :: t, acc, any =>
    match digit_val c with
    | some d => if d < base then strtol_digits base t (acc * base + d) true else (acc, any, c :: t)
    | none => (acc, any, c :: t)

/-- LONG_MAX for a 64-bit `long`. -/
def LONG_MAX : Int := 9223372036854775807

/-- LONG_MIN for a 64-bit `long`. -/
def LONG_MIN : Int := -9223372036854775808

/-- C `strtol(nptr, &e, base)` for base 10 and 16: skips white space, reads an
optional sign and, for base 16, an optional `0x`, then the digits; the result is
clamped to the range of `long`. Returns the value and the string at `e`
(`nptr` itself when there is no digit). -/
def strtol (nptr : List Nat) (base : Nat) : Int × List Nat :=
  let s1 := nptr.dropWhile isspace
  let neg : Bool := s1.head? == some 45
  let s2 := if s1.head? == some 45 || s1.head? == some 43 then s1.tail else s1
  let s3 :=
    match s2 with
    | 48 :: x :: h :: t =>
      if base == 16 && (x == 120 || x == 88) && (digit_val h).any (fun d => d < 16)
      then h :: t else s2
    | _ => s2
  match strtol_digits base s3 0 false with
  | (_, false, _) => (0, nptr)
  | (v, true, e) =>
    if neg then (max (-(v : Int)) LONG_MIN, e) else (min (v : Int) LONG_MAX, e)

/-! ## The entity table -/

/-- The table `s_ent`: pairs of an entity name (without the leading `&`, with the
trailing `;`) and its replacement text as UTF-8 bytes, in the order of the source. -/
def s_ent : List (List Nat × List Nat) := [
  (ascii "lt;", [60]), (ascii "gt;", [62]), (ascii "quot;", [34]), (ascii "apos;", [39]),
  (ascii "amp;", [38]), (ascii "nbsp;", [32]), (ascii "iexcl;", [194, 161]),
  (ascii "cent;", [194, 162]), (ascii "pound;", [194, 163]), (ascii "curren;", [194, 164]),
  (ascii "yen;", [194, 165]), (ascii "brvbar;", [194, 166]), (ascii "sect;", [194, 167]),
  (ascii "uml;", [194, 168]), (ascii "copy;", [194, 169]), (ascii "ordf;", [194, 170]),
  (ascii "laquo;", [194, 171]), (ascii "not;", [194, 172]), (ascii "shy;", [45]),
  (ascii "reg;", [194, 174]), (ascii "macr;", [194, 175]), (ascii "deg;", [194, 176]),
  (ascii "plusmn;", [194, 177]), (ascii "sup2;", [194, 178]), (ascii "sup3;", [194, 179]),
  (ascii "acute;", [194, 180]), (ascii "micro;", [194, 181]), (ascii "para;", [194, 182]),
  (ascii "middot;", [194, 183]), (ascii "cedil;", [194, 184]), (ascii "sup1;", [194, 185]),
  (ascii "ordm;", [194, 186]), (ascii "raquo;", [194, 187]), (ascii "frac14;", [194, 188]),
  (ascii "frac12;", [194, 189]), (ascii "frac34;", [194, 190]), (ascii "iquest;", [194, 191]),
  (ascii "Agrave;", [195, 128]), (ascii "Aacute;", [195, 129]), (ascii "Acirc;", [195, 130]),
  (ascii "Atilde;", [195, 131]), (ascii "Auml;", [195, 132]), (ascii "Aring;", [195, 133]),
  (ascii "AElig;", [195, 134]), (ascii "Ccedil;", [195, 135]), (ascii "Egrave;", [195, 136]),
  (ascii "Eacute;", [195, 137]), (ascii "Ecirc;", [195, 138]), (ascii "Euml;", [195, 139]),
  (ascii "Igrave;", [195, 140]), (ascii "Iacute;", [195, 141]), (ascii "Icirc;", [195, 142]),
  (ascii "Iuml;", [195, 143]), (ascii "ETH;", [195, 144]), (ascii "Ntilde;", [195, 145]),
  (ascii "Ograve;", [195, 146]), (ascii "Oacute;", [195, 147]), (ascii "Ocirc;", [195, 148]),
  (ascii "Otilde;", [195, 149]), (ascii "Ouml;", [195, 150]), (ascii "times;", [195, 151]),
  (ascii "Oslash;", [195, 152]), (ascii "Ugrave;", [195, 153]), (ascii "Uacute;", [195, 154]),
  (ascii "Ucirc;", [195, 155]), (ascii "Uuml;", [195, 156]), (ascii "Yacute;", [195, 157]),
  (ascii "THORN;", [195, 158]), (ascii "szlig;", [195, 159]), (ascii "agrave;", [195, 160]),
  (ascii "aacute;", [195, 161]), (ascii "acirc;", [195, 162]), (ascii "atilde;", [195, 163]),
  (ascii "auml;", [195, 164]), (ascii "aring;", [195, 165]), (ascii "aelig;", [195, 166]),
  (ascii "ccedil;", [195, 167]), (ascii "egrave;", [195, 168]), (ascii "eacute;", [195, 169]),
  (ascii "ecirc;", [195, 170]), (ascii "euml;", [195, 171]), (ascii "igrave;", [195, 172]),
  (ascii "iacute;", [195, 173]), (ascii "icirc;", [195, 174]), (ascii "iuml;", [195, 175]),
  (ascii "eth;", [195, 176]), (ascii "ntilde;", [195, 177]), (ascii "ograve;", [195, 178]),
  (ascii "oacute;", [195, 179]), (ascii "ocirc;", [195, 180]), (ascii "otilde;", [195, 181]),
  (ascii "ouml;", [195, 182]), (ascii "divide;", [195, 183]), (ascii "oslash;", [195, 184]),
  (ascii "ugrave;", [195, 185]), (ascii "uacute;", [195, 186]), (ascii "ucirc;", [195, 187]),
  (ascii "uuml;", [195, 188]), (ascii "yacute;", [195, 189]), (ascii "thorn;", [195, 190]),
  (ascii "yuml;", [195, 191]), (ascii "OElig;", [197, 146]), (ascii "oelig;", [197, 147]),
  (ascii "Scaron;", [197, 160]), (ascii "scaron;", [197, 161]), (ascii "Yuml;", [197, 184]),
  (ascii "fnof;", [198, 146]), (ascii "circ;", [203, 134]), (ascii "tilde;", [203, 156]),
  (ascii "Alpha;", [206, 145]), (ascii "Beta;", [206, 146]), (ascii "Gamma;", [206, 147]),
  (ascii "Delta;", [206, 148]), (ascii "Epsilon;", [206, 149]), (ascii "Zeta;", [206, 150]),
  (ascii "Eta;", [206, 151]), (ascii "Theta;", [206, 152]), (ascii "Iota;", [206, 153]),
  (ascii "Kappa;", [206, 154]), (ascii "Lambda;", [206, 155]), (ascii "Mu;", [206, 156]),
  (ascii "Nu;", [206, 157]), (ascii "Xi;", [206, 158]), (ascii "Omicron;", [206, 159]),
  (ascii "Pi;", [206, 160]), (ascii "Rho;", [206, 161]), (ascii "Sigma;", [206, 163]),
  (ascii "Tau;", [206, 164]), (ascii "Upsilon;", [206, 165]), (ascii "Phi;", [206, 166]),
  (ascii "Chi;", [206, 167]), (ascii "Psi;", [206, 168]), (ascii "Omega;", [206, 169]),
  (ascii "alpha;", [206, 177]), (ascii "beta;", [206, 178]), (ascii "gamma;", [206, 179]),
  (ascii "delta;", [206, 180]), (ascii "epsilon;", [206, 181]), (ascii "zeta;", [206, 182]),
  (ascii "eta;", [206, 183]), (ascii "theta;", [206, 184]), (ascii "iota;", [206, 185]),
  (ascii "kappa;", [206, 186]), (ascii "lambda;", [206, 187]), (ascii "mu;", [206, 188]),
  (ascii "nu;", [206, 189]), (ascii "xi;", [206, 190]), (ascii "omicron;", [206, 191]),
  (ascii "pi;", [207, 128]), (ascii "rho;", [207, 129]), (ascii "sigmaf;", [207, 130]),
  (ascii "sigma;", [207, 131]), (ascii "tau;", [207, 132]), (ascii "upsilon;", [207, 133]),
  (ascii "phi;", [207, 134]), (ascii "chi;", [207, 135]), (ascii "psi;", [207, 136]),
  (ascii "omega;", [207, 137]), (ascii "thetasym;", [207, 145]), (ascii "upsih;", [207, 146]),
  (ascii "piv;", [207, 150]), (ascii "ensp;", [32]), (ascii "emsp;", [32]),
  (ascii "thinsp;", [32]), (ascii "zwnj;", []), (ascii "zwj;", []), (ascii "lrm;", []),
  (ascii "rlm;", []), (ascii "ndash;", [226, 128, 147]), (ascii "mdash;", [226, 128, 148]),
  (ascii "lsquo;", [226, 128, 152]), (ascii "rsquo;", [226, 128, 153]),
  (ascii "sbquo;", [226, 128, 154]), (ascii "ldquo;", [226, 128, 156]),
  (ascii "rdquo;", [226, 128, 157]), (ascii "bdquo;", [226, 128, 158]),
  (ascii "dagger;", [226, 128, 160]), (ascii "Dagger;", [226, 128, 161]),
  (ascii "bull;", [226, 128, 162]), (ascii "hellip;", [226, 128, 166]),
  (ascii "permil;", [226, 128, 176]), (ascii "prime;", [226, 128, 178]),
  (ascii "Prime;", [226, 128, 179]), (ascii "lsaquo;", [226, 128, 185]),
  (ascii "rsaquo;", [226, 128, 186]), (ascii "oline;", [226, 128, 190]),
  (ascii "frasl;", [226, 129, 132]), (ascii "euro;", [226, 130, 172]),
  (ascii "image;", [226, 132, 145]), (ascii "weierp;", [226, 132, 152]),
  (ascii "real;", [226, 132, 156]), (ascii "trade;", [226, 132, 162]),
  (ascii "alefsym;", [226, 132, 181]), (ascii "larr;", [226, 134, 144]),
  (ascii "uarr;", [226, 134, 145]), (ascii "rarr;", [226, 134, 146]),
  (ascii "darr;", [226, 134, 147]), (ascii "harr;", [226, 134, 148]),
  (ascii "crarr;", [226, 134, 181]), (ascii "lArr;", [226, 135, 144]),
  (ascii "uArr;", [226, 135, 145]), (ascii "rArr;", [226, 135, 146]),
  (ascii "dArr;", [226, 135, 147]), (ascii "hArr;", [226, 135, 148]),
  (ascii "forall;", [226, 136, 128]), (ascii "part;", [226, 136, 130]),
  (ascii "exist;", [226, 136, 131]), (ascii "empty;", [226, 136, 133]),
  (ascii "nabla;", [226, 136, 135]), (ascii "isin;", [226, 136, 136]),
  (ascii "notin;", [226, 136, 137]), (ascii "ni;", [226, 136, 139]),
  (ascii "prod;", [226, 136, 143]), (ascii "sum;", [226, 136, 145]),
  (ascii "minus;", [226, 136, 146]), (ascii "lowast;", [226, 136, 151]),
  (ascii "radic;", [226, 136, 154]), (ascii "prop;", [226, 136, 157]),
  (ascii "infin;", [226, 136, 158]), (ascii "ang;", [226, 136, 160]),
  (ascii "and;", [226, 136, 167]), (ascii "or;", [226, 136, 168]), (ascii "cap;", [226, 136, 169]),
  (ascii "cup;", [226, 136, 170]), (ascii "int;", [226, 136, 171]),
  (ascii "there4;", [226, 136, 180]), (ascii "sim;", [226, 136, 188]),
  (ascii "cong;", [226, 137, 133]), (ascii "asymp;", [226, 137, 136]),
  (ascii "ne;", [226, 137, 160]), (ascii "equiv;", [226, 137, 161]),
  (ascii "le;", [226, 137, 164]), (ascii "ge;", [226, 137, 165]), (ascii "sub;", [226, 138, 130]),
  (ascii "sup;", [226, 138, 131]), (ascii "nsub;", [226, 138, 132]),
  (ascii "sube;", [226, 138, 134]), (ascii "supe;", [226, 138, 135]),
  (ascii "oplus;", [226, 138, 149]), (ascii "otimes;", [226, 138, 151]),
  (ascii "perp;", [226, 138, 165]), (ascii "sdot;", [226, 139, 133]),
  (ascii "lceil;", [226, 140, 136]), (ascii "rceil;", [226, 140, 137]),
  (ascii "lfloor;", [226, 140, 138]), (ascii "rfloor;", [226, 140, 139]), (ascii "lang;", [60]),
  (ascii "rang;", [62]), (ascii "loz;", [226, 151, 138]), (ascii "spades;", [226, 153, 160]),
  (ascii "clubs;", [226, 153, 163]), (ascii "hearts;", [226, 153, 165]),
  (ascii "diams;", [226, 153, 166])
]

/-! ## xml_decode -/

/-- The call `memmove(s, s + 1, strlen(s))` of the first loop, seen on the memory from
`s + 1` on: every byte up to and including the terminator moves down by one and the
old terminator byte stays where it was. `none` when the allocation holds no
terminator. -/
def shift_down : List Nat → Option (List Nat)
  | [] => none
  | c :: m => if c = 0 then some (0 :: 0 :: m) else (shift_down m).map (fun r => c :: r)

/-- The first loop of `xml_decode` (line endings) on the memory from the cursor `s` on.

    for (; *s; s++) {
        while (*s == '\r') {
            *(s++) = '\n';
            if (*s == '\n') memmove(s, (s + 1), strlen(s));
        }
    }

The flag is `false` where the condition `*s` of the `for` is evaluated and `true`
where the condition of the `while` is evaluated. Returns the memory after the loop. -/
def normalize_loop : Nat → Bool → List Nat → Outcome (List Nat)
  | 0, _, _ => .outOfFuel
  | _ + 1, _, [] => .undefined
  | fuel + 1, false, c :: m =>
    if c = 0 then .done (c :: m) else normalize_loop fuel true (c :: m)
  | fuel + 1, true, c :: m =>
    if c = 13 then
      match m with
      | [] => .undefined
      | d :: m1 =>
        if d = 10 then
          match shift_down m1 with
          | none => .undefined
          | some m2 => (normalize_loop fuel true m2).map (fun r => 10 :: r)
        else (normalize_loop fuel true (d :: m1)).map (fun r => 10 :: r)
    else (normalize_loop fuel false m).map (fun r => c :: r)

/-- The loop `for (b = 0, d = c; d; d /= 2) b++;`: the number of bits of `c`. -/
def count_bits : Nat → Nat → Nat
  | 0, _ => 0
  | fuel + 1, d => if d = 0 then 0 else count_bits fuel (d / 2) + 1

/-- The loop `while (b) *(s++) = 0x80 | ((c >> (6 * --b)) & 0x3F);`. -/
def payload_bytes (c : Nat) : Nat → List Nat
  | 0 => []
  | b + 1 => (0x80 ||| ((c >>> (6 * b)) &&& 0x3F)) :: payload_bytes c b

/-- The bytes a character reference with value `c` is replaced by (lines 153-159);
`undefined` where the shift count `7 - b` is negative. -/
def char_ref_bytes (c : Int) : Outcome (List Nat) :=
  if c < 0x80 then .done [(c % 256).toNat]
  else
    let n := c.toNat
    let b := (count_bits 64 n - 2) / 5
    if 7 < b then .undefined
    else .done ((((0xFF <<< (7 - b)) ||| (n >>> (6 * b))) % 256) :: payload_bytes n b)

/-- The search `for (b = 0; s_ent[b] && strncmp(s + 1, s_ent[b], strlen(s_ent[b])); b += 2)`
on the string at `s + 1`: the first pair of the table whose name starts that string. -/
def find_entity (table : List (List Nat × List Nat)) (s1 : List Nat) :
    Option (List Nat × List Nat) :=
  table.find? (fun e => e.1.isPrefixOf s1)

/-- The second loop of `xml_decode` (lines 139-196) on the string at the cursor `s`;
returns the bytes the string at `s` holds when the loop ends.

One step is one turn of the inner `while` or one pass through the branches.
After a character reference the scan goes on behind the bytes written; after an
entity it goes on at the first byte of the replacement. The buffer growth of
lines 171-184 moves the text and does not change it. -/
def decode_loop : Nat → Nat → List Nat → Outcome (List Nat)
  | 0, _, _ => .outOfFuel
  | _ + 1, _, [] => .done []
  | fuel + 1, type, c :: t =>
    if c != 38 && !isspace c then
      (decode_loop fuel type t).map (fun r => c :: r)
    else if type != 99 && (c :: t).take 2 == [38, 35] then
      let ce := if ((c :: t).drop 2).head? == some 120
                then strtol ((c :: t).drop 3) 16 else strtol ((c :: t).drop 2) 10
      if ce.1 == 0 || ce.2.head? != some 59 then
        (decode_loop fuel type t).map (fun r => c :: r)
      else
        (char_ref_bytes ce.1).bind fun w =>
          match strchr ((c :: t).drop w.length) 59 with
          | none => .undefined
          | some e => (decode_loop fuel type e.tail).map (fun r => w ++ r)
    else if c == 38 && (type == 38 || type == 32) then
      match find_entity s_ent t with
      | some ent =>
        match strchr (c :: t) 59 with
        | none => .undefined
        | some e => decode_loop fuel type (ent.2 ++ e.tail)
      | none => (decode_loop fuel type t).map (fun r => c :: r)
    else if type == 32 && isspace c then
      (decode_loop fuel type t).map (fun r => 32 :: r)
    else (decode_loop fuel type t).map (fun r => c :: r)

/-- The test of line 164, `(c = strlen(s_ent[b])) - 1 > (e = strchr(s, ';')) - s`, that
sends the second loop into the branch that enlarges the buffer: `repl` is the
replacement text, `s` the string at the cursor and `e` the string at its first `;`. -/
def enlarge_test (repl s e : List Nat) : Bool :=
  decide ((repl.length : Int) - 1 > (s.length : Int) - (e.length : Int))

/-- The function `xml_decode(s, type)` on the memory `m` that starts at `s` (the string,
its terminator, and what follows in the same allocation). Returns the decoded
string and the memory behind the place of the original terminator, which the
first loop may have rewritten. -/
def xml_decode (m : List Nat) (type : Nat) : Outcome (List Nat × List Nat) :=
  (normalize_loop (2 * m.length + 2) false m).bind fun m1 =>
    (decode_loop ((cstr m1).length + 1) type (cstr m1)).bind fun r =>
      .done (cstr r, m1.drop ((cstr m).length + 1))

/-! ## The tokenizer -/

/-- One callback invocation: `starttag_cb(userdata, tag, attr)`, `endtag_cb(userdata, tag)`
or `text_cb(userdata, text, len)`. The attribute list holds the key/value pairs of
`attr` up to its NULL entry. -/
inductive Event where
  | starttag (tag : List Nat) (attr : List (List Nat × List Nat))
  | endtag (tag : List Nat)
  | text (text : List Nat) (len : Nat)
  deriving DecidableEq, Repr

/-- The constant `#define MAX_ATTR 100`. -/
def MAX_ATTR : Nat := 100

/-- Membership in the string `XML_WS "/>"`, the bytes that end a tag name or an
unquoted attribute value. -/
def tag_name_stop (c : Nat) : Bool := is_xml_ws c || c == 47 || c == 62

/-- Membership in the string `XML_WS "=/>"`, the bytes that end an attribute name. -/
def attr_name_stop (c : Nat) : Bool := is_xml_ws c || c == 61 || c == 47 || c == 62

/-- Membership in the string `XML_WS "="`. -/
def ws_or_eq (c : Nat) : Bool := is_xml_ws c || c == 61

/-- The function `call_text_cb(saxparser, text, len, type)`: `text` holds the `len` bytes
at `text` and `rest` is the string at `text + len`. The byte `text[len]` is set to
NUL for the call of `xml_decode` and restored afterwards. Returns the callback
invocations and the string at `text + len` after the call.

When `rest` is empty, `text[len]` is the terminator of the working buffer and the
allocation ends there. A call that rewrites the memory behind `text[len]` leaves
no carriage return in it, so the NUL bytes such a call leaves behind the new end
of the buffer are not read again. -/
def call_text_cb (text rest : List Nat) (type : Nat) : Outcome (List Event × List Nat) :=
  if text.isEmpty then .done ([], rest)
  else
    match rest with
    | [] =>
      (xml_decode (text ++ [0]) type).bind fun r =>
        .done ([Event.text r.1 text.length], [])
    | bak :: after =>
      (xml_decode (text ++ 0 :: (after ++ [0])) type).bind fun r =>
        .done ([Event.text r.1 text.length], bak :: cstr r.2)

/-- The value of an attribute without quotes (lines 461-468) at `p`: it ends before the
next byte of `XML_WS "/>"` and is decoded in a copy made by `dc_strdup`. Returns the
value and the new `p`. -/
def attr_value_unquoted (p : List Nat) : Outcome (List Nat × List Nat) :=
  (xml_decode (p.takeWhile (fun x => !tag_name_stop x) ++ [0]) 32).bind fun r =>
    .done (r.1, p.dropWhile (fun x => !tag_name_stop x))

/-- Modelled from the spec: `dc_strdup` (dc_tools.c, not among the sources) is the
duplicate-string utility; `dc_strdup(NULL)` is an empty string, not NULL, so that an
attribute without `=` has an empty value. -/
@[reducible]
def dc_strdup_null : List Nat := []

/-- The value of an attribute (lines 439-474); `p` is the position behind the
attribute name. Returns the value and the new `p`. A quoted value is decoded
in place, its closing quote overwritten by NUL; without `=` the value is
`dc_strdup(NULL)`. -/
def attr_value (p : List Nat) : Outcome (List Nat × List Nat) :=
  let p1 := p.dropWhile is_xml_ws
  if p1.head? == some 61 then
    match p1.dropWhile ws_or_eq with
    | [] => attr_value_unquoted []
    | quote :: t =>
      if quote == 34 || quote == 39 then
        match t.dropWhile (fun x => x != quote) with
        | [] =>
          (xml_decode (t.takeWhile (fun x => x != quote) ++ [0]) 32).bind fun r =>
            .done (r.1, [])
        | _ :: t1 =>
          (xml_decode (t.takeWhile (fun x => x != quote) ++ 0 :: (t1 ++ [0])) 32).bind fun r =>
            .done (r.1, cstr r.2)
      else attr_value_unquoted (quote :: t)
  else .done (dc_strdup_null, p1)

/-- The attribute loop `while (*p && *p!='/' && *p!='>')` (lines 426-503) with `p` and the
attributes recorded so far (`attr_index` is twice their number). Returns the
attribute list and `p` at the end of the loop. -/
def attr_loop : Nat → List Nat → List (List Nat × List Nat) →
    Outcome (List (List Nat × List Nat) × List Nat)
  | 0, _, _ => .outOfFuel
  | _ + 1, [], attr => .done (attr, [])
  | fuel + 1, c :: t, attr =>
    if c == 47 || c == 62 then .done (attr, c :: t)
    else if c == 61 then attr_loop fuel t attr
    else
      let name := (c :: t).takeWhile (fun x => !attr_name_stop x)
      let p1 := (c :: t).dropWhile (fun x => !attr_name_stop x)
      if name.isEmpty then attr_loop fuel (p1.dropWhile isspace) attr
      else
        (attr_value p1).bind fun v =>
          attr_loop fuel (v.2.dropWhile isspace)
            (if 2 * attr.length < MAX_ATTR then attr ++ [(dc_strlower_in_place name, v.1)]
             else attr)

/-- The branch for a start tag or an end tag (lines 391-521) with `p` behind the `<`.
Returns the callback invocations and `p` at line 523. -/
def parse_tag (p : List Nat) : Outcome (List Event × List Nat) :=
  let p1 := p.dropWhile is_xml_ws
  if p1.head? == some 47 then
    let p2 := p1.tail.dropWhile is_xml_ws
    let name := p2.takeWhile (fun x => !tag_name_stop x)
    .done (if name.isEmpty then [] else [Event.endtag (dc_strlower_in_place name)],
      p2.dropWhile (fun x => !tag_name_stop x))
  else
    let name := p1.takeWhile (fun x => !tag_name_stop x)
    let p2 := p1.dropWhile (fun x => !tag_name_stop x)
    if name.isEmpty then .done ([], p2)
    else
      (attr_loop (p2.length + 1) (p2.dropWhile isspace) []).bind fun a =>
        let p3 := a.2.dropWhile is_xml_ws
        if p3.head? == some 47 then
          .done ([Event.starttag (dc_strlower_in_place name) a.1,
                  Event.endtag (dc_strlower_in_place name)], p3.tail)
        else .done ([Event.starttag (dc_strlower_in_place name) a.1], p3)

/-- The main loop `while (*p)` of `dc_saxparser_parse` with the final flush (lines 327-537):
`text` holds the bytes from `last_text_start` to `p`. Returns the callback
invocations from here on; a `goto cleanup` ends them. -/
def parse_loop : Nat → List Nat → List Nat → Outcome (List Event)
  | 0, _, _ => .outOfFuel
  | _ + 1, text, [] => (call_text_cb text [] 38).bind fun r => .done r.1
  | fuel + 1, text, c :: t =>
    if c != 60 then parse_loop fuel (text ++ [c]) t
    else
      (call_text_cb text (c :: t) 38).bind fun r =>
        let p := r.2.tail
        if [33, 45, 45].isPrefixOf p then
          match strstr p [45, 45, 62] with
          | none => .done r.1
          | some q => (parse_loop fuel [] (q.drop 3)).map (fun ev => r.1 ++ ev)
        else if [33, 91, 67, 68, 65, 84, 65, 91].isPrefixOf p then
          match strstr p [93, 93, 62] with
          | some q =>
            (call_text_cb ((p.drop 8).take ((p.drop 8).length - q.length)) q 99).bind fun r1 =>
              (parse_loop fuel [] (r1.2.drop 3)).map (fun ev => r.1 ++ r1.1 ++ ev)
          | none =>
            (call_text_cb (p.drop 8) [] 99).bind fun r1 => .done (r.1 ++ r1.1)
        else if [33, 68, 79, 67, 84, 89, 80, 69].isPrefixOf p then
          match p.dropWhile (fun x => x != 91 && x != 62) with
          | [] => .done r.1
          | d :: t1 =>
            if d == 91 then
              match strstr (d :: t1) [93, 62] with
              | none => .done r.1
              | some q => (parse_loop fuel [] (q.drop 2)).map (fun ev => r.1 ++ ev)
            else (parse_loop fuel [] t1).map (fun ev => r.1 ++ ev)
        else if p.head? == some 63 then
          match strstr p [63, 62] with
          | none => .done r.1
          | some q => (parse_loop fuel [] (q.drop 2)).map (fun ev => r.1 ++ ev)
        else
          (parse_tag p).bind fun r1 =>
            match strchr r1.2 62 with
            | none => .done (r.1 ++ r1.1)
            | some q => (parse_loop fuel [] q.tail).map (fun ev => r.1 ++ r1.1 ++ ev)

/-- The function `dc_saxparser_parse(saxparser, buf_start__)` for a parser that is not
NULL: the callback invocations, in order. The working buffer is the copy
`dc_strdup(buf_start__)` of the input string. -/
def dc_saxparser_parse (buf : List Nat) : Outcome (List Event) :=
  parse_loop ((cstr buf).length + 1) [] (cstr buf)

/-! ## The attribute lookup -/

/-- The array `char** attr` that holds the key/value pairs `pairs` and the NULL entry that
ends the list; a value pointer may be NULL, a key pointer is not. -/
def attr_array (pairs : List (List Nat × Option (List Nat))) : List (Option (List Nat)) :=
  pairs.flatMap (fun p => [some p.1, p.2]) ++ [none]

/-- The scan of `dc_attr_find` (lines 264-271) from the index `i`:

    while (attr[i] && strcmp(key, attr[i])) { i += 2; }
    if (attr[i]) { return attr[i + 1]; }
    return NULL;

`attr` is the list of the entries of the array; a read outside it is undefined. -/
def attr_find_loop (attr : List (Option (List Nat))) (key : List Nat) :
    Nat → Nat → Outcome (Option (List Nat))
  | 0, _ => .outOfFuel
  | fuel + 1, i =>
    match attr[i]? with
    | none => .undefined
    | some none => .done none
    | some (some k) =>
      if key ≠ k then attr_find_loop attr key fuel (i + 2)
      else
        match attr[i + 1]? with
        | none => .undefined
        | some v => .done v

/-- The function `dc_attr_find(attr, key)`; `none` is the NULL pointer, for the arguments and
for the result. -/
def dc_attr_find (attr : Option (List (Option (List Nat)))) (key : Option (List Nat)) :
    Outcome (Option (List Nat)) :=
  match attr, key with
  | some a, some k => attr_find_loop a k (a.length + 1) 0
  | _, _ => .done none

/-! ## Definitions used in the statements -/

/-- What the second loop does to a byte that starts no reference. -/
def plain_byte (type c : Nat) : Nat := if type == 32 && isspace c then 32 else c

/-- The ASCII digit (or letter, in upper or lower case) of a digit value. -/
def digit_byte (upper : Bool) (d : Nat) : Nat :=
  if d < 10 then 48 + d else if upper then 55 + d else 87 + d

/-- The numeral of `n` in the given base, most significant digit first, without a
leading zero (empty for `n = 0`). -/
def numeral (base : Nat) (upper : Bool) (n : Nat) : List Nat :=
  (Nat.digits base n).reverse.map (digit_byte upper)

/-- The standard UTF-8 encoding of a code point up to 0x10FFFF: one byte below 0x80, two
bytes up to 0x7FF, three bytes up to 0xFFFF, four bytes above. -/
def utf8_encode (c : Nat) : List Nat :=
  if c < 0x80 then [c]
  else if c < 0x800 then [0xC0 + c / 64, 0x80 + c % 64]
  else if c < 0x10000 then [0xE0 + c / 4096, 0x80 + c / 64 % 64, 0x80 + c % 64]
  else [0xF0 + c / 262144, 0x80 + c / 4096 % 64, 0x80 + c / 64 % 64, 0x80 + c % 64]

/-- Facts about one pair of the table, checked by evaluation: the name holds no NUL and no
carriage return and ends with `;`, the linear search started at the name finds this pair,
and the second loop turns `&name` into the replacement in general and in attribute mode. -/
def entity_ok (e : List Nat × List Nat) : Bool :=
  e.1.all (fun x => x != 0 && x != 13) &&
  e.1.getLast? == some 59 &&
  find_entity s_ent e.1 == some e &&
  decode_loop (e.1.length + 2) 38 (38 :: e.1) == .done e.2 &&
  decode_loop (e.1.length + 2) 32 (38 :: e.1) == .done e.2 &&
  cstr e.2 == e.2

/-- Line-ending normalization as the specification words it: every carriage return,
together with a line feed that follows it directly, becomes one line feed. -/
def normalize_newlines : List Nat → List Nat
  | [] => []
  | [c] => if c = 13 then [10] else [c]
  | c :: d :: t =>
    if c = 13 then
      if d = 10 then 10 :: normalize_newlines t else 10 :: normalize_newlines (d :: t)
    else c :: normalize_newlines (d :: t)

/-- Whether the first loop of `xml_decode`, at the condition of its `for` (`b = false`) or
of its `while` (`b = true`) with the string `s` and `j` further NUL bytes in front of it,
moves its cursor behind all of them: the string ends with a carriage return (or is empty,
inside the `while`), no pair was collapsed, and there is no further NUL byte. -/
def overruns (s : List Nat) (j : Nat) (b : Bool) : Bool :=
  j == 0 && (normalize_newlines s).length == s.length &&
    (if s.isEmpty then b else s.getLast? == some 13)

/-- The value of an attribute whose source text is `v`: what `xml_decode(v, ' ')`
returns, the second loop applied to `v` with its line endings normalized. -/
def decode_value (v : List Nat) : Outcome (List Nat) :=
  (decode_loop ((normalize_newlines v).length + 1) 32 (normalize_newlines v)).map cstr

/-- An attribute name as it is written in a tag: not empty, and free of NUL, white space,
`=`, `/` and `>`. -/
def name_ok (name : List Nat) : Prop :=
  name ≠ [] ∧ ∀ x ∈ name, attr_name_stop x = false ∧ isspace x = false ∧ x ≠ 0

/-- The string starts with a byte of `XML_WS "/>"`. -/
def starts_with_stop (p : List Nat) : Prop := ∃ c t, p = c :: t ∧ tag_name_stop c = true

/-- The text of a start tag behind the tag name, up to and including the `>`, together
with the attributes written in it and whether the tag closes itself. Attributes are
written `name="v"`, `name='v'`, `name=v` or `name`, each after any amount of `XML_WS`
white space; the value of a quoted attribute may hold anything but its quote. -/
inductive AttrText : List Nat → List (List Nat × List Nat) → Bool → Prop where
  | close (ws : List Nat) : (∀ x ∈ ws, is_xml_ws x = true) → AttrText (ws ++ [62]) [] false
  | selfclose (ws : List Nat) : (∀ x ∈ ws, is_xml_ws x = true) →
      AttrText (ws ++ [47, 62]) [] true
  | quoted (ws name : List Nat) (q : Nat) (v val p : List Nat)
      (attrs : List (List Nat × List Nat)) (sc : Bool) :
      (∀ x ∈ ws, is_xml_ws x = true) → name_ok name → (q = 34 ∨ q = 39) →
      (∀ x ∈ v, x ≠ q ∧ x ≠ 0) → decode_value v = .done val → AttrText p attrs sc →
      AttrText (ws ++ (name ++ 61 :: q :: (v ++ q :: p)))
        ((dc_strlower_in_place name, val) :: attrs) sc
  | unquoted (ws name v val p : List Nat) (attrs : List (List Nat × List Nat)) (sc : Bool) :
      (∀ x ∈ ws, is_xml_ws x = true) → name_ok name →
      (∀ x ∈ v, tag_name_stop x = false ∧ x ≠ 0) →
      (∃ c t, v = c :: t ∧ c ≠ 34 ∧ c ≠ 39 ∧ c ≠ 61) →
      decode_value v = .done val → AttrText p attrs sc → starts_with_stop p →
      AttrText (ws ++ (name ++ 61 :: (v ++ p))) ((dc_strlower_in_place name, val) :: attrs) sc
  | bare (ws name p : List Nat) (attrs : List (List Nat × List Nat)) (sc : Bool) :
      (∀ x ∈ ws, is_xml_ws x = true) → name_ok name → AttrText p attrs sc →
      starts_with_stop p →
      AttrText (ws ++ (name ++ p)) ((dc_strlower_in_place name, []) :: attrs) sc

/-- A tag name as it is written behind `<`: not empty, free of NUL and of the bytes of
`XML_WS "/>"`, and not starting with `!` or `?`. -/
def tag_ok (tag : List Nat) : Prop :=
  (∃ c t, tag = c :: t ∧ c ≠ 33 ∧ c ≠ 63) ∧ ∀ x ∈ tag, tag_name_stop x = false ∧ x ≠ 0

/-- Text of the attribute number `i` of the test tag: a space, a one-letter name, `=`, and
a one-byte value without quotes. -/
def attr_text (i : Nat) : List Nat := [32, 97 + i % 26, 61, 48 + i / 26]

/-- The pair (name, value) of the attribute number `i` of the test tag. -/
def attr_pair (i : Nat) : List Nat × List Nat := ([97 + i % 26], [48 + i / 26])

/-- A start tag `<t ...>` with `n` pairwise different attributes. -/
def tag_with_attrs (n : Nat) : List Nat :=
  [60, 116] ++ (List.range n).flatMap attr_text ++ [62]

/-- A start tag `<t ...>` with `n` pairwise different attributes written `name=v`, behind
them the attribute name `disabled` without `=`. -/
def tag_with_bare (n : Nat) : List Nat :=
  [60, 116] ++ (List.range n).flatMap attr_text ++ ascii " disabled>"

/-- The text of the attribute number `i` of the test tag, the value in double quotes. -/
def attr_text_quoted (i : Nat) : List Nat := [32, 97 + i % 26, 61, 34, 48 + i / 26, 34]

/-- A start tag `<t ...>` with `n` pairwise different attributes written `name="v"`. -/
def tag_with_quoted (n : Nat) : List Nat :=
  [60, 116] ++ (List.range n).flatMap attr_text_quoted ++ [62]

/-- The value `dc_attr_find` is to return: that of the first pair whose key is `key`, NULL
when there is none. -/
def first_value (pairs : List (List Nat × Option (List Nat))) (key : List Nat) :
    Option (List Nat) :=
  match pairs.find? (fun p => p.1 == key) with
  | some p => p.2
  | none => none

/-- Further facts about one pair of the table, checked by evaluation: the replacement has
at most as many bytes as the name (so fewer than "&name"), the only `;` of the name is
its last byte, and the replacement holds no `#` and no white space other than the
space. -/
def entity_short (e : List Nat × List Nat) : Bool :=
  decide (e.2.length ≤ e.1.length) && e.1.dropLast.all (fun x => x != 59) &&
    e.1.getLast? == some 59 && e.2.all (fun x => x != 35 && (!isspace x || x == 32))

/-- A decimal digit. -/
def is_digit (c : Nat) : Bool := decide (48 ≤ c ∧ c ≤ 57)

/-- A hexadecimal digit, in either case. -/
def is_hex_digit (c : Nat) : Bool :=
  decide ((48 ≤ c ∧ c ≤ 57) ∨ (97 ≤ c ∧ c ≤ 102) ∨ (65 ≤ c ∧ c ≤ 70))

/-- The text `t` behind "&#" (or behind "&#x") does not continue a well-formed reference:
either it starts with no digit (the payload is empty or starts with a byte that is no
digit), and then not with white space or a sign, or its leading digits are not followed
by `;`. -/
def malformed (digit : Nat → Bool) (t : List Nat) : Bool :=
  match t.takeWhile digit with
  | [] =>
    match t with
    | [] => true
    | c :: _ => !isspace c && c != 43 && c != 45
  | _ :: _ => (t.dropWhile digit).head? != some 59

/-- The number of continuation bytes a lead byte announces: the number of its leading one
bits, less one. -/
def announced (c : Nat) : Nat :=
  if c < 0xC0 then 0 else if c < 0xE0 then 1 else if c < 0xF0 then 2 else if c < 0xF8 then 3
  else if c < 0xFC then 4 else if c < 0xFE then 5 else if c < 0xFF then 6 else 7

/-- A continuation byte of a multi-byte UTF-8 sequence, `10xxxxxx`. -/
def is_continuation (c : Nat) : Bool := decide (0x80 ≤ c ∧ c < 0xC0)

/-- The string holds no unterminated multi-byte sequence: every lead byte is followed by
exactly the number of continuation bytes it announces; `pending` is the number of
continuation bytes still due at the start of the string. -/
def utf8_terminated : Nat → List Nat → Bool
  | 0, [] => true
  | _ + 1, [] => false
  | 0, c :: t => !is_continuation c && utf8_terminated (announced c) t
  | n + 1, c :: t => is_continuation c && utf8_terminated n t

/-- The string `q` is what a step of the tokenizer leaves of the string `p`: it is no
longer, it holds no NUL byte, and each of its bytes is a byte of `p` or a line feed (that
the first loop of `xml_decode` has written over a carriage return). -/
def derived (q p : List Nat) : Prop :=
  q.length ≤ p.length ∧ ∀ x ∈ q, x ≠ 0 ∧ (x ∈ p ∨ x = 10)

/-- What holds for every call of the text callback: the length passed is positive and the
text delivered is no longer than it. -/
def text_len_ok : Event → Prop
  | .text d len => d.length ≤ len ∧ 0 < len
  | _ => True

/-- A run of the main loop ends, and every call of the text callback it makes passes a
positive length and a text that is no longer. -/
def events_ok (x : Outcome (List Event)) : Prop :=
  x ≠ .outOfFuel ∧ ∀ evs, x = .done evs → ∀ e ∈ evs, text_len_ok e

/-- A text without NUL, carriage return and `&`: `xml_decode` is defined on it, whatever
surrounds it. -/
def clean (p : List Nat) : Prop := ∀ x ∈ p, x ≠ 0 ∧ x ≠ 13 ∧ x ≠ 38

/-- Facts about the name of one pair of the table, checked by evaluation: it does not
start with `#`, and it holds no `&`, no white space and no NUL, so that the second loop
takes its bytes as they are. -/
def entity_plain (e : List Nat × List Nat) : Bool :=
  e.1.head? != some 35 && e.1.all (fun x => x != 38 && !isspace x && x != 13 && x != 0)

/-! ## Basic facts -/

namespace Outcome

@[simp] theorem bind_done {α β : Type} (a : α) (f : α → Outcome β) :
    (Outcome.done a).bind f = f a := rfl

@[simp] theorem bind_undefined {α β : Type} (f : α → Outcome β) :
    (Outcome.undefined : Outcome α).bind f = Outcome.undefined := rfl

@[simp] theorem bind_outOfFuel {α β : Type} (f : α → Outcome β) :
    (Outcome.outOfFuel : Outcome α).bind f = Outcome.outOfFuel := rfl

@[simp] theorem map_done {α β : Type} (a : α) (f : α → β) :
    (Outcome.done a).map f = Outcome.done (f a) := rfl

@[simp] theorem map_undefined {α β : Type} (f : α → β) :
    (Outcome.undefined : Outcome α).map f = Outcome.undefined := rfl

@[simp] theorem map_outOfFuel {α β : Type} (f : α → β) :
    (Outcome.outOfFuel : Outcome α).map f = Outcome.outOfFuel := rfl

end Outcome

theorem cstr_append_zero (s tail : List Nat) (hs : ∀ x ∈ s, x ≠ 0) :
    cstr (s ++ 0 :: tail) = s := by
  induction s with
  | nil => simp [cstr]
  | cons c s ih =>
    have hc : c ≠ 0 := hs c (List.mem_cons_self _ _)
    have := ih (fun x hx => hs x (List.mem_cons_of_mem _ hx))
    simp only [cstr] at this ⊢
    simp [List.takeWhile_cons, hc, this]

theorem cstr_of_no_zero (s : List Nat) (hs : ∀ x ∈ s, x ≠ 0) : cstr s = s := by
  induction s with
  | nil => simp [cstr]
  | cons c s ih =>
    have hc : c ≠ 0 := hs c (List.mem_cons_self _ _)
    have := ih (fun x hx => hs x (List.mem_cons_of_mem _ hx))
    simp only [cstr] at this ⊢
    simp [List.takeWhile_cons, hc, this]

/-- The first loop leaves a string without carriage return, and the memory behind it,
as they are. -/
theorem normalize_loop_no_cr (s tail : List Nat) (hs : ∀ x ∈ s, x ≠ 0 ∧ x ≠ 13) :
    ∀ fuel, 2 * s.length + 1 ≤ fuel →
      normalize_loop fuel false (s ++ 0 :: tail) = .done (s ++ 0 :: tail) := by
  induction s with
  | nil =>
    intro fuel hf
    obtain ⟨f, rfl⟩ : ∃ f, fuel = f + 1 := ⟨fuel - 1, by omega⟩
    simp [normalize_loop]
  | cons c s ih =>
    intro fuel hf
    obtain ⟨f, rfl⟩ : ∃ f, fuel = f + 2 := ⟨fuel - 2, by simp at hf; omega⟩
    have hc := hs c (List.mem_cons_self _ _)
    have ih' := ih (fun x hx => hs x (List.mem_cons_of_mem _ hx)) f (by simp at hf; omega)
    simp [normalize_loop, hc.1, hc.2, ih']

theorem decode_loop_no_amp (type : Nat) (s : List Nat) (hs : ∀ x ∈ s, x ≠ 38) :
    ∀ fuel, s.length + 1 ≤ fuel →
      decode_loop fuel type s = .done (s.map (plain_byte type)) := by
  induction s with
  | nil =>
    intro fuel hf
    obtain ⟨f, rfl⟩ : ∃ f, fuel = f + 1 := ⟨fuel - 1, by omega⟩
    simp [decode_loop]
  | cons c s ih =>
    intro fuel hf
    obtain ⟨f, rfl⟩ : ∃ f, fuel = f + 1 := ⟨fuel - 1, by omega⟩
    have hc : c ≠ 38 := hs c (List.mem_cons_self _ _)
    have ih' := ih (fun x hx => hs x (List.mem_cons_of_mem _ hx)) f (by simp at hf; omega)
    simp only [decode_loop, ih', Outcome.map_done]
    by_cases hsp : isspace c = true
    · by_cases ht : type = 32
      · subst ht
        simp [hc, hsp, plain_byte]
      · simp [hc, hsp, plain_byte, ht]
    · simp [hc, hsp, plain_byte]

theorem plain_byte_ne_zero (type c : Nat) (hc : c ≠ 0) : plain_byte type c ≠ 0 := by
  unfold plain_byte
  split <;> simp [hc]

theorem drop_length_succ_append (s tail : List Nat) (z : Nat) :
    (s ++ z :: tail).drop (s.length + 1) = tail := by
  induction s with
  | nil => simp
  | cons c s ih => simp [ih]

/-- The function `xml_decode` on a string without `&` and carriage return: bytes are kept,
except that attribute normalization turns white space into spaces; the memory
behind the string is not touched. -/
theorem xml_decode_no_amp (type : Nat) (s tail : List Nat)
    (hs : ∀ x ∈ s, x ≠ 0 ∧ x ≠ 38 ∧ x ≠ 13) :
    xml_decode (s ++ 0 :: tail) type = .done (s.map (plain_byte type), tail) := by
  have h0 : ∀ x ∈ s, x ≠ 0 := fun x hx => (hs x hx).1
  have h1 := normalize_loop_no_cr s tail (fun x hx => ⟨(hs x hx).1, (hs x hx).2.2⟩)
    (2 * (s ++ 0 :: tail).length + 2) (by simp; omega)
  have h2 := decode_loop_no_amp type s (fun x hx => (hs x hx).2.1) (s.length + 1) (le_refl _)
  have h3 : cstr (s.map (plain_byte type)) = s.map (plain_byte type) := by
    apply cstr_of_no_zero
    intro x hx
    obtain ⟨y, hy, rfl⟩ := List.mem_map.1 hx
    exact plain_byte_ne_zero type y (h0 y hy)
  unfold xml_decode
  rw [h1]
  simp only [Outcome.bind_done, cstr_append_zero s tail h0, h2, h3, drop_length_succ_append]

/-- C10, as amended: for every string `s` without NUL, `&` and carriage return, and whatever
follows its terminator, `xml_decode` returns `s` itself in general mode (`&`) and in CDATA
mode (`c`); in attribute-normalization mode (space) it returns `s` with every white-space
byte (tab, line feed, vertical tab, form feed) replaced by a space, hence `s` itself when
`s` holds no such byte. -/
theorem xml_decode_plain_text (s tail : List Nat) (hs : ∀ x ∈ s, x ≠ 0 ∧ x ≠ 38 ∧ x ≠ 13) :
    xml_decode (s ++ 0 :: tail) 38 = .done (s, tail) ∧
    xml_decode (s ++ 0 :: tail) 99 = .done (s, tail) ∧
    xml_decode (s ++ 0 :: tail) 32 = .done (s.map (fun c => if isspace c then 32 else c), tail) ∧
    ((∀ x ∈ s, isspace x = true → x = 32) → xml_decode (s ++ 0 :: tail) 32 = .done (s, tail)) := by
  have hid : ∀ type, type ≠ 32 → s.map (plain_byte type) = s := by
    intro type ht
    have : plain_byte type = id := by
      funext c
      simp [plain_byte, ht]
    simp [this]
  have h32 : plain_byte 32 = fun c => if isspace c then 32 else c := by
    funext c
    simp [plain_byte]
  refine ⟨?_, ?_, ?_, ?_⟩
  · rw [xml_decode_no_amp 38 s tail hs, hid 38 (by decide)]
  · rw [xml_decode_no_amp 99 s tail hs, hid 99 (by decide)]
  · rw [xml_decode_no_amp 32 s tail hs, h32]
  · intro hsp
    rw [xml_decode_no_amp 32 s tail hs, h32]
    congr 2
    conv_rhs => rw [← List.map_id s]
    apply List.map_congr_left
    intro x hx
    by_cases hx2 : isspace x = true
    · simp [hx2, hsp x hx hx2]
    · simp [hx2]

/-- Witness of C10: the string "a b" followed by the memory "x". -/
theorem xml_decode_plain_text_witness :
    (∀ x ∈ [97, 32, 98], x ≠ 0 ∧ x ≠ 38 ∧ x ≠ 13) ∧
    xml_decode ([97, 32, 98] ++ 0 :: [120, 0]) 38 = .done ([97, 32, 98], [120, 0]) ∧
    xml_decode ([97, 32, 98] ++ 0 :: [120, 0]) 99 = .done ([97, 32, 98], [120, 0]) ∧
    xml_decode ([97, 32, 98] ++ 0 :: [120, 0]) 32 = .done ([97, 32, 98], [120, 0]) :=
  ⟨by decide, (xml_decode_plain_text [97, 32, 98] [120, 0] (by decide)).1,
    (xml_decode_plain_text [97, 32, 98] [120, 0] (by decide)).2.1,
    (xml_decode_plain_text [97, 32, 98] [120, 0] (by decide)).2.2.2 (by decide)⟩

/-- Counterexample to C10 as stated: the string "a\tb" holds neither `&` nor a carriage
return, and attribute normalization returns "a b", which differs from it. -/
theorem xml_decode_attr_mode_changes_tab :
    (∀ x ∈ [97, 9, 98], x ≠ 38 ∧ x ≠ 13) ∧
    xml_decode ([97, 9, 98] ++ [0]) 32 = .done ([97, 32, 98], []) ∧
    xml_decode ([97, 9, 98] ++ [0]) 32 ≠ .done ([97, 9, 98], []) := by
  decide

/-! ## Numerals and `strtol` -/

theorem digit_val_digit_byte (upper : Bool) (d : Nat) (hd : d < 16) :
    digit_val (digit_byte upper d) = some d := by
  unfold digit_val digit_byte
  cases upper <;> interval_cases d <;> rfl

theorem strtol_digits_digits (base : Nat) (hb : base ≤ 16) (upper : Bool) (rest : List Nat)
    (hrest : ∀ c t, rest = c :: t → digit_val c = none) :
    ∀ (ds : List Nat) (acc : Nat) (any : Bool), (∀ d ∈ ds, d < base) →
      strtol_digits base (ds.map (digit_byte upper) ++ rest) acc any =
        (ds.foldl (fun a d => a * base + d) acc, any || !ds.isEmpty, rest) := by
  intro ds
  induction ds with
  | nil =>
    intro acc any _
    cases rest with
    | nil => simp [strtol_digits]
    | cons c t => simp [strtol_digits, hrest c t rfl]
  | cons d ds ih =>
    intro acc any hds
    have hd : d < base := hds d (List.mem_cons_self _ _)
    have hv := digit_val_digit_byte upper d (by omega)
    simp [strtol_digits, hv, hd, ih (acc * base + d) true (fun x hx => hds x (List.mem_cons_of_mem _ hx))]

theorem foldl_digits (base n : Nat) :
    (Nat.digits base n).reverse.foldl (fun a d => a * base + d) 0 = n := by
  rw [List.foldl_reverse]
  have h := Nat.ofDigits_digits base n
  rw [Nat.ofDigits_eq_foldr] at h
  conv_rhs => rw [← h]
  congr 1
  funext d a
  simp [mul_comm, add_comm]

theorem strtol_digits_numeral (base : Nat) (hb1 : 2 ≤ base) (hb : base ≤ 16) (upper : Bool)
    (n : Nat) (hn : 0 < n) (rest : List Nat)
    (hrest : ∀ c t, rest = c :: t → digit_val c = none) :
    strtol_digits base (numeral base upper n ++ rest) 0 false = (n, true, rest) := by
  unfold numeral
  rw [strtol_digits_digits base hb upper rest hrest _ 0 false
    (fun d hd => Nat.digits_lt_base hb1 (List.mem_reverse.1 hd)), foldl_digits]
  have : Nat.digits base n ≠ [] := by
    rw [Ne, Nat.digits_eq_nil_iff_eq_zero]
    omega
  simp [this]

theorem digit_byte_props (upper : Bool) (d : Nat) (hd : d < 16) :
    isspace (digit_byte upper d) = false ∧ digit_byte upper d ≠ 45 ∧ digit_byte upper d ≠ 43 ∧
    digit_byte upper d ≠ 120 ∧ digit_byte upper d ≠ 88 ∧ digit_byte upper d ≠ 59 ∧
    digit_byte upper d ≠ 0 ∧ digit_byte upper d ≠ 38 ∧ digit_byte upper d ≠ 13 := by
  unfold digit_byte
  cases upper <;> interval_cases d <;> decide

/-- The prefix steps of `strtol` (white space, sign, `0x`) do nothing on a string whose
first byte is a digit and whose second byte is not `x` or `X`. -/
theorem strtol_of_digit_first (base : Nat) (a : Nat) (t : List Nat)
    (ha : isspace a = false ∧ a ≠ 45 ∧ a ≠ 43)
    (ht : ∀ x u, t = x :: u → x ≠ 120 ∧ x ≠ 88) :
    strtol (a :: t) base =
      match strtol_digits base (a :: t) 0 false with
      | (_, false, _) => (0, a :: t)
      | (v, true, e) => (min (v : Int) LONG_MAX, e) := by
  obtain ⟨h1, h2, h3⟩ := ha
  have e0 : (a :: t).dropWhile isspace = a :: t := by simp [List.dropWhile_cons, h1]
  have e1 : ((a :: t).head? == some 45) = false := by simp [h2]
  have e2 : ((a :: t).head? == some 43) = false := by simp [h3]
  have e3 : (match a :: t with
      | 48 :: x :: h :: t1 =>
        if (base == 16 && (x == 120 || x == 88) && (digit_val h).any (fun d => decide (d < 16))) = true
        then h :: t1 else a :: t
      | _ => a :: t) = a :: t := by
    split
    · rename_i x h t1 heq
      have := ht x (h :: t1) (by simp at heq; exact heq.2)
      simp [this.1, this.2]
    · rfl
  unfold strtol
  simp only [e0, e1, e2, Bool.or_self, Bool.false_eq_true, if_false, e3]

theorem strtol_numeral (base : Nat) (hb : base = 10 ∨ base = 16) (upper : Bool)
    (n : Nat) (hn : 0 < n) (hmax : (n : Int) ≤ LONG_MAX) (rest : List Nat) :
    strtol (numeral base upper n ++ 59 :: rest) base = ((n : Int), 59 :: rest) := by
  have hb1 : 2 ≤ base := by rcases hb with h | h <;> omega
  have hb2 : base ≤ 16 := by rcases hb with h | h <;> omega
  have hd := strtol_digits_numeral base hb1 hb2 upper n hn (59 :: rest)
    (by intro c t h; simp at h; rw [← h.1]; rfl)
  have hds : ∀ d ∈ (Nat.digits base n).reverse, d < 16 := fun d hd =>
    lt_of_lt_of_le (Nat.digits_lt_base hb1 (List.mem_reverse.1 hd)) hb2
  have hne : (Nat.digits base n).reverse ≠ [] := by
    simp only [Ne, List.reverse_eq_nil_iff, Nat.digits_eq_nil_iff_eq_zero]
    omega
  unfold numeral at hd ⊢
  cases hL : (Nat.digits base n).reverse with
  | nil => exact absurd hL hne
  | cons a ds =>
    rw [hL] at hd hds
    have pa := digit_byte_props upper a (hds a (List.mem_cons_self _ _))
    simp only [List.map_cons, List.cons_append] at hd ⊢
    rw [strtol_of_digit_first base _ _ ⟨pa.1, pa.2.1, pa.2.2.1⟩, hd]
    · simp [min_eq_left hmax]
    · intro x u hxu
      cases ds with
      | nil =>
        simp at hxu
        rw [← hxu.1]
        decide
      | cons b ds1 =>
        simp at hxu
        have pb := digit_byte_props upper b (hds b (by simp))
        rw [← hxu.1]
        exact ⟨pb.2.2.2.1, pb.2.2.2.2.1⟩

/-! ## Character references and UTF-8 -/

theorem count_bits_zero (fuel : Nat) : count_bits fuel 0 = 0 := by
  cases fuel <;> simp [count_bits]

theorem count_bits_eq (k : Nat) :
    ∀ fuel d, 2 ^ k ≤ d → d < 2 ^ (k + 1) → k + 1 ≤ fuel → count_bits fuel d = k + 1 := by
  induction k with
  | zero =>
    intro fuel d h1 h2 hf
    obtain ⟨f, rfl⟩ : ∃ f, fuel = f + 1 := ⟨fuel - 1, by omega⟩
    have hd : d = 1 := by simp at h1 h2; omega
    subst hd
    simp [count_bits, count_bits_zero]
  | succ k ih =>
    intro fuel d h1 h2 hf
    obtain ⟨f, rfl⟩ : ∃ f, fuel = f + 1 := ⟨fuel - 1, by omega⟩
    have hpos : 0 < 2 ^ k := Nat.two_pow_pos k
    have hd0 : d ≠ 0 := by
      rw [pow_succ] at h1
      omega
    have h3 : 2 ^ k ≤ d / 2 := by
      rw [pow_succ] at h1
      omega
    have h4 : d / 2 < 2 ^ (k + 1) := by
      rw [pow_succ] at h2
      omega
    simp [count_bits, hd0, ih f (d / 2) h3 h4 (by omega)]

theorem payload_or (y : Nat) (hy : y < 64) : 128 ||| y = 128 + y := by
  interval_cases y <;> rfl

theorem payload_byte_eq (x : Nat) : 128 ||| (x &&& 63) = 128 + x % 64 := by
  have h : x &&& 63 = x % 64 := Nat.and_pow_two_sub_one_eq_mod x 6
  rw [h]
  exact payload_or _ (Nat.mod_lt _ (by decide))

theorem head2 (h : Nat) (hh : h < 32) : (16320 ||| h) % 256 = 192 + h := by
  interval_cases h <;> rfl

theorem head3 (h : Nat) (hh : h < 16) : (8160 ||| h) % 256 = 224 + h := by
  interval_cases h <;> rfl

theorem head4 (h : Nat) (hh : h < 8) : (4080 ||| h) % 256 = 240 + h := by
  interval_cases h <;> rfl

/-- Lines 153-159 write the standard UTF-8 encoding of every value from 1 to 0x10FFFF. -/
theorem char_ref_bytes_utf8 (c : Nat) (h1 : 1 ≤ c) (h2 : c ≤ 0x10FFFF) :
    char_ref_bytes (c : Int) = .done (utf8_encode c) := by
  unfold char_ref_bytes utf8_encode
  by_cases hA : c < 0x80
  · have : ((c : Int) < 0x80) := by exact_mod_cast hA
    have e : ((c : Int) % 256).toNat = c := by omega
    simp [this, hA, e]
  · have hA' : ¬ ((c : Int) < 0x80) := by
      intro h
      exact hA (by exact_mod_cast h)
    simp only [hA', hA, if_false, Int.toNat_ofNat]
    have bits : ∀ k, 2 ^ k ≤ c → c < 2 ^ (k + 1) → k + 1 ≤ 64 → count_bits 64 c = k + 1 :=
      fun k a b d => count_bits_eq k 64 c a b d
    by_cases hB : c < 0x800
    · have hb : (count_bits 64 c - 2) / 5 = 1 := by
        have : count_bits 64 c = 8 ∨ count_bits 64 c = 9 ∨ count_bits 64 c = 10 ∨
            count_bits 64 c = 11 := by
          by_cases q1 : c < 2 ^ 8
          · exact Or.inl (bits 7 (by norm_num; omega) q1 (by decide))
          by_cases q2 : c < 2 ^ 9
          · exact Or.inr (Or.inl (bits 8 (by omega) q2 (by decide)))
          by_cases q3 : c < 2 ^ 10
          · exact Or.inr (Or.inr (Or.inl (bits 9 (by omega) q3 (by decide))))
          · exact Or.inr (Or.inr (Or.inr (bits 10 (by omega) (by norm_num; omega) (by decide))))
        omega
      simp only [hb, hB, if_true, payload_bytes, Nat.shiftRight_eq_div_pow]
      have hh : c / 64 < 32 := by omega
      simp [head2 _ hh, payload_byte_eq]
    · by_cases hC : c < 0x10000
      · have hb : (count_bits 64 c - 2) / 5 = 2 := by
          have : count_bits 64 c = 12 ∨ count_bits 64 c = 13 ∨ count_bits 64 c = 14 ∨
              count_bits 64 c = 15 ∨ count_bits 64 c = 16 := by
            by_cases q1 : c < 2 ^ 12
            · exact Or.inl (bits 11 (by norm_num; omega) q1 (by decide))
            by_cases q2 : c < 2 ^ 13
            · exact Or.inr (Or.inl (bits 12 (by omega) q2 (by decide)))
            by_cases q3 : c < 2 ^ 14
            · exact Or.inr (Or.inr (Or.inl (bits 13 (by omega) q3 (by decide))))
            by_cases q4 : c < 2 ^ 15
            · exact Or.inr (Or.inr (Or.inr (Or.inl (bits 14 (by omega) q4 (by decide)))))
            · exact Or.inr (Or.inr (Or.inr (Or.inr
                (bits 15 (by omega) (by norm_num; omega) (by decide)))))
          omega
        simp only [hb, hB, hC, if_true, if_false, payload_bytes, Nat.shiftRight_eq_div_pow]
        have hh : c / 4096 < 16 := by omega
        simp [head3 _ hh, payload_byte_eq]
      · have hb : (count_bits 64 c - 2) / 5 = 3 := by
          have : count_bits 64 c = 17 ∨ count_bits 64 c = 18 ∨ count_bits 64 c = 19 ∨
              count_bits 64 c = 20 ∨ count_bits 64 c = 21 := by
            by_cases q1 : c < 2 ^ 17
            · exact Or.inl (bits 16 (by norm_num; omega) q1 (by decide))
            by_cases q2 : c < 2 ^ 18
            · exact Or.inr (Or.inl (bits 17 (by omega) q2 (by decide)))
            by_cases q3 : c < 2 ^ 19
            · exact Or.inr (Or.inr (Or.inl (bits 18 (by omega) q3 (by decide))))
            by_cases q4 : c < 2 ^ 20
            · exact Or.inr (Or.inr (Or.inr (Or.inl (bits 19 (by omega) q4 (by decide)))))
            · exact Or.inr (Or.inr (Or.inr (Or.inr
                (bits 20 (by omega) (by norm_num; omega) (by decide)))))
          omega
        simp only [hb, hB, hC, if_false, payload_bytes, Nat.shiftRight_eq_div_pow]
        have hh : c / 262144 < 8 := by omega
        simp [head4 _ hh, payload_byte_eq]

theorem strchr_drop (l r : List Nat) (hl : ∀ x ∈ l, x ≠ 59) :
    ∀ k, k ≤ l.length → strchr ((l ++ 59 :: r).drop k) 59 = some (59 :: r) := by
  induction l with
  | nil =>
    intro k hk
    have : k = 0 := by simpa using hk
    subst this
    simp [strchr]
  | cons c l ih =>
    intro k hk
    have hc : c ≠ 59 := hl c (List.mem_cons_self _ _)
    have ih' := ih (fun x hx => hl x (List.mem_cons_of_mem _ hx))
    cases k with
    | zero =>
      have h0 := ih' 0 (Nat.zero_le _)
      simp only [List.drop_zero] at h0
      simp [strchr, hc, h0]
    | succ k =>
      simpa using ih' k (by simpa using hk)

theorem numeral_props (base : Nat) (hb1 : 2 ≤ base) (hb : base ≤ 16) (upper : Bool) (n : Nat) :
    ∀ x ∈ numeral base upper n, isspace x = false ∧ x ≠ 45 ∧ x ≠ 43 ∧ x ≠ 120 ∧ x ≠ 88 ∧
      x ≠ 59 ∧ x ≠ 0 ∧ x ≠ 38 ∧ x ≠ 13 := by
  intro x hx
  unfold numeral at hx
  obtain ⟨d, hd, rfl⟩ := List.mem_map.1 hx
  exact digit_byte_props upper d
    (lt_of_lt_of_le (Nat.digits_lt_base hb1 (List.mem_reverse.1 hd)) hb)

theorem numeral_length_pos (base : Nat) (upper : Bool) (n : Nat) (hn : 0 < n) :
    1 ≤ (numeral base upper n).length := by
  unfold numeral
  have : Nat.digits base n ≠ [] := by
    rw [Ne, Nat.digits_eq_nil_iff_eq_zero]
    omega
  have := List.length_pos.2 this
  simpa using this

theorem numeral_length_two (base : Nat) (hb1 : 2 ≤ base) (upper : Bool) (n : Nat) (hn : base ≤ n) :
    2 ≤ (numeral base upper n).length := by
  unfold numeral
  have h0 : 0 < n := by omega
  rw [Nat.digits_def' hb1 h0]
  have : Nat.digits base (n / base) ≠ [] := by
    rw [Ne, Nat.digits_eq_nil_iff_eq_zero]
    have : 0 < n / base := Nat.div_pos hn (by omega)
    omega
  have := List.length_pos.2 this
  simp
  omega

theorem utf8_encode_length (c : Nat) :
    (utf8_encode c).length =
      if c < 0x80 then 1 else if c < 0x800 then 2 else if c < 0x10000 then 3 else 4 := by
  unfold utf8_encode
  split
  · rfl
  · split
    · rfl
    · split <;> rfl

theorem utf8_encode_no_zero (c : Nat) (h1 : 1 ≤ c) : ∀ x ∈ utf8_encode c, x ≠ 0 := by
  intro x hx
  unfold utf8_encode at hx
  split at hx
  · simp at hx
    omega
  · split at hx
    · simp at hx
      omega
    · split at hx <;> simp at hx <;> omega

/-- The second loop on a string that is one character reference: `pre` is empty for a
decimal reference and `x` for a hexadecimal one. -/
theorem decode_loop_char_ref (type : Nat) (ht : type ≠ 99) (base : Nat) (upper : Bool)
    (pre : List Nat) (hpre : (pre = [] ∧ base = 10) ∨ (pre = [120] ∧ base = 16))
    (c : Nat) (h1 : 1 ≤ c) (h2 : c ≤ 0x10FFFF) (fuel : Nat) (hf : 2 ≤ fuel) :
    decode_loop fuel type ([38, 35] ++ pre ++ numeral base upper c ++ [59]) =
      .done (utf8_encode c) := by
  obtain ⟨f, rfl⟩ : ∃ f, fuel = f + 2 := ⟨fuel - 2, by omega⟩
  have hb : base = 10 ∨ base = 16 := by rcases hpre with h | h <;> simp [h.2]
  have hb1 : 2 ≤ base := by rcases hb with h | h <;> omega
  have hb2 : base ≤ 16 := by rcases hb with h | h <;> omega
  have hnum := numeral_props base hb1 hb2 upper c
  have hst := strtol_numeral base hb upper c (by omega) (by norm_num [LONG_MAX]; omega) []
  have hlen1 := numeral_length_pos base upper c (by omega)
  -- the value and the end pointer of the `strtol` call
  have hce : (if (([38, 35] ++ pre ++ numeral base upper c ++ [59]).drop 2).head? == some 120
      then strtol (([38, 35] ++ pre ++ numeral base upper c ++ [59]).drop 3) 16
      else strtol (([38, 35] ++ pre ++ numeral base upper c ++ [59]).drop 2) 10) =
      ((c : Int), [59]) := by
    rcases hpre with ⟨hp, hbase⟩ | ⟨hp, hbase⟩
    · subst hp hbase
      obtain ⟨a, l, hal⟩ : ∃ a l, numeral 10 upper c = a :: l := by
        cases hN : numeral 10 upper c with
        | nil => simp [hN] at hlen1
        | cons a l => exact ⟨a, l, rfl⟩
      have ha := hnum a (by simp [hal])
      have e : (some a == some 120) = false := by simp [ha.2.2.2.1]
      rw [hal] at hst
      have hst' : strtol (a :: (l ++ [59])) 10 = ((c : Int), [59]) := by simpa using hst
      simp [hal, e, hst']
    · subst hp hbase
      simp [hst]
  -- the place of the `;`
  have hw : (utf8_encode c).length ≤ ([38, 35] ++ pre ++ numeral base upper c).length := by
    rw [utf8_encode_length]
    simp only [List.length_append, List.length_cons, List.length_nil]
    split
    · omega
    · split
      · omega
      · split
        · omega
        · have := numeral_length_two base hb1 upper c (by omega)
          omega
  have hsemi := strchr_drop ([38, 35] ++ pre ++ numeral base upper c) []
    (by
      intro x hx
      simp only [List.mem_append, List.mem_cons, List.mem_singleton] at hx
      rcases hx with ((h | h | h) | h) | h
      · omega
      · omega
      · simp at h
      · rcases hpre with hp | hp
        · simp [hp.1] at h
        · simp [hp.1] at h
          omega
      · exact (hnum x h).2.2.2.2.2.1)
    (utf8_encode c).length hw
  have hcr := char_ref_bytes_utf8 c h1 h2
  have hc0 : ((c : Int) == 0) = false := by
    simp
    omega
  have hmem : [38, 35] ++ pre ++ numeral base upper c ++ [59]
      = 38 :: (35 :: (pre ++ numeral base upper c ++ [59])) := by simp
  rw [hmem] at hce
  rw [hmem, decode_loop]
  simp only [hce]
  rw [← hmem, hcr]
  have hsemi' : strchr (List.drop (utf8_encode c).length
      (38 :: 35 :: (pre ++ (numeral base upper c ++ [59])))) 59 = some [59] := by
    simpa using hsemi
  simp [ht, hc0, isspace, hsemi', decode_loop]

theorem char_ref_decoded (type : Nat) (ht : type ≠ 99) (base : Nat) (upper : Bool)
    (pre : List Nat) (hpre : (pre = [] ∧ base = 10) ∨ (pre = [120] ∧ base = 16))
    (c : Nat) (h1 : 1 ≤ c) (h2 : c ≤ 0x10FFFF) (tail : List Nat) :
    xml_decode ([38, 35] ++ pre ++ numeral base upper c ++ [59] ++ 0 :: tail) type =
      .done (utf8_encode c, tail) := by
  have hb : base = 10 ∨ base = 16 := by rcases hpre with h | h <;> simp [h.2]
  have hb1 : 2 ≤ base := by rcases hb with h | h <;> omega
  have hb2 : base ≤ 16 := by rcases hb with h | h <;> omega
  have hnum := numeral_props base hb1 hb2 upper c
  have hs : ∀ x ∈ [38, 35] ++ pre ++ numeral base upper c ++ [59], x ≠ 0 ∧ x ≠ 13 := by
    intro x hx
    simp only [List.mem_append, List.mem_cons, List.mem_singleton] at hx
    rcases hx with (((h | h | h) | h) | h) | h
    · omega
    · omega
    · simp at h
    · rcases hpre with hp | hp
      · simp [hp.1] at h
      · simp [hp.1] at h
        omega
    · exact ⟨(hnum x h).2.2.2.2.2.2.1, (hnum x h).2.2.2.2.2.2.2.2⟩
    · simp at h
      omega
  have hn := normalize_loop_no_cr _ tail hs
    (2 * ([38, 35] ++ pre ++ numeral base upper c ++ [59] ++ 0 :: tail).length + 2)
    (by simp only [List.length_append, List.length_cons]; omega)
  have hd := decode_loop_char_ref type ht base upper pre hpre c h1 h2
    (([38, 35] ++ pre ++ numeral base upper c ++ [59]).length + 1)
    (by simp only [List.length_append, List.length_cons]; omega)
  unfold xml_decode
  rw [hn]
  simp only [Outcome.bind_done, cstr_append_zero _ tail (fun x hx => (hs x hx).1), hd,
    cstr_of_no_zero _ (utf8_encode_no_zero c h1), drop_length_succ_append]

/-- C1: for every value `c` from 1 to 0x10FFFF, `xml_decode` in general mode (`&`) turns the
decimal reference "&#N;" and the hexadecimal reference "&#xH;" (digits in either case)
of `c` into exactly the standard UTF-8 encoding of `c`, which has one byte below 0x80, two
up to 0x7FF, three up to 0xFFFF and four up to 0x10FFFF; the memory behind the string is
not touched. In particular "&#65;" and "&#x41;" give "A" and "&#8364;" gives E2 82 AC. -/
theorem xml_decode_char_ref (c : Nat) (h1 : 1 ≤ c) (h2 : c ≤ 0x10FFFF) (upper : Bool)
    (tail : List Nat) :
    xml_decode ([38, 35] ++ numeral 10 upper c ++ [59] ++ 0 :: tail) 38 =
      .done (utf8_encode c, tail) ∧
    xml_decode ([38, 35, 120] ++ numeral 16 upper c ++ [59] ++ 0 :: tail) 38 =
      .done (utf8_encode c, tail) ∧
    (utf8_encode c).length =
      (if c < 0x80 then 1 else if c < 0x800 then 2 else if c < 0x10000 then 3 else 4) ∧
    xml_decode (ascii "&#65;" ++ [0]) 38 = .done (ascii "A", []) ∧
    xml_decode (ascii "&#x41;" ++ [0]) 38 = .done (ascii "A", []) ∧
    xml_decode (ascii "&#8364;" ++ [0]) 38 = .done ([0xE2, 0x82, 0xAC], []) := by
  refine ⟨?_, ?_, utf8_encode_length c, by decide, by decide, by decide⟩
  · simpa using char_ref_decoded 38 (by decide) 10 upper [] (Or.inl ⟨rfl, rfl⟩) c h1 h2 tail
  · simpa using
      char_ref_decoded 38 (by decide) 16 upper [120] (Or.inr ⟨rfl, rfl⟩) c h1 h2 tail

/-- Witness of C1 at the Euro sign, `c = 8364`. -/
theorem xml_decode_char_ref_witness :
    (1 ≤ 8364 ∧ 8364 ≤ 0x10FFFF) ∧
    numeral 10 false 8364 = ascii "8364" ∧ numeral 16 false 8364 = ascii "20ac" ∧
    utf8_encode 8364 = [0xE2, 0x82, 0xAC] ∧
    xml_decode ([38, 35] ++ numeral 10 false 8364 ++ [59] ++ 0 :: []) 38 =
      .done (utf8_encode 8364, []) ∧
    xml_decode ([38, 35, 120] ++ numeral 16 false 8364 ++ [59] ++ 0 :: []) 38 =
      .done (utf8_encode 8364, []) :=
  ⟨by decide, by simp [numeral, digit_byte, ascii], by simp [numeral, digit_byte, ascii],
    by decide, (xml_decode_char_ref 8364 (by decide) (by decide) false []).1,
    (xml_decode_char_ref 8364 (by decide) (by decide) false []).2.1⟩

/-! ## Named entities -/

set_option maxRecDepth 1000000 in
theorem s_ent_ok : s_ent.all entity_ok = true := by decide!

/-- C2: for every pair (name, replacement) of the table `s_ent`, the name ends with `;`, the
linear search on the string behind the `&` selects exactly this pair, and `xml_decode` turns
the string "&" ++ name into the replacement text, in general mode (`&`) and in attribute
mode (space), without touching the memory behind it; and parsing "&lt;b&gt;" delivers
exactly one text event, with the text "<b>", and no tag event. -/
theorem xml_decode_entity (e : List Nat × List Nat) (he : e ∈ s_ent) (tail : List Nat) :
    e.1.getLast? = some 59 ∧
    find_entity s_ent e.1 = some e ∧
    xml_decode (38 :: e.1 ++ 0 :: tail) 38 = .done (e.2, tail) ∧
    xml_decode (38 :: e.1 ++ 0 :: tail) 32 = .done (e.2, tail) ∧
    dc_saxparser_parse (ascii "&lt;b&gt;") = .done [Event.text (ascii "<b>") 9] := by
  have hok := List.all_eq_true.1 s_ent_ok e he
  simp only [entity_ok, Bool.and_eq_true, beq_iff_eq, List.all_eq_true, bne_iff_ne] at hok
  obtain ⟨⟨⟨⟨⟨h1, h2⟩, h3⟩, h4⟩, h5⟩, h6⟩ := hok
  have hs : ∀ x ∈ 38 :: e.1, x ≠ 0 ∧ x ≠ 13 := by
    intro x hx
    rcases List.mem_cons.1 hx with h | h
    · subst h
      decide
    · exact h1 x h
  have hn := normalize_loop_no_cr (38 :: e.1) tail hs (2 * (38 :: e.1 ++ 0 :: tail).length + 2)
    (by simp only [List.length_append, List.length_cons]; omega)
  have hc := cstr_append_zero (38 :: e.1) tail (fun x hx => (hs x hx).1)
  have hd := drop_length_succ_append (38 :: e.1) tail 0
  have hl : (38 :: e.1).length + 1 = e.1.length + 2 := by simp
  refine ⟨h2, h3, ?_, ?_, by decide⟩
  · unfold xml_decode
    rw [hn]
    simp only [Outcome.bind_done, hc, hl, h4, h6]
    rw [← hl, hd]
  · unfold xml_decode
    rw [hn]
    simp only [Outcome.bind_done, hc, hl, h5, h6]
    rw [← hl, hd]

/-- Witness of C2 at the pair `("lt;", "<")`. -/
theorem xml_decode_entity_witness :
    (ascii "lt;", [60]) ∈ s_ent ∧
    find_entity s_ent (ascii "lt;") = some (ascii "lt;", [60]) ∧
    xml_decode (38 :: ascii "lt;" ++ 0 :: []) 38 = .done ([60], []) ∧
    xml_decode (38 :: ascii "lt;" ++ 0 :: []) 32 = .done ([60], []) :=
  ⟨by decide, (xml_decode_entity (ascii "lt;", [60]) (by decide) []).2.1,
    (xml_decode_entity (ascii "lt;", [60]) (by decide) []).2.2.1,
    (xml_decode_entity (ascii "lt;", [60]) (by decide) []).2.2.2.1⟩

/-! ## Line endings -/

theorem normalize_newlines_cons (c : Nat) (s : List Nat) (hc : c ≠ 13) :
    normalize_newlines (c :: s) = c :: normalize_newlines s := by
  cases s <;> simp [normalize_newlines, hc]

theorem shift_down_append (s m : List Nat) (hs : ∀ x ∈ s, x ≠ 0) :
    shift_down (s ++ 0 :: m) = some (s ++ 0 :: 0 :: m) := by
  induction s with
  | nil => simp [shift_down]
  | cons c s ih =>
    have hc : c ≠ 0 := hs c (List.mem_cons_self _ _)
    simp [shift_down, hc, ih (fun x hx => hs x (List.mem_cons_of_mem _ hx))]

/-- The first loop on a string `s` that is followed, behind its terminator and `j` further
NUL bytes, by a string `t` without carriage return: `s` is normalized, every collapsed
pair leaves one more NUL byte, and `t` stays as it is. -/
theorem normalize_loop_spec (t rest : List Nat) (ht : ∀ x ∈ t, x ≠ 0 ∧ x ≠ 13) :
    ∀ n (s : List Nat), s.length ≤ n → (∀ x ∈ s, x ≠ 0) →
      ∀ (j : Nat) (b : Bool) (fuel : Nat), 2 * s.length + 2 * t.length + 3 ≤ fuel →
        ∃ k, (normalize_newlines s).length + k = s.length ∧
          normalize_loop fuel b (s ++ (List.replicate (j + 1) 0 ++ (t ++ 0 :: rest))) =
            .done (normalize_newlines s ++
              (List.replicate (j + 1 + k) 0 ++ (t ++ 0 :: rest))) := by
  intro n
  induction n with
  | zero =>
    intro s hl _ j b fuel hf
    have hs : s = [] := List.length_eq_zero.1 (Nat.le_zero.1 hl)
    subst hs
    refine ⟨0, by simp [normalize_newlines], ?_⟩
    obtain ⟨f, rfl⟩ : ∃ f, fuel = f + 2 := ⟨fuel - 2, by simp at hf; omega⟩
    cases b with
    | false => simp [normalize_loop, List.replicate_succ, normalize_newlines]
    | true =>
      cases j with
      | zero =>
        have h := normalize_loop_no_cr t rest ht (f + 1) (by simp at hf; omega)
        simp [normalize_loop, List.replicate_succ, h, normalize_newlines]
      | succ j =>
        simp [normalize_loop, List.replicate_succ, normalize_newlines]
  | succ n ih =>
    intro s hl hs j b fuel hf
    cases s with
    | nil => exact ih [] (Nat.zero_le _) hs j b fuel hf
    | cons c s =>
      have hc : c ≠ 0 := hs c (List.mem_cons_self _ _)
      have hs' : ∀ x ∈ s, x ≠ 0 := fun x hx => hs x (List.mem_cons_of_mem _ hx)
      have hl' : s.length ≤ n := by simpa using hl
      have hlen : (c :: s).length = s.length + 1 := rfl
      rw [hlen] at hf
      -- it is enough to look at the condition of the `while`
      suffices hw : ∀ fuel, 2 * s.length + 2 * t.length + 4 ≤ fuel →
          ∃ k, (normalize_newlines (c :: s)).length + k = (c :: s).length ∧
            normalize_loop fuel true
                (c :: (s ++ (List.replicate (j + 1) 0 ++ (t ++ 0 :: rest)))) =
              .done (normalize_newlines (c :: s) ++
                (List.replicate (j + 1 + k) 0 ++ (t ++ 0 :: rest))) by
        cases b with
        | true => exact hw fuel (by omega)
        | false =>
          obtain ⟨f, rfl⟩ : ∃ f, fuel = f + 1 := ⟨fuel - 1, by omega⟩
          obtain ⟨k, hk, he⟩ := hw f (by omega)
          refine ⟨k, hk, ?_⟩
          rw [List.cons_append, normalize_loop]
          simp only [hc, if_false, he]
      intro fuel hf
      obtain ⟨f, rfl⟩ : ∃ f, fuel = f + 1 := ⟨fuel - 1, by omega⟩
      by_cases h13 : c = 13
      · subst h13
        cases s with
        | nil =>
          obtain ⟨k, hk, he⟩ := ih [] (Nat.zero_le _) (by simp) j true f (by simp at hf ⊢; omega)
          refine ⟨k, by simpa [normalize_newlines] using hk, ?_⟩
          have e1 : ([] : List Nat) ++ (List.replicate (j + 1) 0 ++ (t ++ 0 :: rest)) =
              0 :: (List.replicate j 0 ++ (t ++ 0 :: rest)) := by
            simp [List.replicate_succ]
          rw [e1] at he ⊢
          rw [normalize_loop]
          simp only [if_true, he]
          simp [normalize_newlines]
        | cons d s1 =>
          have hs1 : ∀ x ∈ s1, x ≠ 0 := fun x hx => hs' x (List.mem_cons_of_mem _ hx)
          by_cases h10 : d = 10
          · subst h10
            obtain ⟨k, hk, he⟩ := ih s1 (by simp at hl'; omega) hs1 (j + 1) true f
              (by simp at hf ⊢; omega)
            refine ⟨k + 1, by simp [normalize_newlines]; omega, ?_⟩
            have hsh := shift_down_append s1 (List.replicate j 0 ++ (t ++ 0 :: rest)) hs1
            have e1 : (10 :: s1) ++ (List.replicate (j + 1) 0 ++ (t ++ 0 :: rest)) =
                10 :: (s1 ++ 0 :: (List.replicate j 0 ++ (t ++ 0 :: rest))) := by
              simp [List.replicate_succ]
            have e2 : s1 ++ 0 :: 0 :: (List.replicate j 0 ++ (t ++ 0 :: rest)) =
                s1 ++ (List.replicate (j + 1 + 1) 0 ++ (t ++ 0 :: rest)) := by
              simp [List.replicate_succ]
            rw [e1, normalize_loop]
            simp only [if_true, hsh]
            have e3 : j + 1 + 1 + k = j + 1 + (k + 1) := by omega
            rw [e2, he, e3]
            simp [normalize_newlines]
          · obtain ⟨k, hk, he⟩ := ih (d :: s1) hl' hs' j true f (by simp at hf ⊢; omega)
            refine ⟨k, by simp [normalize_newlines, h10] at hk ⊢; omega, ?_⟩
            rw [List.cons_append] at he ⊢
            rw [normalize_loop]
            simp only [if_true, h10, if_false, he]
            simp [normalize_newlines, h10]
      · obtain ⟨k, hk, he⟩ := ih s hl' hs' j false f (by simp at hf ⊢; omega)
        refine ⟨k, by simp [normalize_newlines_cons, h13] at hk ⊢; omega, ?_⟩
        simp only [normalize_loop, h13, if_false, he]
        simp [normalize_newlines_cons, h13]

theorem normalize_newlines_length_le (s : List Nat) :
    ∀ n, s.length ≤ n → (normalize_newlines s).length ≤ s.length := by
  intro n
  induction n generalizing s with
  | zero =>
    intro h
    have : s = [] := List.length_eq_zero.1 (Nat.le_zero.1 h)
    subst this
    simp [normalize_newlines]
  | succ n ih =>
    intro h
    match s with
    | [] => simp [normalize_newlines]
    | [c] =>
      simp only [normalize_newlines]
      split <;> simp
    | c :: d :: t =>
      have h1 := ih (d :: t) (by simp at h ⊢; omega)
      have h2 := ih t (by simp at h ⊢; omega)
      simp only [normalize_newlines]
      split
      · split
        · simp
          omega
        · simp at h1 ⊢
          omega
      · simp at h1 ⊢
        omega

theorem normalize_newlines_no_zero (s : List Nat) :
    ∀ n, s.length ≤ n → (∀ x ∈ s, x ≠ 0) → ∀ x ∈ normalize_newlines s, x ≠ 0 := by
  intro n
  induction n generalizing s with
  | zero =>
    intro h _ x hx
    have : s = [] := List.length_eq_zero.1 (Nat.le_zero.1 h)
    subst this
    simp [normalize_newlines] at hx
  | succ n ih =>
    intro h hs x hx
    match s, hs, hx with
    | [], _, hx => simp [normalize_newlines] at hx
    | [c], hs, hx =>
      simp only [normalize_newlines] at hx
      split at hx
      · simp at hx
        omega
      · simp at hx
        rw [hx]
        exact hs c (by simp)
    | c :: d :: t, hs, hx =>
      have h1 := ih (d :: t) (by simp at h ⊢; omega)
        (fun y hy => hs y (List.mem_cons_of_mem _ hy))
      have h2 := ih t (by simp at h ⊢; omega)
        (fun y hy => hs y (List.mem_cons_of_mem _ (List.mem_cons_of_mem _ hy)))
      simp only [normalize_newlines] at hx
      split at hx
      · split at hx
        · rcases List.mem_cons.1 hx with h | h
          · omega
          · exact h2 x h
        · rcases List.mem_cons.1 hx with h | h
          · omega
          · exact h1 x h
      · rcases List.mem_cons.1 hx with h | h
        · subst h
          exact hs x (by simp)
        · exact h1 x h

/-- The function `xml_decode` on a string that is followed, behind its terminator, by a
string without carriage return: the second loop runs on the normalized string and the
memory behind the terminator is returned as it was. -/
theorem xml_decode_benign (type : Nat) (s t rest : List Nat) (hs : ∀ x ∈ s, x ≠ 0)
    (ht : ∀ x ∈ t, x ≠ 0 ∧ x ≠ 13) :
    xml_decode (s ++ 0 :: (t ++ 0 :: rest)) type =
      (decode_loop ((normalize_newlines s).length + 1) type (normalize_newlines s)).bind
        fun r => .done (cstr r, t ++ 0 :: rest) := by
  obtain ⟨k, hk, he⟩ := normalize_loop_spec t rest ht s.length s (le_refl _) hs 0 false
    (2 * (s ++ 0 :: (t ++ 0 :: rest)).length + 2)
    (by simp only [List.length_append, List.length_cons]; omega)
  have e1 : s ++ (List.replicate (0 + 1) 0 ++ (t ++ 0 :: rest)) = s ++ 0 :: (t ++ 0 :: rest) := by
    simp
  have e2 : normalize_newlines s ++ (List.replicate (0 + 1 + k) 0 ++ (t ++ 0 :: rest)) =
      normalize_newlines s ++ 0 :: (List.replicate k 0 ++ (t ++ 0 :: rest)) := by
    rw [show 0 + 1 + k = k + 1 by omega, List.replicate_succ]
    simp
  rw [e1, e2] at he
  have hN := normalize_newlines_no_zero s s.length (le_refl _) hs
  have hc := cstr_append_zero (normalize_newlines s) (List.replicate k 0 ++ (t ++ 0 :: rest)) hN
  have hd : (normalize_newlines s ++ 0 :: (List.replicate k 0 ++ (t ++ 0 :: rest))).drop
      (s.length + 1) = t ++ 0 :: rest := by
    rw [← hk, show (normalize_newlines s).length + k + 1 = (normalize_newlines s).length + (k + 1)
      by omega, ← List.drop_drop, List.drop_left]
    simp
  unfold xml_decode
  rw [he]
  simp only [Outcome.bind_done, hc, cstr_append_zero s _ hs, hd]

theorem decode_loop_cdata (s : List Nat) :
    ∀ fuel, s.length + 1 ≤ fuel → decode_loop fuel 99 s = .done s := by
  induction s with
  | nil =>
    intro fuel hf
    obtain ⟨f, rfl⟩ : ∃ f, fuel = f + 1 := ⟨fuel - 1, by omega⟩
    simp [decode_loop]
  | cons c s ih =>
    intro fuel hf
    obtain ⟨f, rfl⟩ : ∃ f, fuel = f + 1 := ⟨fuel - 1, by omega⟩
    have ih' := ih f (by simp at hf; omega)
    simp [decode_loop, ih']

/-! ## CDATA sections -/

theorem strstr_cdata_end (s : List Nat) (hs : ¬ [93, 93, 62] <:+: s) :
    strstr (s ++ [93, 93, 62]) [93, 93, 62] = some [93, 93, 62] := by
  induction s with
  | nil => simp [strstr]
  | cons c s ih =>
    have hs' : ¬ [93, 93, 62] <:+: s := fun h => hs (List.IsInfix.trans h (List.infix_cons (List.infix_refl _)))
    have hp : List.isPrefixOf [93, 93, 62] (c :: (s ++ [93, 93, 62])) = false := by
      match s, hs with
      | [], _ => simp [List.isPrefixOf]
      | [d], _ => simp [List.isPrefixOf]
      | d :: e :: s2, hs =>
        simp only [List.cons_append, List.isPrefixOf, Bool.and_true]
        by_contra hcon
        simp at hcon
        apply hs
        obtain ⟨h1, h2, h3⟩ := hcon
        subst h1 h2 h3
        exact ⟨[], s2, by simp⟩
    rw [List.cons_append, strstr]
    simp [hp, ih hs']

theorem call_text_cb_nil (rest : List Nat) (type : Nat) :
    call_text_cb [] rest type = .done ([], rest) := by
  simp [call_text_cb]

/-- C3: for every string `s` without NUL that contains no "]]>", parsing
"<![CDATA[" ++ s ++ "]]>" delivers no tag event and exactly one text event, or none when
`s` is empty; the text is `s` with only its line endings normalized (so `<` and references
stay as they are) and the length passed is that of `s`. In particular
"<![CDATA[<not-a-tag>]]>" delivers the single text "<not-a-tag>". -/
theorem cdata_passthrough (s : List Nat) (h0 : ∀ x ∈ s, x ≠ 0) (hs : ¬ [93, 93, 62] <:+: s) :
    dc_saxparser_parse (ascii "<![CDATA[" ++ s ++ ascii "]]>") =
      .done (if s = [] then [] else [Event.text (normalize_newlines s) s.length]) ∧
    dc_saxparser_parse (ascii "<![CDATA[<not-a-tag>]]>") =
      .done [Event.text (ascii "<not-a-tag>") 11] ∧
    dc_saxparser_parse (ascii "<![CDATA[a&lt;&#65;<b>\r\n]]>") =
      .done [Event.text (ascii "a&lt;&#65;<b>\n") 15] := by
  refine ⟨?_, by decide, by decide⟩
  have ea : ascii "<![CDATA[" = [60, 33, 91, 67, 68, 65, 84, 65, 91] := by decide
  have eb : ascii "]]>" = [93, 93, 62] := by decide
  rw [ea, eb]
  have hbuf : ∀ x ∈ [60, 33, 91, 67, 68, 65, 84, 65, 91] ++ s ++ [93, 93, 62], x ≠ 0 := by
    intro x hx
    have ha : ∀ y ∈ [60, 33, 91, 67, 68, 65, 84, 65, 91], y ≠ 0 := by decide
    have hb : ∀ y ∈ [93, 93, 62], y ≠ 0 := by decide
    rcases List.mem_append.1 hx with h | h
    · rcases List.mem_append.1 h with h | h
      · exact ha x h
      · exact h0 x h
    · exact hb x h
  unfold dc_saxparser_parse
  rw [cstr_of_no_zero _ hbuf]
  obtain ⟨f, hf⟩ : ∃ f, ([60, 33, 91, 67, 68, 65, 84, 65, 91] ++ s ++ [93, 93, 62]).length + 1
      = f + 2 := ⟨s.length + 11, by simp⟩
  rw [hf]
  have hstr := strstr_cdata_end s hs
  have e1 : [60, 33, 91, 67, 68, 65, 84, 65, 91] ++ s ++ [93, 93, 62] =
      60 :: 33 :: 91 :: 67 :: 68 :: 65 :: 84 :: 65 :: 91 :: (s ++ [93, 93, 62]) := by simp
  rw [e1, parse_loop]
  have hstr8 : strstr (33 :: 91 :: 67 :: 68 :: 65 :: 84 :: 65 :: 91 :: (s ++ [93, 93, 62]))
      [93, 93, 62] = some [93, 93, 62] := by
    simp [strstr, List.isPrefixOf, hstr]
  have htake : List.take (s.length + 3 - 3) (s ++ [93, 93, 62]) = s := by simp
  simp only [call_text_cb_nil, Outcome.bind_done, List.tail_cons]
  simp only [List.isPrefixOf, hstr8, List.drop_succ_cons, List.drop_zero, List.length_append,
    List.length_cons, List.length_nil, htake]
  by_cases hnil : s = []
  · subst hnil
    simp [call_text_cb_nil, parse_loop]
  · have hdec := xml_decode_benign 99 s [93, 62] [] h0 (by decide)
    have hN := normalize_newlines_no_zero s s.length (le_refl _) h0
    rw [decode_loop_cdata _ _ (le_refl _)] at hdec
    simp only [Outcome.bind_done, cstr_of_no_zero _ hN] at hdec
    have hcb : call_text_cb s [93, 93, 62] 99 =
        .done ([Event.text (normalize_newlines s) s.length], [93, 93, 62]) := by
      unfold call_text_cb
      have : s.isEmpty = false := by
        cases s with
        | nil => exact absurd rfl hnil
        | cons a l => rfl
      simp only [this, Bool.false_eq_true, if_false]
      have e2 : s ++ 0 :: ([93, 62] ++ [0]) = s ++ 0 :: ([93, 62] ++ 0 :: []) := rfl
      rw [e2, hdec]
      simp [cstr]
    simp [hcb, parse_loop, call_text_cb_nil, hnil]

/-- Witness of C3: the content "a\r\nb". -/
theorem cdata_passthrough_witness :
    (∀ x ∈ [97, 13, 10, 98], x ≠ 0) ∧ ¬ [93, 93, 62] <:+: [97, 13, 10, 98] ∧
    dc_saxparser_parse (ascii "<![CDATA[" ++ [97, 13, 10, 98] ++ ascii "]]>") =
      .done (if [97, 13, 10, 98] = [] then []
        else [Event.text (normalize_newlines [97, 13, 10, 98]) [97, 13, 10, 98].length]) ∧
    normalize_newlines [97, 13, 10, 98] = [97, 10, 98] :=
  ⟨by decide, by decide,
    (cdata_passthrough [97, 13, 10, 98] (by decide) (by decide)).1, by decide⟩

/-- The first loop on a string `s` followed by its terminator, `j` further NUL bytes and
the memory `tail`, on which the loop (started at the condition of its `for`) gives `R`
whenever it has at least `F` steps. -/
theorem normalize_loop_gen (tail : List Nat) (R : Outcome (List Nat)) (F : Nat)
    (hR : ∀ f, F ≤ f → normalize_loop f false tail = R) :
    ∀ n (s : List Nat), s.length ≤ n → (∀ x ∈ s, x ≠ 0) →
      ∀ (j : Nat) (b : Bool) (fuel : Nat), 2 * s.length + F + 2 ≤ fuel →
        ∃ k, (normalize_newlines s).length + k = s.length ∧
          normalize_loop fuel b (s ++ (List.replicate (j + 1) 0 ++ tail)) =
            if overruns s j b then R.map (fun r => normalize_newlines s ++ 0 :: r)
            else .done (normalize_newlines s ++ (List.replicate (j + 1 + k) 0 ++ tail)) := by
  intro n
  induction n with
  | zero =>
    intro s hl _ j b fuel hf
    have hs : s = [] := List.length_eq_zero.1 (Nat.le_zero.1 hl)
    subst hs
    refine ⟨0, by simp [normalize_newlines], ?_⟩
    obtain ⟨f, rfl⟩ : ∃ f, fuel = f + 2 := ⟨fuel - 2, by simp at hf; omega⟩
    cases b with
    | false => simp [normalize_loop, List.replicate_succ, normalize_newlines, overruns]
    | true =>
      cases j with
      | zero =>
        have h := hR (f + 1) (by simp at hf; omega)
        simp [normalize_loop, List.replicate_succ, h, normalize_newlines, overruns]
      | succ j =>
        simp [normalize_loop, List.replicate_succ, normalize_newlines, overruns]
  | succ n ih =>
    intro s hl hs j b fuel hf
    cases s with
    | nil => exact ih [] (Nat.zero_le _) hs j b fuel hf
    | cons c s =>
      have hc : c ≠ 0 := hs c (List.mem_cons_self _ _)
      have hs' : ∀ x ∈ s, x ≠ 0 := fun x hx => hs x (List.mem_cons_of_mem _ hx)
      have hl' : s.length ≤ n := by simpa using hl
      have hlen : (c :: s).length = s.length + 1 := rfl
      rw [hlen] at hf
      have hov : ∀ b, overruns (c :: s) j b = overruns (c :: s) j true := by
        intro b
        simp [overruns]
      -- it is enough to look at the condition of the `while`
      suffices hw : ∀ fuel, 2 * s.length + F + 3 ≤ fuel →
          ∃ k, (normalize_newlines (c :: s)).length + k = (c :: s).length ∧
            normalize_loop fuel true
                (c :: (s ++ (List.replicate (j + 1) 0 ++ tail))) =
              if overruns (c :: s) j true then
                R.map (fun r => normalize_newlines (c :: s) ++ 0 :: r)
              else .done (normalize_newlines (c :: s) ++
                (List.replicate (j + 1 + k) 0 ++ tail)) by
        cases b with
        | true => exact hw fuel (by omega)
        | false =>
          obtain ⟨f, rfl⟩ : ∃ f, fuel = f + 1 := ⟨fuel - 1, by omega⟩
          obtain ⟨k, hk, he⟩ := hw f (by omega)
          refine ⟨k, hk, ?_⟩
          rw [List.cons_append, normalize_loop, hov false]
          simp only [hc, if_false, he]
      intro fuel hf
      obtain ⟨f, rfl⟩ : ∃ f, fuel = f + 1 := ⟨fuel - 1, by omega⟩
      by_cases h13 : c = 13
      · subst h13
        cases s with
        | nil =>
          obtain ⟨k, hk, he⟩ := ih [] (Nat.zero_le _) (by simp) j true f (by simp at hf ⊢; omega)
          refine ⟨k, by simpa [normalize_newlines] using hk, ?_⟩
          have e1 : ([] : List Nat) ++ (List.replicate (j + 1) 0 ++ tail) =
              0 :: (List.replicate j 0 ++ tail) := by
            simp [List.replicate_succ]
          have e3 : overruns [13] j true = overruns [] j true := by
            simp [overruns, normalize_newlines]
          rw [e1] at he ⊢
          rw [normalize_loop, e3]
          simp only [if_true, he]
          cases ho : overruns [] j true
          · simp [normalize_newlines]
          · cases R <;> simp [normalize_newlines]
        | cons d s1 =>
          have hs1 : ∀ x ∈ s1, x ≠ 0 := fun x hx => hs' x (List.mem_cons_of_mem _ hx)
          by_cases h10 : d = 10
          · subst h10
            obtain ⟨k, hk, he⟩ := ih s1 (by simp at hl'; omega) hs1 (j + 1) true f
              (by simp at hf ⊢; omega)
            refine ⟨k + 1, by simp [normalize_newlines]; omega, ?_⟩
            have hsh := shift_down_append s1 (List.replicate j 0 ++ tail) hs1
            have e1 : (10 :: s1) ++ (List.replicate (j + 1) 0 ++ tail) =
                10 :: (s1 ++ 0 :: (List.replicate j 0 ++ tail)) := by
              simp [List.replicate_succ]
            have e2 : s1 ++ 0 :: 0 :: (List.replicate j 0 ++ tail) =
                s1 ++ (List.replicate (j + 1 + 1) 0 ++ tail) := by
              simp [List.replicate_succ]
            have e3 : j + 1 + 1 + k = j + 1 + (k + 1) := by omega
            have o1 : overruns s1 (j + 1) true = false := by simp [overruns]
            have o2 : overruns (13 :: 10 :: s1) j true = false := by
              have := normalize_newlines_length_le s1 s1.length (le_refl _)
              simp only [overruns, normalize_newlines, if_true, List.length_cons]
              have hne : ((normalize_newlines s1).length + 1 == s1.length + 1 + 1) = false := by
                simp
                omega
              simp [hne]
            rw [e1, normalize_loop]
            simp only [if_true, hsh]
            rw [e2, he, e3, o1, o2]
            simp [normalize_newlines]
          · obtain ⟨k, hk, he⟩ := ih (d :: s1) hl' hs' j true f (by simp at hf ⊢; omega)
            refine ⟨k, by simp [normalize_newlines, h10] at hk ⊢; omega, ?_⟩
            have o1 : overruns (13 :: d :: s1) j true = overruns (d :: s1) j true := by
              simp [overruns, normalize_newlines, h10, List.getLast?_cons_cons]
            rw [List.cons_append] at he ⊢
            rw [normalize_loop, o1]
            simp only [if_true, h10, if_false, he]
            cases ho : overruns (d :: s1) j true
            · simp [normalize_newlines, h10]
            · cases R <;> simp [normalize_newlines, h10]
      · obtain ⟨k, hk, he⟩ := ih s hl' hs' j false f (by simp at hf ⊢; omega)
        refine ⟨k, by simp [normalize_newlines_cons, h13] at hk ⊢; omega, ?_⟩
        have o1 : overruns (c :: s) j true = overruns s j false := by
          cases s with
          | nil => simp [overruns, h13]
          | cons d s1 =>
            simp [overruns, normalize_newlines_cons, h13, List.getLast?_cons_cons]
        simp only [normalize_loop, h13, if_false, he, o1]
        cases ho : overruns s j false
        · simp [normalize_newlines_cons, h13]
        · cases R <;> simp [normalize_newlines_cons, h13]

theorem cstr_append_replicate (s : List Nat) (k : Nat) (hs : ∀ x ∈ s, x ≠ 0) :
    cstr (s ++ List.replicate (k + 1) 0) = s := by
  rw [List.replicate_succ]
  exact cstr_append_zero s _ hs

/-- The first loop on a string that ends the allocation and does not end with a carriage
return stays inside the allocation. -/
theorem normalize_loop_end (p : List Nat) (hp : ∀ x ∈ p, x ≠ 0) (hne : p ≠ [])
    (hlast : p.getLast? ≠ some 13) :
    ∃ k, ∀ f, 2 * p.length + 3 ≤ f →
      normalize_loop f false (p ++ [0]) =
        .done (normalize_newlines p ++ List.replicate (k + 1) 0) := by
  have hR : ∀ f, 1 ≤ f → normalize_loop f false [] = Outcome.undefined := by
    intro f hf
    obtain ⟨g, rfl⟩ : ∃ g, f = g + 1 := ⟨f - 1, by omega⟩
    simp [normalize_loop]
  have hov : overruns p 0 false = false := by
    cases p with
    | nil => exact absurd rfl hne
    | cons a l => simp [overruns, hlast]
  obtain ⟨k, hk, -⟩ := normalize_loop_gen [] Outcome.undefined 1 hR p.length p (le_refl _) hp 0
    false (2 * p.length + 3) (by omega)
  refine ⟨k, ?_⟩
  intro f hf
  obtain ⟨k', hk', he⟩ := normalize_loop_gen [] Outcome.undefined 1 hR p.length p (le_refl _) hp 0
    false f (by omega)
  have : k' = k := by omega
  subst this
  rw [hov] at he
  simpa [Nat.add_comm] using he

/-- The function `xml_decode` on a string `v` that is followed, behind its terminator, by a
string `p` that ends the allocation and does not end with a carriage return: the value is
what the second loop makes of the normalized `v`, and the string at `p` is left as it was
or normalized. -/
theorem xml_decode_in_tag (type : Nat) (v p : List Nat) (hv : ∀ x ∈ v, x ≠ 0)
    (hp : ∀ x ∈ p, x ≠ 0) (hne : p ≠ []) (hlast : p.getLast? ≠ some 13) :
    ∃ m, cstr m = (if overruns v 0 false then normalize_newlines p else p) ∧
      xml_decode (v ++ 0 :: (p ++ [0])) type =
        (decode_loop ((normalize_newlines v).length + 1) type (normalize_newlines v)).bind
          fun r => .done (cstr r, m) := by
  obtain ⟨kp, hend⟩ := normalize_loop_end p hp hne hlast
  obtain ⟨k, hk, he⟩ := normalize_loop_gen (p ++ [0]) _ (2 * p.length + 3) hend v.length v
    (le_refl _) hv 0 false (2 * (v ++ 0 :: (p ++ [0])).length + 2)
    (by simp only [List.length_append, List.length_cons, List.length_nil]; omega)
  have e1 : v ++ (List.replicate (0 + 1) 0 ++ (p ++ [0])) = v ++ 0 :: (p ++ [0]) := by simp
  rw [e1] at he
  have hN := normalize_newlines_no_zero v v.length (le_refl _) hv
  have hNp := normalize_newlines_no_zero p p.length (le_refl _) hp
  unfold xml_decode
  rw [he, cstr_append_zero v _ hv]
  cases ho : overruns v 0 false
  · refine ⟨p ++ [0], by simpa using cstr_append_zero p [] hp, ?_⟩
    have e2 : normalize_newlines v ++ (List.replicate (0 + 1 + k) 0 ++ (p ++ [0])) =
        normalize_newlines v ++ 0 :: (List.replicate k 0 ++ (p ++ [0])) := by
      rw [show 0 + 1 + k = k + 1 by omega, List.replicate_succ]
      simp
    have hd : (normalize_newlines v ++ 0 :: (List.replicate k 0 ++ (p ++ [0]))).drop
        (v.length + 1) = p ++ [0] := by
      rw [← hk, show (normalize_newlines v).length + k + 1 =
        (normalize_newlines v).length + (k + 1) by omega, ← List.drop_drop, List.drop_left]
      simp
    simp only [Bool.false_eq_true, if_false, Outcome.bind_done, e2,
      cstr_append_zero (normalize_newlines v) _ hN, hd]
  · refine ⟨normalize_newlines p ++ List.replicate (kp + 1) 0,
      by simpa using cstr_append_replicate _ kp hNp, ?_⟩
    have hk0 : (normalize_newlines v).length = v.length := by
      simp only [overruns, Bool.and_eq_true, beq_iff_eq] at ho
      exact ho.1.2
    have hd : (normalize_newlines v ++ 0 :: (normalize_newlines p ++
        List.replicate (kp + 1) 0)).drop (v.length + 1) =
        normalize_newlines p ++ List.replicate (kp + 1) 0 := by
      rw [← hk0]
      exact drop_length_succ_append _ _ 0
    simp only [if_true, Outcome.map_done, Outcome.bind_done,
      cstr_append_zero (normalize_newlines v) _ hN, hd]

/-! ## Start tags -/

/-! ### Line endings and the text of a tag -/

theorem normalize_newlines_append_of_no_cr (a b : List Nat) (ha : ∀ x ∈ a, x ≠ 13) :
    normalize_newlines (a ++ b) = a ++ normalize_newlines b := by
  induction a with
  | nil => rfl
  | cons c a ih =>
    rw [List.cons_append, normalize_newlines_cons _ _ (ha c (List.mem_cons_self _ _)),
      ih (fun x hx => ha x (List.mem_cons_of_mem _ hx))]
    rfl

theorem normalize_newlines_of_no_cr (a : List Nat) (ha : ∀ x ∈ a, x ≠ 13) :
    normalize_newlines a = a := by
  have := normalize_newlines_append_of_no_cr a [] ha
  simpa [normalize_newlines] using this

theorem normalize_newlines_append (b : List Nat) (c : Nat) (hc : c ≠ 10) :
    ∀ n (a : List Nat), a.length ≤ n →
      normalize_newlines (a ++ c :: b) = normalize_newlines a ++ normalize_newlines (c :: b) := by
  intro n
  induction n with
  | zero =>
    intro a h
    have : a = [] := List.length_eq_zero.1 (Nat.le_zero.1 h)
    subst this
    simp [normalize_newlines]
  | succ n ih =>
    intro a h
    match a, h with
    | [], _ => simp [normalize_newlines]
    | [x], _ =>
      by_cases hx : x = 13
      · subst hx
        simp [normalize_newlines, hc]
      · simp [normalize_newlines_cons, hx, normalize_newlines]
    | x :: y :: a1, h =>
      have h1 := ih (y :: a1) (by simp at h ⊢; omega)
      have h2 := ih a1 (by simp at h ⊢; omega)
      by_cases hx : x = 13
      · subst hx
        by_cases hy : y = 10
        · subst hy
          have e : normalize_newlines (13 :: 10 :: (a1 ++ c :: b)) =
              10 :: normalize_newlines (a1 ++ c :: b) := by simp [normalize_newlines]
          rw [List.cons_append, List.cons_append, e, h2]
          simp [normalize_newlines]
        · simp only [List.cons_append] at h1 ⊢
          simp only [normalize_newlines, if_true, hy, if_false, h1]
          simp
      · simp only [List.cons_append] at h1 ⊢
        rw [normalize_newlines_cons _ _ hx, normalize_newlines_cons _ _ hx, h1]
        simp

theorem normalize_newlines_no_cr (s : List Nat) :
    ∀ n, s.length ≤ n → ∀ x ∈ normalize_newlines s, x ≠ 13 := by
  intro n
  induction n generalizing s with
  | zero =>
    intro h x hx
    have : s = [] := List.length_eq_zero.1 (Nat.le_zero.1 h)
    subst this
    simp [normalize_newlines] at hx
  | succ n ih =>
    intro h x hx
    match s, h, hx with
    | [], _, hx => simp [normalize_newlines] at hx
    | [c], _, hx =>
      simp only [normalize_newlines] at hx
      split at hx
      · simp at hx
        omega
      · simp at hx
        rw [hx]
        assumption
    | c :: d :: t, h, hx =>
      have h1 := ih (d :: t) (by simp at h ⊢; omega)
      have h2 := ih t (by simp at h ⊢; omega)
      simp only [normalize_newlines] at hx
      split at hx
      · split at hx
        · rcases List.mem_cons.1 hx with h | h
          · omega
          · exact h2 x h
        · rcases List.mem_cons.1 hx with h | h
          · omega
          · exact h1 x h
      · rcases List.mem_cons.1 hx with h | h
        · rw [h]
          assumption
        · exact h1 x h

/-- Every byte of the normalized string is a byte of the string or a line feed. -/
theorem mem_normalize_newlines (s : List Nat) :
    ∀ n, s.length ≤ n → ∀ x ∈ normalize_newlines s, x ∈ s ∨ x = 10 := by
  intro n
  induction n generalizing s with
  | zero =>
    intro h x hx
    have : s = [] := List.length_eq_zero.1 (Nat.le_zero.1 h)
    subst this
    simp [normalize_newlines] at hx
  | succ n ih =>
    intro h x hx
    match s, h, hx with
    | [], _, hx => simp [normalize_newlines] at hx
    | [c], _, hx =>
      simp only [normalize_newlines] at hx
      split at hx
      · simp at hx
        exact Or.inr hx
      · simp at hx
        exact Or.inl (by simp [hx])
    | c :: d :: t, h, hx =>
      have h1 := ih (d :: t) (by simp at h ⊢; omega)
      have h2 := ih t (by simp at h ⊢; omega)
      simp only [normalize_newlines] at hx
      split at hx
      · split at hx
        · rcases List.mem_cons.1 hx with h | h
          · exact Or.inr h
          · rcases h2 x h with h | h
            · exact Or.inl (by simp [h])
            · exact Or.inr h
        · rcases List.mem_cons.1 hx with h | h
          · exact Or.inr h
          · rcases h1 x h with h | h
            · exact Or.inl (List.mem_cons_of_mem _ h)
            · exact Or.inr h
      · rcases List.mem_cons.1 hx with h | h
        · exact Or.inl (by simp [h])
        · rcases h1 x h with h | h
          · exact Or.inl (List.mem_cons_of_mem _ h)
          · exact Or.inr h

theorem decode_value_normalize (v : List Nat) :
    decode_value (normalize_newlines v) = decode_value v := by
  unfold decode_value
  rw [normalize_newlines_of_no_cr _ (normalize_newlines_no_cr v v.length (le_refl _))]

theorem normalize_newlines_head (c : Nat) (t : List Nat) :
    ∃ t1, normalize_newlines (c :: t) = (if c = 13 then 10 else c) :: t1 := by
  by_cases hc : c = 13
  · subst hc
    match t with
    | [] => exact ⟨[], by simp [normalize_newlines]⟩
    | d :: t2 =>
      by_cases hd : d = 10
      · exact ⟨normalize_newlines t2, by simp [normalize_newlines, hd]⟩
      · exact ⟨normalize_newlines (d :: t2), by simp [normalize_newlines, hd]⟩
  · exact ⟨normalize_newlines t, by simp [normalize_newlines_cons, hc]⟩

theorem starts_with_stop_normalize (p : List Nat) (h : starts_with_stop p) :
    starts_with_stop (normalize_newlines p) := by
  obtain ⟨c, t, rfl, hc⟩ := h
  obtain ⟨t1, ht1⟩ := normalize_newlines_head c t
  refine ⟨_, t1, ht1, ?_⟩
  split
  · decide
  · exact hc

theorem xml_ws_normalize (ws : List Nat) (h : ∀ x ∈ ws, is_xml_ws x = true) :
    ∀ x ∈ normalize_newlines ws, is_xml_ws x = true := by
  intro x hx
  rcases mem_normalize_newlines ws ws.length (le_refl _) x hx with h1 | h1
  · exact h x h1
  · subst h1
    decide

theorem name_ok_no_cr (name : List Nat) (h : name_ok name) : ∀ x ∈ name, x ≠ 13 := by
  intro x hx h13
  have := (h.2 x hx).2.1
  subst h13
  simp [isspace] at this

theorem name_ok_head (name : List Nat) (h : name_ok name) :
    ∃ c t, name = c :: t ∧ attr_name_stop c = false ∧ isspace c = false ∧ c ≠ 0 := by
  obtain ⟨hne, hall⟩ := h
  cases name with
  | nil => exact absurd rfl hne
  | cons c t => exact ⟨c, t, rfl, hall c (List.mem_cons_self _ _)⟩

theorem normalize_ws_append (ws rest : List Nat) (h : ∃ c t, rest = c :: t ∧ c ≠ 10) :
    normalize_newlines (ws ++ rest) = normalize_newlines ws ++ normalize_newlines rest := by
  obtain ⟨c, t, rfl, hc⟩ := h
  exact normalize_newlines_append t c hc ws.length ws (le_refl _)

/-- Normalizing the line endings of the text of a tag gives the text of a tag with the
same attributes. -/
theorem AttrText.normalize {p : List Nat} {attrs : List (List Nat × List Nat)} {sc : Bool}
    (h : AttrText p attrs sc) : AttrText (normalize_newlines p) attrs sc := by
  induction h with
  | close ws hws =>
    rw [normalize_ws_append ws [62] ⟨62, [], rfl, by decide⟩]
    exact AttrText.close _ (xml_ws_normalize ws hws)
  | selfclose ws hws =>
    rw [normalize_ws_append ws [47, 62] ⟨47, [62], rfl, by decide⟩]
    exact AttrText.selfclose _ (xml_ws_normalize ws hws)
  | quoted ws name q v val p attrs sc hws hname hq hv hval _ ih =>
    obtain ⟨c, t, hct, hc1, hc2, hc3⟩ := name_ok_head name hname
    have hc10 : c ≠ 10 := by
      intro h
      subst h
      simp [isspace] at hc2
    have hq10 : q ≠ 10 := by rcases hq with h | h <;> omega
    have hq13 : q ≠ 13 := by rcases hq with h | h <;> omega
    have e1 : normalize_newlines (ws ++ (name ++ 61 :: q :: (v ++ q :: p))) =
        normalize_newlines ws ++
          (name ++ 61 :: q :: (normalize_newlines v ++ q :: normalize_newlines p)) := by
      rw [normalize_ws_append ws _ ⟨c, t ++ 61 :: q :: (v ++ q :: p), by simp [hct], hc10⟩,
        normalize_newlines_append_of_no_cr name _ (name_ok_no_cr name hname),
        normalize_newlines_cons _ _ (by decide), normalize_newlines_cons _ _ hq13,
        normalize_newlines_append p q hq10 v.length v (le_refl _),
        normalize_newlines_cons _ _ hq13]
    rw [e1]
    refine AttrText.quoted _ name q _ val _ attrs sc (xml_ws_normalize ws hws) hname hq ?_ ?_ ih
    · intro x hx
      rcases mem_normalize_newlines v v.length (le_refl _) x hx with h1 | h1
      · exact hv x h1
      · subst h1
        exact ⟨fun h => hq10 h.symm, by decide⟩
    · rw [decode_value_normalize, hval]
  | unquoted ws name v val p attrs sc hws hname hv hhead hval _ hstop ih =>
    obtain ⟨c, t, hct, hc1, hc2, hc3⟩ := name_ok_head name hname
    have hc10 : c ≠ 10 := by
      intro h
      subst h
      simp [isspace] at hc2
    have hv13 : ∀ x ∈ v, x ≠ 13 := by
      intro x hx h13
      have := (hv x hx).1
      subst h13
      simp [tag_name_stop, is_xml_ws] at this
    have e1 : normalize_newlines (ws ++ (name ++ 61 :: (v ++ p))) =
        normalize_newlines ws ++ (name ++ 61 :: (v ++ normalize_newlines p)) := by
      rw [normalize_ws_append ws _ ⟨c, t ++ 61 :: (v ++ p), by simp [hct], hc10⟩,
        normalize_newlines_append_of_no_cr name _ (name_ok_no_cr name hname),
        normalize_newlines_cons _ _ (by decide),
        normalize_newlines_append_of_no_cr v _ hv13]
    rw [e1]
    exact AttrText.unquoted _ name v val _ attrs sc (xml_ws_normalize ws hws) hname hv hhead hval
      ih (starts_with_stop_normalize p hstop)
  | bare ws name p attrs sc hws hname _ hstop ih =>
    obtain ⟨c, t, hct, hc1, hc2, hc3⟩ := name_ok_head name hname
    have hc10 : c ≠ 10 := by
      intro h
      subst h
      simp [isspace] at hc2
    have e1 : normalize_newlines (ws ++ (name ++ p)) =
        normalize_newlines ws ++ (name ++ normalize_newlines p) := by
      rw [normalize_ws_append ws _ ⟨c, t ++ p, by simp [hct], hc10⟩,
        normalize_newlines_append_of_no_cr name _ (name_ok_no_cr name hname)]
    rw [e1]
    exact AttrText.bare _ name _ attrs sc (xml_ws_normalize ws hws) hname ih
      (starts_with_stop_normalize p hstop)

/-- The text of a tag is not empty, ends with `>` and holds no NUL. -/
theorem AttrText.shape {p : List Nat} {attrs : List (List Nat × List Nat)} {sc : Bool}
    (h : AttrText p attrs sc) :
    p ≠ [] ∧ p.getLast? = some 62 ∧ ∀ x ∈ p, x ≠ 0 := by
  have hws0 : ∀ ws : List Nat, (∀ x ∈ ws, is_xml_ws x = true) → ∀ x ∈ ws, x ≠ 0 := by
    intro ws hws x hx h0
    have := hws x hx
    subst h0
    simp [is_xml_ws] at this
  induction h with
  | close ws hws =>
    refine ⟨by simp, by simp, ?_⟩
    intro x hx
    rcases List.mem_append.1 hx with h | h
    · exact hws0 ws hws x h
    · simp at h
      omega
  | selfclose ws hws =>
    refine ⟨by simp, by simp [List.getLast?_append], ?_⟩
    intro x hx
    rcases List.mem_append.1 hx with h | h
    · exact hws0 ws hws x h
    · simp at h
      omega
  | quoted ws name q v val p attrs sc hws hname hq hv hval _ ih =>
    obtain ⟨ih1, ih2, ih3⟩ := ih
    refine ⟨by simp, ?_, ?_⟩
    · have e : ws ++ (name ++ 61 :: q :: (v ++ q :: p)) = (ws ++ name ++ 61 :: q :: v ++ [q]) ++ p := by
        simp
      rw [e, List.getLast?_append_of_ne_nil _ ih1, ih2]
    · intro x hx
      simp only [List.mem_append, List.mem_cons] at hx
      rcases hx with h | h | h | h | h | h | h
      · exact hws0 ws hws x h
      · exact (hname.2 x h).2.2
      · omega
      · rcases hq with h1 | h1 <;> omega
      · exact (hv x h).2
      · rcases hq with h1 | h1 <;> omega
      · exact ih3 x h
  | unquoted ws name v val p attrs sc hws hname hv hhead hval _ hstop ih =>
    obtain ⟨ih1, ih2, ih3⟩ := ih
    refine ⟨by simp, ?_, ?_⟩
    · have e : ws ++ (name ++ 61 :: (v ++ p)) = (ws ++ name ++ 61 :: v) ++ p := by simp
      rw [e, List.getLast?_append_of_ne_nil _ ih1, ih2]
    · intro x hx
      simp only [List.mem_append, List.mem_cons] at hx
      rcases hx with h | h | h | h | h
      · exact hws0 ws hws x h
      · exact (hname.2 x h).2.2
      · omega
      · exact (hv x h).2
      · exact ih3 x h
  | bare ws name p attrs sc hws hname _ hstop ih =>
    obtain ⟨ih1, ih2, ih3⟩ := ih
    refine ⟨by simp [ih1], ?_, ?_⟩
    · have e : ws ++ (name ++ p) = (ws ++ name) ++ p := by simp
      rw [e, List.getLast?_append_of_ne_nil _ ih1, ih2]
    · intro x hx
      simp only [List.mem_append] at hx
      rcases hx with h | h | h
      · exact hws0 ws hws x h
      · exact (hname.2 x h).2.2
      · exact ih3 x h

/-! ### Scanning steps -/

theorem takeWhile_append_stop (f : Nat → Bool) (a b : List Nat) (ha : ∀ x ∈ a, f x = true)
    (hb : ∀ c t, b = c :: t → f c = false) :
    (a ++ b).takeWhile f = a ∧ (a ++ b).dropWhile f = b := by
  induction a with
  | nil =>
    cases b with
    | nil => simp
    | cons c t => simp [List.takeWhile_cons, List.dropWhile_cons, hb c t rfl]
  | cons x a ih =>
    have hx := ha x (List.mem_cons_self _ _)
    have := ih (fun y hy => ha y (List.mem_cons_of_mem _ hy))
    simp [List.takeWhile_cons, List.dropWhile_cons, hx, this.1, this.2]

theorem is_xml_ws_isspace (x : Nat) (h : is_xml_ws x = true) : isspace x = true := by
  simp only [is_xml_ws, Bool.or_eq_true, beq_iff_eq] at h
  rcases h with ((h | h) | h) | h <;> subst h <;> decide

theorem stop_of_tag_stop (x : Nat) (h : tag_name_stop x = true) : attr_name_stop x = true := by
  simp only [tag_name_stop, attr_name_stop, Bool.or_eq_true] at h ⊢
  tauto

theorem not_stop_props (c : Nat) (h : attr_name_stop c = false) :
    (c == 47 || c == 62) = false ∧ (c == 61) = false ∧ is_xml_ws c = false ∧
      tag_name_stop c = false := by
  simp only [attr_name_stop, tag_name_stop, Bool.or_eq_false_iff] at h ⊢
  tauto

/-- One turn of the attribute loop at an attribute name: the name ends at the first byte
of `XML_WS "=/>"`, the value is read behind it, and the pair is recorded, in lower case,
while fewer than `MAX_ATTR / 2` pairs are recorded. -/
theorem attr_loop_name (fuel : Nat) (name rest : List Nat)
    (acc : List (List Nat × List Nat)) (hname : name_ok name)
    (hrest : ∀ c t, rest = c :: t → attr_name_stop c = true) :
    attr_loop (fuel + 1) (name ++ rest) acc =
      (attr_value rest).bind fun v =>
        attr_loop fuel (v.2.dropWhile isspace)
          (if 2 * acc.length < MAX_ATTR then acc ++ [(dc_strlower_in_place name, v.1)]
           else acc) := by
  obtain ⟨c, t, hct, hc1, hc2, hc3⟩ := name_ok_head name hname
  obtain ⟨h1, h2, h3, h4⟩ := not_stop_props c hc1
  have htd := takeWhile_append_stop (fun x => !attr_name_stop x) name rest
    (by intro x hx; simp [(hname.2 x hx).1])
    (by intro c t h; simp [hrest c t h])
  have hne : name.isEmpty = false := by simp [hct]
  have e : name ++ rest = c :: (t ++ rest) := by simp [hct]
  rw [e, attr_loop]
  simp only [h1, h2, Bool.false_eq_true, if_false]
  rw [← e, htd.1, htd.2]
  simp only [hne, Bool.false_eq_true, if_false]

/-- A value in quotes: it runs to the matching quote and is decoded in place, with the
rest of the buffer behind its terminator. -/
theorem attr_value_quoted (q : Nat) (v p : List Nat) (hq : q = 34 ∨ q = 39)
    (hv : ∀ x ∈ v, x ≠ q) :
    attr_value (61 :: q :: (v ++ q :: p)) =
      (xml_decode (v ++ 0 :: (p ++ [0])) 32).bind fun r => .done (r.1, cstr r.2) := by
  have htd := takeWhile_append_stop (fun x => x != q) v (q :: p)
    (by intro x hx; simp [hv x hx])
    (by intro c t h; simp at h; simp [h.1])
  have hq1 : is_xml_ws q = false := by rcases hq with h | h <;> subst h <;> decide
  have hq2 : ws_or_eq q = false := by rcases hq with h | h <;> subst h <;> decide
  have hq3 : (q == 34 || q == 39) = true := by rcases hq with h | h <;> subst h <;> decide
  unfold attr_value
  have e1 : List.dropWhile is_xml_ws (61 :: q :: (v ++ q :: p)) = 61 :: q :: (v ++ q :: p) := by
    simp [List.dropWhile_cons, is_xml_ws]
  have h61 : ws_or_eq 61 = true := by decide
  have e2 : List.dropWhile ws_or_eq (61 :: q :: (v ++ q :: p)) = q :: (v ++ q :: p) := by
    simp [List.dropWhile_cons, h61, hq2]
  simp only [e1, List.head?_cons, beq_self_eq_true, if_true, e2, hq3, htd.1, htd.2]

/-- A value without quotes: it runs to the next byte of `XML_WS "/>"` and is decoded in a
copy of its own. -/
theorem attr_value_no_quote (v p : List Nat)
    (hv : ∀ x ∈ v, tag_name_stop x = false)
    (hhead : ∃ c t, v = c :: t ∧ c ≠ 34 ∧ c ≠ 39 ∧ c ≠ 61)
    (hp : ∀ c t, p = c :: t → tag_name_stop c = true) :
    attr_value (61 :: (v ++ p)) =
      (xml_decode (v ++ [0]) 32).bind fun r => .done (r.1, p) := by
  obtain ⟨c, t, hct, hc1, hc2, hc3⟩ := hhead
  have htd := takeWhile_append_stop (fun x => !tag_name_stop x) v p
    (by intro x hx; simp [hv x hx])
    (by intro c t h; simp [hp c t h])
  have hcs := hv c (by simp [hct])
  have hcw : ws_or_eq c = false := by
    simp only [tag_name_stop, Bool.or_eq_false_iff] at hcs
    simp [ws_or_eq, hcs.1.1, hc3]
  have hcq : (c == 34 || c == 39) = false := by simp [hc1, hc2]
  unfold attr_value
  have e1 : List.dropWhile is_xml_ws (61 :: (v ++ p)) = 61 :: (v ++ p) := by
    simp [List.dropWhile_cons, is_xml_ws]
  have h61 : ws_or_eq 61 = true := by decide
  have e2 : List.dropWhile ws_or_eq (61 :: (v ++ p)) = c :: (t ++ p) := by
    rw [hct]
    simp [List.dropWhile_cons, h61, hcw]
  have e3 : c :: (t ++ p) = v ++ p := by simp [hct]
  simp only [e1, List.head?_cons, beq_self_eq_true, if_true, e2, hcq, Bool.false_eq_true,
    if_false, attr_value_unquoted]
  rw [e3, htd.1, htd.2]

/-- No `=` behind the name: the value is the empty string and the scan goes on behind
the white space. -/
theorem attr_value_bare (p : List Nat) (hp : (p.dropWhile is_xml_ws).head? ≠ some 61) :
    attr_value p = .done ([], p.dropWhile is_xml_ws) := by
  unfold attr_value
  have : ((p.dropWhile is_xml_ws).head? == some 61) = false := by
    simpa using hp
  simp only [this, Bool.false_eq_true, if_false, dc_strdup_null]

theorem cap_step (acc attrs : List (List Nat × List Nat)) (x : List Nat × List Nat)
    (hacc : acc.length ≤ 50) :
    (if 2 * acc.length < MAX_ATTR then acc ++ [x] else acc).length ≤ 50 ∧
    ((if 2 * acc.length < MAX_ATTR then acc ++ [x] else acc) ++ attrs).take 50 =
      (acc ++ x :: attrs).take 50 := by
  by_cases h : acc.length < 50
  · have : 2 * acc.length < MAX_ATTR := by
      unfold MAX_ATTR
      omega
    simp only [this, if_true]
    refine ⟨by simp; omega, by simp⟩
  · have h50 : acc.length = 50 := by omega
    have : ¬ 2 * acc.length < MAX_ATTR := by
      unfold MAX_ATTR
      omega
    simp only [this, if_false]
    refine ⟨hacc, ?_⟩
    rw [List.take_append_of_le_length (by omega), List.take_append_of_le_length (by omega)]

theorem dropWhile_isspace_ws (ws rest : List Nat) (hws : ∀ x ∈ ws, is_xml_ws x = true)
    (hrest : ∀ c t, rest = c :: t → isspace c = false) :
    (ws ++ rest).dropWhile isspace = rest :=
  (takeWhile_append_stop isspace ws rest (fun x hx => is_xml_ws_isspace x (hws x hx)) hrest).2

theorem dropWhile_xml_ws (ws rest : List Nat) (hws : ∀ x ∈ ws, is_xml_ws x = true)
    (hrest : ∀ c t, rest = c :: t → is_xml_ws c = false) :
    (ws ++ rest).dropWhile is_xml_ws = rest :=
  (takeWhile_append_stop is_xml_ws ws rest hws hrest).2

/-- Behind any white space, the text of a tag goes on with a byte that is neither white
space nor `=`. -/
theorem AttrText.after_ws {p : List Nat} {attrs : List (List Nat × List Nat)} {sc : Bool}
    (h : AttrText p attrs sc) :
    ∃ ws c t, p = ws ++ c :: t ∧ (∀ x ∈ ws, is_xml_ws x = true) ∧ isspace c = false ∧
      c ≠ 61 := by
  cases h with
  | close ws hws => exact ⟨ws, 62, [], rfl, hws, by decide, by decide⟩
  | selfclose ws hws => exact ⟨ws, 47, [62], rfl, hws, by decide, by decide⟩
  | quoted ws name q v val p attrs sc hws hname hq hv hval hp =>
    obtain ⟨c, t, hct, hc1, hc2, hc3⟩ := name_ok_head name hname
    refine ⟨ws, c, t ++ 61 :: q :: (v ++ q :: p), by simp [hct], hws, hc2, ?_⟩
    intro h
    subst h
    simp [attr_name_stop] at hc1
  | unquoted ws name v val p attrs sc hws hname hv hhead hval hp hstop =>
    obtain ⟨c, t, hct, hc1, hc2, hc3⟩ := name_ok_head name hname
    refine ⟨ws, c, t ++ 61 :: (v ++ p), by simp [hct], hws, hc2, ?_⟩
    intro h
    subst h
    simp [attr_name_stop] at hc1
  | bare ws name p attrs sc hws hname hp hstop =>
    obtain ⟨c, t, hct, hc1, hc2, hc3⟩ := name_ok_head name hname
    refine ⟨ws, c, t ++ p, by simp [hct], hws, hc2, ?_⟩
    intro h
    subst h
    simp [attr_name_stop] at hc1

theorem isspace_false_xml_ws (c : Nat) (h : isspace c = false) : is_xml_ws c = false := by
  by_contra hc
  have := is_xml_ws_isspace c (by simpa using hc)
  simp [this] at h

theorem decode_value_done (v val : List Nat) (h : decode_value v = .done val) :
    ∃ r, decode_loop ((normalize_newlines v).length + 1) 32 (normalize_newlines v) = .done r ∧
      cstr r = val := by
  unfold decode_value at h
  cases hd : decode_loop ((normalize_newlines v).length + 1) 32 (normalize_newlines v) with
  | done r =>
    rw [hd] at h
    simp only [Outcome.map_done, Outcome.done.injEq] at h
    exact ⟨r, rfl, h⟩
  | undefined => simp [hd] at h
  | outOfFuel => simp [hd] at h

theorem xml_decode_no_cr (type : Nat) (v tail : List Nat) (hv : ∀ x ∈ v, x ≠ 0 ∧ x ≠ 13) :
    xml_decode (v ++ 0 :: tail) type =
      (decode_loop (v.length + 1) type v).bind fun r => .done (cstr r, tail) := by
  unfold xml_decode
  rw [normalize_loop_no_cr v tail hv _ (by simp only [List.length_append, List.length_cons]; omega)]
  simp only [Outcome.bind_done, cstr_append_zero v tail (fun x hx => (hv x hx).1),
    drop_length_succ_append]

/-- The attribute loop on the text of a tag, followed by the rest of the document, records
the attributes written in the tag, in their order, up to the fiftieth, and ends at the `/`
or `>` that ends the tag. Either the tag ends the document or it holds no carriage
return. -/
theorem attr_loop_attrText :
    ∀ n (p : List Nat) (attrs : List (List Nat × List Nat)) (sc : Bool),
      AttrText p attrs sc → p.length ≤ n →
      ∀ (rest : List Nat), (rest = [] ∨ ∀ x ∈ p, x ≠ 13) → (∀ x ∈ rest, x ≠ 0) →
      ∀ (acc : List (List Nat × List Nat)) (fuel : Nat), acc.length ≤ 50 →
        p.length + 1 ≤ fuel →
        attr_loop fuel ((p ++ rest).dropWhile isspace) acc =
          .done ((acc ++ attrs).take 50, (if sc then [47, 62] else [62]) ++ rest) := by
  intro n
  induction n with
  | zero =>
    intro p attrs sc h hl
    have := h.shape.1
    have : p = [] := List.length_eq_zero.1 (Nat.le_zero.1 hl)
    contradiction
  | succ n ih =>
    intro p attrs sc h hl rest hcr hrest0 acc fuel hacc hf
    obtain ⟨f, rfl⟩ : ∃ f, fuel = f + 1 := ⟨fuel - 1, by omega⟩
    cases h with
    | close ws hws =>
      rw [List.append_assoc, dropWhile_isspace_ws ws _ hws
        (by intro c t h; simp at h; rw [← h.1]; decide)]
      simp [attr_loop, List.take_of_length_le hacc]
    | selfclose ws hws =>
      rw [List.append_assoc, dropWhile_isspace_ws ws _ hws
        (by intro c t h; simp at h; rw [← h.1]; decide)]
      simp [attr_loop, List.take_of_length_le hacc]
    | quoted ws name q v val p1 attrs1 sc hws hname hq hv hval hp =>
      obtain ⟨c, t, hct, hc1, hc2, hc3⟩ := name_ok_head name hname
      have e0 : ws ++ (name ++ 61 :: q :: (v ++ q :: p1)) ++ rest =
          ws ++ (name ++ 61 :: q :: (v ++ q :: (p1 ++ rest))) := by simp
      rw [e0, dropWhile_isspace_ws ws _ hws
        (by intro c1 t1 h; rw [hct] at h; simp at h; rw [← h.1]; exact hc2)]
      rw [attr_loop_name f name _ acc hname (by intro c1 t1 h; simp at h; rw [← h.1]; decide),
        attr_value_quoted q v (p1 ++ rest) hq (fun x hx => (hv x hx).1)]
      obtain ⟨hs1, hs2, hs3⟩ := hp.shape
      obtain ⟨r, hr, hrv⟩ := decode_value_done v val hval
      obtain ⟨hc50, htake⟩ := cap_step acc attrs1 (dc_strlower_in_place name, val) hacc
      have hlen : p1.length + 1 ≤ f ∧ p1.length ≤ n := by
        simp only [List.length_append, List.length_cons] at hl hf
        omega
      rcases hcr with hcr | hcr
      · subst hcr
        obtain ⟨m, hm, hx⟩ := xml_decode_in_tag 32 v p1 (fun x hx => (hv x hx).2) hs3 hs1
          (by rw [hs2]; decide)
        rw [List.append_nil, hx, hr]
        simp only [Outcome.bind_done, hrv]
        by_cases ho : overruns v 0 false = true
        · simp only [ho, if_true] at hm
          have hN := normalize_newlines_length_le p1 p1.length (le_refl _)
          have := ih _ attrs1 sc hp.normalize (by omega) [] (Or.inl rfl) (by simp) _ f hc50
            (by omega)
          rw [List.append_nil] at this
          rw [hm, this, htake]
        · simp only [ho, Bool.false_eq_true, if_false] at hm
          have := ih _ attrs1 sc hp (by omega) [] (Or.inl rfl) (by simp) _ f hc50 (by omega)
          rw [List.append_nil] at this
          rw [hm, this, htake]
      · have hv13 : ∀ x ∈ v, x ≠ 0 ∧ x ≠ 13 := fun x hx =>
          ⟨(hv x hx).2, hcr x (by simp [hx])⟩
        have hp13 : ∀ x ∈ p1, x ≠ 13 := fun x hx => hcr x (by simp [hx])
        rw [normalize_newlines_of_no_cr v (fun x hx => (hv13 x hx).2)] at hr
        have hc : cstr (p1 ++ rest ++ [0]) = p1 ++ rest := by
          have := cstr_append_zero (p1 ++ rest) [] (by
            intro x hx
            rcases List.mem_append.1 hx with h | h
            · exact hs3 x h
            · exact hrest0 x h)
          simpa using this
        rw [xml_decode_no_cr 32 v _ hv13, hr]
        simp only [Outcome.bind_done, hrv, hc]
        rw [ih _ attrs1 sc hp (by omega) rest (Or.inr hp13) hrest0 _ f hc50 (by omega), htake]
    | unquoted ws name v val p1 attrs1 sc hws hname hv hhead hval hp hstop =>
      obtain ⟨c, t, hct, hc1, hc2, hc3⟩ := name_ok_head name hname
      have e0 : ws ++ (name ++ 61 :: (v ++ p1)) ++ rest =
          ws ++ (name ++ 61 :: (v ++ (p1 ++ rest))) := by simp
      rw [e0, dropWhile_isspace_ws ws _ hws
        (by intro c1 t1 h; rw [hct] at h; simp at h; rw [← h.1]; exact hc2)]
      rw [attr_loop_name f name _ acc hname (by intro c1 t1 h; simp at h; rw [← h.1]; decide),
        attr_value_no_quote v (p1 ++ rest) (fun x hx => (hv x hx).1) hhead
          (by
            obtain ⟨c2, t2, h2, h3⟩ := hstop
            intro c1 t1 h
            rw [h2] at h
            simp at h
            rw [← h.1]
            exact h3)]
      have hv13 : ∀ x ∈ v, x ≠ 0 ∧ x ≠ 13 := by
        intro x hx
        refine ⟨(hv x hx).2, ?_⟩
        intro h13
        have := (hv x hx).1
        subst h13
        simp [tag_name_stop, is_xml_ws] at this
      obtain ⟨r, hr, hrv⟩ := decode_value_done v val hval
      rw [normalize_newlines_of_no_cr v (fun x hx => (hv13 x hx).2)] at hr
      rw [xml_decode_no_cr 32 v [] hv13, hr]
      simp only [Outcome.bind_done, hrv]
      obtain ⟨hc50, htake⟩ := cap_step acc attrs1 (dc_strlower_in_place name, val) hacc
      have hlen : p1.length + 1 ≤ f ∧ p1.length ≤ n := by
        simp only [List.length_append, List.length_cons] at hl hf
        omega
      have hcr1 : rest = [] ∨ ∀ x ∈ p1, x ≠ 13 := by
        rcases hcr with h | h
        · exact Or.inl h
        · exact Or.inr (fun x hx => h x (by simp [hx]))
      rw [ih _ attrs1 sc hp (by omega) rest hcr1 hrest0 _ f hc50 (by omega), htake]
    | bare ws name p1 attrs1 sc hws hname hp hstop =>
      obtain ⟨c, t, hct, hc1, hc2, hc3⟩ := name_ok_head name hname
      have e0 : ws ++ (name ++ p1) ++ rest = ws ++ (name ++ (p1 ++ rest)) := by simp
      rw [e0, dropWhile_isspace_ws ws _ hws
        (by intro c1 t1 h; rw [hct] at h; simp at h; rw [← h.1]; exact hc2)]
      obtain ⟨ws1, c1, t1, hp1, hws1, hc1s, hc161⟩ := hp.after_ws
      have hp1r : p1 ++ rest = ws1 ++ c1 :: (t1 ++ rest) := by simp [hp1]
      have hd1 : (p1 ++ rest).dropWhile is_xml_ws = c1 :: (t1 ++ rest) := by
        rw [hp1r]
        exact dropWhile_xml_ws ws1 _ hws1
          (by intro c2 t2 h; simp at h; rw [← h.1]; exact isspace_false_xml_ws c1 hc1s)
      have hd2 : (c1 :: (t1 ++ rest)).dropWhile isspace = (p1 ++ rest).dropWhile isspace := by
        rw [hp1r, dropWhile_isspace_ws ws1 _ hws1
          (by intro c2 t2 h; simp at h; rw [← h.1]; exact hc1s)]
        simp [List.dropWhile_cons, hc1s]
      rw [attr_loop_name f name _ acc hname
          (by
            obtain ⟨c2, t2, h2, h3⟩ := hstop
            intro c3 t3 h
            rw [h2] at h
            simp at h
            rw [← h.1]
            exact stop_of_tag_stop c2 h3),
        attr_value_bare (p1 ++ rest) (by rw [hd1]; simpa using hc161)]
      simp only [Outcome.bind_done, hd1, hd2]
      obtain ⟨hc50, htake⟩ := cap_step acc attrs1 (dc_strlower_in_place name, []) hacc
      have hlen : p1.length + 1 ≤ f ∧ p1.length ≤ n := by
        have hn1 : 1 ≤ name.length := by simp [hct]
        simp only [List.length_append] at hl hf
        omega
      have hcr1 : rest = [] ∨ ∀ x ∈ p1, x ≠ 13 := by
        rcases hcr with h | h
        · exact Or.inl h
        · exact Or.inr (fun x hx => h x (by simp [hx]))
      rw [ih _ attrs1 sc hp (by omega) rest hcr1 hrest0 _ f hc50 (by omega), htake]

theorem tag_stop_props (c : Nat) (h : tag_name_stop c = false) :
    is_xml_ws c = false ∧ c ≠ 47 ∧ c ≠ 62 := by
  simp only [tag_name_stop, Bool.or_eq_false_iff, beq_eq_false_iff_ne] at h
  exact ⟨h.1.1, h.1.2, h.2⟩

theorem parse_loop_nil (fuel : Nat) : parse_loop (fuel + 1) [] [] = .done [] := by
  simp [parse_loop, call_text_cb]

/-- One turn of the main loop at the `<` of a start tag, with no text pending: the tag is
reported once, with its name in lower case and the attributes written in it, in their
order, up to the fiftieth; an end tag follows exactly when the tag closes itself; and the
scan goes on behind the `>` of the tag, with no text pending. Either the tag ends the
document or it holds no carriage return. -/
theorem parse_loop_start_tag (fuel : Nat) (tag p rest : List Nat)
    (attrs : List (List Nat × List Nat)) (sc : Bool)
    (htag : tag_ok tag) (hp : AttrText p attrs sc) (hstop : starts_with_stop p)
    (hcr : rest = [] ∨ ∀ x ∈ p, x ≠ 13) (hrest0 : ∀ x ∈ rest, x ≠ 0) :
    parse_loop (fuel + 1) [] (60 :: (tag ++ (p ++ rest))) =
      (parse_loop fuel [] rest).map fun ev =>
        (Event.starttag (dc_strlower_in_place tag) (attrs.take 50) ::
          (if sc then [Event.endtag (dc_strlower_in_place tag)] else [])) ++ ev := by
  obtain ⟨⟨c, t, hct, hc33, hc63⟩, hall⟩ := htag
  obtain ⟨hs1, hs2, hs3⟩ := hp.shape
  obtain ⟨hcw, hc47, hc62⟩ := tag_stop_props c (hall c (by simp [hct])).1
  have htd := takeWhile_append_stop (fun x => !tag_name_stop x) tag (p ++ rest)
    (by intro x hx; simp [(hall x hx).1])
    (by
      obtain ⟨c2, t2, h2, h3⟩ := hstop
      intro c1 t1 h
      rw [h2] at h
      simp at h
      rw [← h.1]
      simp [h3])
  have hattr := attr_loop_attrText p.length p attrs sc hp (le_refl _) rest hcr hrest0 []
    ((p ++ rest).length + 1) (by simp) (by simp only [List.length_append]; omega)
  have htagdrop : (tag ++ (p ++ rest)).dropWhile is_xml_ws = tag ++ (p ++ rest) := by
    rw [hct]
    simp [List.dropWhile_cons, hcw]
  have hhead : (tag ++ (p ++ rest)).head? = some c := by simp [hct]
  have hne : tag.isEmpty = false := by simp [hct]
  have hpt : parse_tag (tag ++ (p ++ rest)) =
      .done (Event.starttag (dc_strlower_in_place tag) (attrs.take 50) ::
        (if sc then [Event.endtag (dc_strlower_in_place tag)] else []), 62 :: rest) := by
    unfold parse_tag
    have h47 : (some c == some 47) = false := by simp [hc47]
    simp only [htagdrop, hhead, h47, Bool.false_eq_true, if_false, htd.1, htd.2, hne, hattr,
      Outcome.bind_done, List.nil_append]
    cases sc <;> simp [List.dropWhile_cons, is_xml_ws]
  rw [parse_loop]
  have e1 : ([33, 45, 45] : List Nat).isPrefixOf (tag ++ (p ++ rest)) = false := by
    rw [hct]
    simp [List.isPrefixOf, Ne.symm hc33]
  have e2 : ([33, 91, 67, 68, 65, 84, 65, 91] : List Nat).isPrefixOf (tag ++ (p ++ rest)) =
      false := by
    rw [hct]
    simp [List.isPrefixOf, Ne.symm hc33]
  have e3 : ([33, 68, 79, 67, 84, 89, 80, 69] : List Nat).isPrefixOf (tag ++ (p ++ rest)) =
      false := by
    rw [hct]
    simp [List.isPrefixOf, Ne.symm hc33]
  have e4 : ((tag ++ (p ++ rest)).head? == some 63) = false := by simp [hhead, hc63]
  simp only [bne_self_eq_false, Bool.false_eq_true, if_false, call_text_cb_nil,
    Outcome.bind_done, List.tail_cons, e1, e2, e3, e4, hpt, strchr, if_true,
    List.nil_append]

/-- The events of a document that is one start tag: the tag is reported once, with its
name in lower case and the attributes written in it, in their order, up to the fiftieth; an
end tag follows exactly when the tag closes itself. -/
theorem parse_start_tag (tag p : List Nat) (attrs : List (List Nat × List Nat)) (sc : Bool)
    (htag : tag_ok tag) (hp : AttrText p attrs sc) (hstop : starts_with_stop p) :
    dc_saxparser_parse (60 :: (tag ++ p)) =
      .done (Event.starttag (dc_strlower_in_place tag) (attrs.take 50) ::
        (if sc then [Event.endtag (dc_strlower_in_place tag)] else [])) := by
  obtain ⟨hs1, hs2, hs3⟩ := hp.shape
  have hbuf : ∀ x ∈ 60 :: (tag ++ p), x ≠ 0 := by
    intro x hx
    rcases List.mem_cons.1 hx with h | h
    · omega
    · rcases List.mem_append.1 h with h | h
      · exact (htag.2 x h).2
      · exact hs3 x h
  have hstep := parse_loop_start_tag ((tag ++ p).length + 1) tag p [] attrs sc htag hp hstop
    (Or.inl rfl) (by simp)
  rw [List.append_nil] at hstep
  unfold dc_saxparser_parse
  rw [cstr_of_no_zero _ hbuf]
  have hlen : (60 :: (tag ++ p)).length + 1 = (tag ++ p).length + 1 + 1 := by simp
  rw [hlen, hstep, parse_loop_nil]
  simp

theorem Outcome.map_eq_done {α β : Type} {f : α → β} {x : Outcome α} {b : β}
    (h : x.map f = .done b) : ∃ a, x = .done a ∧ f a = b := by
  cases x with
  | done a =>
    simp only [Outcome.map_done, Outcome.done.injEq] at h
    exact ⟨a, rfl, h⟩
  | undefined => simp at h
  | outOfFuel => simp at h

theorem Outcome.bind_eq_done {α β : Type} {f : α → Outcome β} {x : Outcome α} {b : β}
    (h : x.bind f = .done b) : ∃ a, x = .done a ∧ f a = .done b := by
  cases x with
  | done a => exact ⟨a, rfl, by simpa using h⟩
  | undefined => simp at h
  | outOfFuel => simp at h

set_option maxRecDepth 1000000 in
/-- C5, the code at the failing inputs: a start tag with 150 attributes, and one with 51,
is reported once with the first 50 attributes only, because `attr_index < MAX_ATTR`
compares an index that advances by two per attribute. -/
theorem attr_cap_fifty :
    dc_saxparser_parse (tag_with_attrs 150) =
      .done [Event.starttag [116] ((List.range 50).map attr_pair)] ∧
    dc_saxparser_parse (tag_with_attrs 51) =
      .done [Event.starttag [116] ((List.range 50).map attr_pair)] ∧
    dc_saxparser_parse (tag_with_attrs 50) =
      .done [Event.starttag [116] ((List.range 50).map attr_pair)] ∧
    ((List.range 50).map attr_pair).length = 50 := by
  decide!

/-! ## The claims about tags -/

/-- C4, the code at a failing input: the document `<a b="\r">` is consumed completely and
gives one start tag, but with the unterminated comment `<!--\r` appended the first loop of
`xml_decode`, started on the attribute value, runs through the rest of the buffer and
reads behind its end, so the run is undefined. With a comment text that does not end with
a carriage return the events are those of the document alone, and the example of the
specification, `<p>hi<!-- never closes`, behaves as specified. -/
theorem unterminated_comment_overrun :
    dc_saxparser_parse (ascii "<a b=\"\r\">") =
      .done [Event.starttag (ascii "a") [(ascii "b", ascii " ")]] ∧
    dc_saxparser_parse (ascii "<a b=\"\r\">" ++ ascii "<!--" ++ ascii "\r") = .undefined ∧
    dc_saxparser_parse (ascii "<a b=\"\r\">" ++ ascii "<!--" ++ ascii "\rx") =
      .done [Event.starttag (ascii "a") [(ascii "b", ascii " ")]] ∧
    dc_saxparser_parse (ascii "<p>hi<!-- never closes") =
      .done [Event.starttag (ascii "p") [], Event.text (ascii "hi") 2] := by
  decide

theorem starts_with_stop_ws (ws rest : List Nat) (hws : ∀ x ∈ ws, is_xml_ws x = true)
    (hne : ws ≠ []) : starts_with_stop (ws ++ rest) := by
  cases ws with
  | nil => exact absurd rfl hne
  | cons c t =>
    refine ⟨c, t ++ rest, rfl, ?_⟩
    simp [tag_name_stop, hws c (List.mem_cons_self _ _)]

/-- Attribute names without `=`, for a tag of which fewer than fifty attributes are
written behind the name: an attribute name that is not followed, behind optional white
space, by `=` is recorded as the pair of the name in lower case and the empty string, and
the scan goes on behind it: (1) in a document that is one start tag, the attribute written first, without
`=`, is reported with the empty value, followed by the attributes written behind it, and
the tag end is found; (2) the same holds for such a tag in front of any further text, when
the tag holds no carriage return: the main loop goes on behind the `>` of the tag;
(3) wherever it stands, one turn of the attribute loop at such a name records the pair and
goes on at the next byte that is no white space; (4) `<input disabled>` gives one start
tag `input` with the list `[("disabled", "")]`. -/
theorem bare_attribute (tag ws name p : List Nat) (attrs : List (List Nat × List Nat))
    (sc : Bool) (htag : tag_ok tag) (hws : ∀ x ∈ ws, is_xml_ws x = true) (hne : ws ≠ [])
    (hname : name_ok name) (hp : AttrText p attrs sc) (hstop : starts_with_stop p)
    (hroom : attrs.length < 50) :
    dc_saxparser_parse (60 :: (tag ++ (ws ++ (name ++ p)))) =
      .done (Event.starttag (dc_strlower_in_place tag)
          ((dc_strlower_in_place name, []) :: attrs) ::
        (if sc then [Event.endtag (dc_strlower_in_place tag)] else [])) ∧
    (∀ (fuel : Nat) (rest : List Nat), (∀ x ∈ ws ++ (name ++ p), x ≠ 13) →
      (∀ x ∈ rest, x ≠ 0) →
      parse_loop (fuel + 1) [] (60 :: (tag ++ ((ws ++ (name ++ p)) ++ rest))) =
        (parse_loop fuel [] rest).map fun ev =>
          (Event.starttag (dc_strlower_in_place tag)
              ((dc_strlower_in_place name, []) :: attrs) ::
            (if sc then [Event.endtag (dc_strlower_in_place tag)] else [])) ++ ev) ∧
    (∀ (fuel : Nat) (rest : List Nat) (acc : List (List Nat × List Nat)),
      (∀ c t, rest = c :: t → attr_name_stop c = true) →
      (rest.dropWhile is_xml_ws).head? ≠ some 61 → 2 * acc.length < MAX_ATTR →
      attr_loop (fuel + 1) (name ++ rest) acc =
        attr_loop fuel ((rest.dropWhile is_xml_ws).dropWhile isspace)
          (acc ++ [(dc_strlower_in_place name, [])])) ∧
    dc_saxparser_parse (ascii "<input disabled>") =
      .done [Event.starttag (ascii "input") [(ascii "disabled", [])]] ∧
    dc_saxparser_parse (ascii "<a x=1 DISABLED y=\"2\" z>") =
      .done [Event.starttag (ascii "a")
        [(ascii "x", ascii "1"), (ascii "disabled", []), (ascii "y", ascii "2"),
         (ascii "z", [])]] := by
  have hat := AttrText.bare ws name p attrs sc hws hname hp hstop
  have htake : ((dc_strlower_in_place name, ([] : List Nat)) :: attrs).take 50 =
      (dc_strlower_in_place name, []) :: attrs := List.take_of_length_le (by simp; omega)
  refine ⟨?_, ?_, ?_, by decide, by decide⟩
  · have h := parse_start_tag tag _ _ sc htag hat (starts_with_stop_ws ws _ hws hne)
    rw [h, htake]
  · intro fuel rest hcr hrest
    have h := parse_loop_start_tag fuel tag _ rest _ sc htag hat
      (starts_with_stop_ws ws _ hws hne) (Or.inr hcr) hrest
    rw [h, htake]
  · intro fuel rest acc hrest h61 hroom2
    rw [attr_loop_name fuel name rest acc hname hrest, attr_value_bare rest h61]
    simp [hroom2]

/-- The tag `<input disabled>` as an instance of `bare_attribute`. -/
theorem bare_attribute_witness :
    dc_saxparser_parse (60 :: (ascii "input" ++ ([32] ++ (ascii "disabled" ++ [62])))) =
      .done (Event.starttag (dc_strlower_in_place (ascii "input"))
          ((dc_strlower_in_place (ascii "disabled"), []) :: []) ::
        (if false then [Event.endtag (dc_strlower_in_place (ascii "input"))] else [])) :=
  (bare_attribute (ascii "input") [32] (ascii "disabled") [62] [] false
    ⟨⟨105, ascii "nput", by decide, by decide, by decide⟩, by decide⟩ (by decide) (by decide)
    ⟨by decide, by decide⟩ (AttrText.close [] (by simp)) ⟨62, [], rfl, by decide⟩
    (by decide)).1

theorem Outcome.bind_map {α β γ : Type} (x : Outcome α) (f : α → β) (g : β → Outcome γ) :
    (x.map f).bind g = x.bind (fun a => g (f a)) := by
  cases x <;> rfl

/-- Attribute values of a tag with at most fifty attributes: (1) in a document that is one
start tag whose attributes are written `name="v"`, `name='v'` or `name=v`, the start tag is reported exactly once, with
its attributes in source order, each value being what `xml_decode(v, ' ')` returns for the
text `v` between the quotes, or for the text up to the next white space, `/` or `>`;
(2) the same holds for such a tag in front of any further text, when the tag holds no
carriage return; (3) the value `decode_value v` used in (1) and (2) is the string
`xml_decode` returns; (4) and (5) one turn of the attribute loop at a quoted and at an
unquoted attribute calls `xml_decode` on exactly that text. -/
theorem attribute_values (tag p : List Nat) (attrs : List (List Nat × List Nat))
    (htag : tag_ok tag) (hp : AttrText p attrs false) (hstop : starts_with_stop p)
    (hlen : attrs.length ≤ 50) :
    dc_saxparser_parse (60 :: (tag ++ p)) =
      .done [Event.starttag (dc_strlower_in_place tag) attrs] ∧
    (∀ (fuel : Nat) (rest : List Nat), (∀ x ∈ p, x ≠ 13) → (∀ x ∈ rest, x ≠ 0) →
      parse_loop (fuel + 1) [] (60 :: (tag ++ (p ++ rest))) =
        (parse_loop fuel [] rest).map fun ev =>
          Event.starttag (dc_strlower_in_place tag) attrs :: ev) ∧
    (∀ v t rest : List Nat, (∀ x ∈ v, x ≠ 0) → (∀ x ∈ t, x ≠ 0 ∧ x ≠ 13) →
      xml_decode (v ++ 0 :: (t ++ 0 :: rest)) 32 =
        (decode_value v).bind fun val => .done (val, t ++ 0 :: rest)) ∧
    (∀ (fuel q : Nat) (name v rest : List Nat) (acc : List (List Nat × List Nat)),
      name_ok name → (q = 34 ∨ q = 39) → (∀ x ∈ v, x ≠ q) →
      attr_loop (fuel + 1) (name ++ 61 :: q :: (v ++ q :: rest)) acc =
        (xml_decode (v ++ 0 :: (rest ++ [0])) 32).bind fun r =>
          attr_loop fuel ((cstr r.2).dropWhile isspace)
            (if 2 * acc.length < MAX_ATTR then acc ++ [(dc_strlower_in_place name, r.1)]
             else acc)) ∧
    (∀ (fuel : Nat) (name v rest : List Nat) (acc : List (List Nat × List Nat)),
      name_ok name → (∀ x ∈ v, tag_name_stop x = false) →
      (∃ c t, v = c :: t ∧ c ≠ 34 ∧ c ≠ 39 ∧ c ≠ 61) →
      (∀ c t, rest = c :: t → tag_name_stop c = true) →
      attr_loop (fuel + 1) (name ++ 61 :: (v ++ rest)) acc =
        (xml_decode (v ++ [0]) 32).bind fun r =>
          attr_loop fuel (rest.dropWhile isspace)
            (if 2 * acc.length < MAX_ATTR then acc ++ [(dc_strlower_in_place name, r.1)]
             else acc)) ∧
    dc_saxparser_parse (ascii "<a b=\"x &lt; y\" c='it\"s' d=e&amp;f>") =
      .done [Event.starttag (ascii "a")
        [(ascii "b", ascii "x < y"), (ascii "c", ascii "it\"s"), (ascii "d", ascii "e&f")]] := by
  refine ⟨?_, ?_, ?_, ?_, ?_, by decide⟩
  · have h := parse_start_tag tag p attrs false htag hp hstop
    rw [h, List.take_of_length_le hlen]
    simp
  · intro fuel rest hcr hrest
    have h := parse_loop_start_tag fuel tag p rest attrs false htag hp hstop (Or.inr hcr) hrest
    rw [h, List.take_of_length_le hlen]
    simp
  · intro v t rest hv ht
    rw [xml_decode_benign 32 v t rest hv ht]
    unfold decode_value
    rw [Outcome.bind_map]
  · intro fuel q name v rest acc hname hq hv
    rw [attr_loop_name fuel name _ acc hname (by intro c t h; simp at h; rw [← h.1]; decide),
      attr_value_quoted q v rest hq hv]
    cases xml_decode (v ++ 0 :: (rest ++ [0])) 32 <;> rfl
  · intro fuel name v rest acc hname hv hhead hrest
    rw [attr_loop_name fuel name _ acc hname (by intro c t h; simp at h; rw [← h.1]; decide),
      attr_value_no_quote v rest hv hhead hrest]
    cases xml_decode (v ++ [0]) 32 <;> rfl

/-- The tag `<a b="x&lt;y" c=z>` as an instance of `attribute_values`. -/
theorem attribute_values_witness :
    dc_saxparser_parse (60 :: (ascii "a" ++ ascii " b=\"x&lt;y\" c=z>")) =
      .done [Event.starttag (dc_strlower_in_place (ascii "a"))
        [(dc_strlower_in_place (ascii "b"), ascii "x<y"),
         (dc_strlower_in_place (ascii "c"), ascii "z")]] :=
  (attribute_values (ascii "a") (ascii " b=\"x&lt;y\" c=z>")
    [(dc_strlower_in_place (ascii "b"), ascii "x<y"),
     (dc_strlower_in_place (ascii "c"), ascii "z")]
    ⟨⟨97, [], by decide, by decide, by decide⟩, by decide⟩
    (AttrText.quoted [32] (ascii "b") 34 (ascii "x&lt;y") (ascii "x<y") (ascii " c=z>") _ false
      (by decide) ⟨by decide, by decide⟩ (Or.inl rfl) (by decide) (by decide)
      (AttrText.unquoted [32] (ascii "c") (ascii "z") (ascii "z") [62] [] false
        (by decide) ⟨by decide, by decide⟩ (by decide) ⟨122, [], by decide, by decide, by decide,
          by decide⟩ (by decide) (AttrText.close [] (by simp)) ⟨62, [], rfl, by decide⟩))
    ⟨32, ascii "b=\"x&lt;y\" c=z>", by decide, by decide⟩ (by decide)).1

/-- Self-closing tags: for a start tag with a name that is not empty, taken as the whole
document,
(1) when the attribute region is followed by `/`, the start tag is reported and the very
next event is the end tag with the same name in lower case; (2) when it is followed by `>`,
the start tag is the only event; (3) in front of any further text, when the tag holds no
carriage return, the main loop reports the same events and goes on behind the `>` of the
tag; (4) the forms `<name/>`, `<name />` and `<name a="b"/>`. -/
theorem self_closing_tag (tag p : List Nat) (attrs : List (List Nat × List Nat))
    (htag : tag_ok tag) (hstop : starts_with_stop p) :
    (AttrText p attrs true →
      dc_saxparser_parse (60 :: (tag ++ p)) =
        .done [Event.starttag (dc_strlower_in_place tag) (attrs.take 50),
          Event.endtag (dc_strlower_in_place tag)]) ∧
    (AttrText p attrs false →
      dc_saxparser_parse (60 :: (tag ++ p)) =
        .done [Event.starttag (dc_strlower_in_place tag) (attrs.take 50)]) ∧
    (∀ (sc : Bool) (fuel : Nat) (rest : List Nat), AttrText p attrs sc →
      (∀ x ∈ p, x ≠ 13) → (∀ x ∈ rest, x ≠ 0) →
      parse_loop (fuel + 1) [] (60 :: (tag ++ (p ++ rest))) =
        (parse_loop fuel [] rest).map fun ev =>
          (Event.starttag (dc_strlower_in_place tag) (attrs.take 50) ::
            (if sc then [Event.endtag (dc_strlower_in_place tag)] else [])) ++ ev) ∧
    dc_saxparser_parse (ascii "<BR/>") =
      .done [Event.starttag (ascii "br") [], Event.endtag (ascii "br")] ∧
    dc_saxparser_parse (ascii "<br />") =
      .done [Event.starttag (ascii "br") [], Event.endtag (ascii "br")] ∧
    dc_saxparser_parse (ascii "<a b=\"c\"/>") =
      .done [Event.starttag (ascii "a") [(ascii "b", ascii "c")], Event.endtag (ascii "a")] ∧
    dc_saxparser_parse (ascii "<a b=\"c\">") =
      .done [Event.starttag (ascii "a") [(ascii "b", ascii "c")]] := by
  refine ⟨?_, ?_, ?_, by decide, by decide, by decide, by decide⟩
  · intro hp
    simpa using parse_start_tag tag p attrs true htag hp hstop
  · intro hp
    simpa using parse_start_tag tag p attrs false htag hp hstop
  · intro sc fuel rest hp hcr hrest
    exact parse_loop_start_tag fuel tag p rest attrs sc htag hp hstop (Or.inr hcr) hrest

/-- The tags `<br />` and `<br>` as instances of `self_closing_tag`. -/
theorem self_closing_tag_witness :
    dc_saxparser_parse (60 :: (ascii "br" ++ [32, 47, 62])) =
      .done [Event.starttag (dc_strlower_in_place (ascii "br")) (([] : List _).take 50),
        Event.endtag (dc_strlower_in_place (ascii "br"))] ∧
    dc_saxparser_parse (60 :: (ascii "br" ++ [62])) =
      .done [Event.starttag (dc_strlower_in_place (ascii "br")) (([] : List _).take 50)] :=
  ⟨(self_closing_tag (ascii "br") [32, 47, 62] []
      ⟨⟨98, [114], by decide, by decide, by decide⟩, by decide⟩
      ⟨32, [47, 62], rfl, by decide⟩).1 (AttrText.selfclose [32] (by decide)),
    (self_closing_tag (ascii "br") [62] []
      ⟨⟨98, [114], by decide, by decide, by decide⟩, by decide⟩
      ⟨62, [], rfl, by decide⟩).2.1 (AttrText.close [] (by simp))⟩

theorem attr_array_cons (p : List Nat × Option (List Nat))
    (pairs : List (List Nat × Option (List Nat))) :
    attr_array (p :: pairs) = some p.1 :: p.2 :: attr_array pairs := by
  simp [attr_array]

theorem attr_array_length (pairs : List (List Nat × Option (List Nat))) :
    (attr_array pairs).length = 2 * pairs.length + 1 := by
  induction pairs with
  | nil => simp [attr_array]
  | cons p ps ih => rw [attr_array_cons]; simp [ih]; omega

/-- The scan started at a pair boundary behind any prefix `done` of the array. -/
theorem attr_find_loop_spec (key : List Nat) (front : List (Option (List Nat))) :
    ∀ (pairs : List (List Nat × Option (List Nat))) (skipped : List (Option (List Nat)))
      (fuel : Nat), pairs.length + 1 ≤ fuel → front = skipped ++ attr_array pairs →
      attr_find_loop front key fuel skipped.length = .done (first_value pairs key) := by
  intro pairs
  induction pairs with
  | nil =>
    intro skipped fuel hf hfront
    obtain ⟨f, rfl⟩ : ∃ f, fuel = f + 1 := ⟨fuel - 1, by simp at hf; omega⟩
    have h0 : front[skipped.length]? = some none := by
      rw [hfront, List.getElem?_append_right (le_refl _)]; simp [attr_array]
    simp only [attr_find_loop, h0, first_value, List.find?_nil]
  | cons p ps ih =>
    intro skipped fuel hf hfront
    obtain ⟨f, rfl⟩ : ∃ f, fuel = f + 1 := ⟨fuel - 1, by simp at hf; omega⟩
    rw [attr_array_cons] at hfront
    have h0 : front[skipped.length]? = some (some p.1) := by
      rw [hfront, List.getElem?_append_right (le_refl _)]; simp
    have h1 : front[skipped.length + 1]? = some p.2 := by
      rw [hfront, List.getElem?_append_right (by omega)]; simp
    by_cases hk : key = p.1
    · subst hk
      simp only [attr_find_loop, h0, h1, ne_eq, not_true_eq_false, if_false, first_value,
        List.find?_cons, beq_self_eq_true]
    · have hne : (p.1 == key) = false := by
        simp only [beq_eq_false_iff_ne, ne_eq]
        exact fun h => hk h.symm
      have hrec := ih (skipped ++ [some p.1, p.2]) f (by simp at hf ⊢; omega) (by simp [hfront])
      simp only [List.length_append, List.length_cons, List.length_nil] at hrec
      simp only [attr_find_loop, h0, ne_eq, hk, not_false_eq_true, if_true]
      rw [hrec]
      simp [first_value, List.find?_cons, hne]

theorem find_none_of_absent (pairs : List (List Nat × Option (List Nat))) (key : List Nat)
    (h : ∀ p ∈ pairs, p.1 ≠ key) : first_value pairs key = none := by
  have : pairs.find? (fun p => p.1 == key) = none := by
    rw [List.find?_eq_none]
    intro p hp
    simpa using h p hp
  simp [first_value, this]

theorem find_first_of_split (pre post : List (List Nat × Option (List Nat))) (key : List Nat)
    (v : Option (List Nat)) (h : ∀ p ∈ pre, p.1 ≠ key) :
    first_value (pre ++ (key, v) :: post) key = v := by
  induction pre with
  | nil => simp [first_value]
  | cons a l ih =>
    have ha : (a.1 == key) = false := by simpa using h a (by simp)
    have := ih (fun p hp => h p (by simp [hp]))
    simp only [first_value, List.cons_append, List.find?_cons, ha] at this ⊢
    exact this

/-- C13: for every list of key/value pairs (stored as a NULL-terminated array) and every
key, `dc_attr_find` returns the value of the first pair, in list order, whose key is
byte-equal to `key`: the value behind any pairs with other keys, whatever follows (so the
earliest of several pairs with the same key wins), and NULL when no key of the list equals
`key`; it returns NULL when `attr` or `key` is NULL. -/
theorem dc_attr_find_first (pairs : List (List Nat × Option (List Nat))) (key : List Nat) :
    dc_attr_find (some (attr_array pairs)) (some key) = .done (first_value pairs key) ∧
    (∀ pre post v, pairs = pre ++ (key, v) :: post → (∀ p ∈ pre, p.1 ≠ key) →
      dc_attr_find (some (attr_array pairs)) (some key) = .done v) ∧
    ((∀ p ∈ pairs, p.1 ≠ key) →
      dc_attr_find (some (attr_array pairs)) (some key) = .done none) ∧
    dc_attr_find none (some key) = .done none ∧
    dc_attr_find (some (attr_array pairs)) none = .done none ∧
    dc_attr_find none none = .done none := by
  have hmain : dc_attr_find (some (attr_array pairs)) (some key) =
      .done (first_value pairs key) := by
    have := attr_find_loop_spec key (attr_array pairs) pairs [] ((attr_array pairs).length + 1)
      (by rw [attr_array_length]; omega) (by simp)
    simpa [dc_attr_find] using this
  refine ⟨hmain, ?_, ?_, rfl, rfl, rfl⟩
  · intro pre post v hp hpre
    rw [hmain, hp, find_first_of_split pre post key v hpre]
  · intro h
    rw [hmain, find_none_of_absent pairs key h]

/-- C13 at a list with a duplicate key: of the two pairs with the key "b" the earlier one
is returned, and a key that is not in the list gives NULL. -/
theorem dc_attr_find_first_witness :
    dc_attr_find (some (attr_array [(ascii "a", some (ascii "1")), (ascii "b", some (ascii "2")),
      (ascii "b", some (ascii "3"))])) (some (ascii "b")) = .done (some (ascii "2")) ∧
    dc_attr_find (some (attr_array [(ascii "a", some (ascii "1")), (ascii "b", some (ascii "2")),
      (ascii "b", some (ascii "3"))])) (some (ascii "c")) = .done none :=
  ⟨(dc_attr_find_first [(ascii "a", some (ascii "1")), (ascii "b", some (ascii "2")),
      (ascii "b", some (ascii "3"))] (ascii "b")).2.1 [(ascii "a", some (ascii "1"))]
      [(ascii "b", some (ascii "3"))] (some (ascii "2")) (by decide) (by decide),
   (dc_attr_find_first [(ascii "a", some (ascii "1")), (ascii "b", some (ascii "2")),
      (ascii "b", some (ascii "3"))] (ascii "c")).2.2.1 (by decide)⟩

/-! ## Termination and shape of the first loop -/

theorem Outcome.map_ne_outOfFuel {α β : Type} (f : α → β) (x : Outcome α)
    (h : x ≠ .outOfFuel) : x.map f ≠ .outOfFuel := by
  cases x with
  | done a => simp
  | undefined => simp
  | outOfFuel => exact absurd rfl h

theorem Outcome.bind_ne_outOfFuel {α β : Type} (f : α → Outcome β) (x : Outcome α)
    (h : x ≠ .outOfFuel) (hf : ∀ a, x = .done a → f a ≠ .outOfFuel) :
    x.bind f ≠ .outOfFuel := by
  cases x with
  | done a => simpa using hf a rfl
  | undefined => simp
  | outOfFuel => exact absurd rfl h

theorem shift_down_length (m m2 : List Nat) (h : shift_down m = some m2) :
    m2.length = m.length + 1 := by
  induction m generalizing m2 with
  | nil => simp [shift_down] at h
  | cons c m ih =>
    rw [shift_down] at h
    split at h
    · simp only [Option.some.injEq] at h
      subst h
      simp
    · simp only [Option.map_eq_some'] at h
      obtain ⟨r, hr, rfl⟩ := h
      simp [ih r hr]

/-- The first loop ends within `2 * length + 2` steps, and any such number of steps gives
the same result. -/
theorem normalize_loop_fuel :
    ∀ n (b : Bool) (m : List Nat), 2 * m.length + (if b then 0 else 1) ≤ n →
      ∀ f1 f2, n < f1 → n < f2 →
        normalize_loop f1 b m = normalize_loop f2 b m ∧ normalize_loop f1 b m ≠ .outOfFuel := by
  intro n
  induction n with
  | zero =>
    intro b m hm f1 f2 h1 h2
    obtain ⟨g1, rfl⟩ : ∃ g, f1 = g + 1 := ⟨f1 - 1, by omega⟩
    obtain ⟨g2, rfl⟩ : ∃ g, f2 = g + 1 := ⟨f2 - 1, by omega⟩
    have : m = [] := by
      cases m with
      | nil => rfl
      | cons c t => simp at hm
    subst this
    simp [normalize_loop]
  | succ k ih =>
    intro b m hm f1 f2 h1 h2
    obtain ⟨g1, rfl⟩ : ∃ g, f1 = g + 1 := ⟨f1 - 1, by omega⟩
    obtain ⟨g2, rfl⟩ : ∃ g, f2 = g + 1 := ⟨f2 - 1, by omega⟩
    cases m with
    | nil => simp [normalize_loop]
    | cons c m =>
      cases b with
      | false =>
        simp only [normalize_loop]
        by_cases hc : c = 0
        · simp [hc]
        · simp only [hc, if_false]
          exact ih true (c :: m) (by simp at hm ⊢; omega) g1 g2 (by omega) (by omega)
      | true =>
        simp only [normalize_loop]
        by_cases hc : c = 13
        · simp only [hc, if_true]
          cases m with
          | nil => simp
          | cons d m1 =>
            simp only
            by_cases hd : d = 10
            · simp only [hd, if_true]
              cases hsd : shift_down m1 with
              | none => simp
              | some m2 =>
                simp only
                have hl := shift_down_length m1 m2 hsd
                obtain ⟨e, hne⟩ := ih true m2 (by simp at hm ⊢; omega) g1 g2 (by omega) (by omega)
                exact ⟨by rw [e], Outcome.map_ne_outOfFuel _ _ hne⟩
            · simp only [hd, if_false]
              obtain ⟨e, hne⟩ := ih true (d :: m1) (by simp at hm ⊢; omega) g1 g2
                (by omega) (by omega)
              exact ⟨by rw [e], Outcome.map_ne_outOfFuel _ _ hne⟩
        · simp only [hc, if_false]
          obtain ⟨e, hne⟩ := ih false m (by simp at hm ⊢; omega) g1 g2 (by omega) (by omega)
          exact ⟨by rw [e], Outcome.map_ne_outOfFuel _ _ hne⟩

theorem shift_down_shape (m m2 : List Nat) (h : shift_down m = some m2) :
    (m.getLast? = some 0 → m2.getLast? = some 0) ∧ ∀ x ∈ m2, x ∈ m ∨ x = 0 := by
  induction m generalizing m2 with
  | nil => simp [shift_down] at h
  | cons c m ih =>
    rw [shift_down] at h
    split at h
    · rename_i hc
      simp only [Option.some.injEq] at h
      subst h
      subst hc
      refine ⟨?_, ?_⟩
      · intro hl
        cases m with
        | nil => simp
        | cons a l =>
          simp only [List.getLast?_cons_cons] at hl ⊢
          exact hl
      · intro x hx
        simp only [List.mem_cons] at hx ⊢
        rcases hx with h | h | h
        · exact Or.inr h
        · exact Or.inr h
        · exact Or.inl (Or.inr h)
    · simp only [Option.map_eq_some'] at h
      obtain ⟨r, hr, rfl⟩ := h
      obtain ⟨i1, i2⟩ := ih r hr
      refine ⟨?_, ?_⟩
      · intro hl
        cases m with
        | nil => simp [shift_down] at hr
        | cons a l =>
          rw [List.getLast?_cons_cons] at hl
          have hr2 := i1 hl
          cases r with
          | nil => simp at hr2
          | cons b r' => rw [List.getLast?_cons_cons]; exact hr2
      · intro x hx
        simp only [List.mem_cons] at hx ⊢
        rcases hx with h | h
        · exact Or.inl (Or.inl h)
        · rcases i2 x h with h' | h'
          · exact Or.inl (Or.inr h')
          · exact Or.inr h'

theorem getLast?_cons_of_ne_nil (c : Nat) (m : List Nat) (h : m ≠ []) :
    (c :: m).getLast? = m.getLast? := by
  cases m with
  | nil => exact absurd rfl h
  | cons a l => rw [List.getLast?_cons_cons]

/-- What the first loop leaves: memory of the same size, that still ends with a NUL byte if
it did before, and whose bytes are bytes of the memory before or line feeds or NUL. -/
theorem normalize_loop_shape :
    ∀ (fuel : Nat) (b : Bool) (m m1 : List Nat), normalize_loop fuel b m = .done m1 →
      m1.length = m.length ∧ (m.getLast? = some 0 → m1.getLast? = some 0) ∧
        ∀ x ∈ m1, x ∈ m ∨ x = 10 ∨ x = 0 := by
  intro fuel
  induction fuel with
  | zero =>
    intro b m m1 h
    simp [normalize_loop] at h
  | succ f ih =>
    intro b m m1 h
    cases m with
    | nil => simp [normalize_loop] at h
    | cons c m =>
      cases b with
      | false =>
        simp only [normalize_loop] at h
        by_cases hc : c = 0
        · simp only [hc, if_true, Outcome.done.injEq] at h
          subst h
          subst hc
          exact ⟨rfl, fun h => h, fun x hx => Or.inl hx⟩
        · simp only [hc, if_false] at h
          exact ih true (c :: m) m1 h
      | true =>
        simp only [normalize_loop] at h
        by_cases hc : c = 13
        · simp only [hc, if_true] at h
          cases m with
          | nil => simp at h
          | cons d m1' =>
            simp only at h
            by_cases hd : d = 10
            · simp only [hd, if_true] at h
              cases hsd : shift_down m1' with
              | none => simp [hsd] at h
              | some m2 =>
                simp only [hsd] at h
                obtain ⟨r, hr, rfl⟩ := Outcome.map_eq_done h
                obtain ⟨i1, i2, i3⟩ := ih true m2 r hr
                have hl := shift_down_length m1' m2 hsd
                obtain ⟨s1, s2⟩ := shift_down_shape m1' m2 hsd
                have hm1 : m1' ≠ [] := by
                  intro h0; subst h0; simp [shift_down] at hsd
                have hrne : r ≠ [] := by
                  intro h0; subst h0; simp at i1; omega
                refine ⟨by simp [i1, hl], ?_, ?_⟩
                · intro hlast
                  rw [getLast?_cons_of_ne_nil _ _ (by simp),
                    getLast?_cons_of_ne_nil _ _ hm1] at hlast
                  rw [getLast?_cons_of_ne_nil _ _ hrne]
                  exact i2 (s1 hlast)
                · intro x hx
                  simp only [List.mem_cons] at hx ⊢
                  rcases hx with h | h
                  · exact Or.inr (Or.inl h)
                  · rcases i3 x h with h' | h' | h'
                    · rcases s2 x h' with h'' | h''
                      · exact Or.inl (Or.inr (Or.inr h''))
                      · exact Or.inr (Or.inr h'')
                    · exact Or.inr (Or.inl h')
                    · exact Or.inr (Or.inr h')
            · simp only [hd, if_false] at h
              obtain ⟨r, hr, rfl⟩ := Outcome.map_eq_done h
              obtain ⟨i1, i2, i3⟩ := ih true (d :: m1') r hr
              have hrne : r ≠ [] := by
                intro h0; subst h0; simp at i1
              refine ⟨by simp [i1], ?_, ?_⟩
              · intro hlast
                rw [getLast?_cons_of_ne_nil _ _ (by simp)] at hlast
                rw [getLast?_cons_of_ne_nil _ _ hrne]
                exact i2 hlast
              · intro x hx
                simp only [List.mem_cons] at hx
                rcases hx with h | h
                · exact Or.inr (Or.inl h)
                · rcases i3 x h with h' | h' | h'
                  · exact Or.inl (List.mem_cons_of_mem _ h')
                  · exact Or.inr (Or.inl h')
                  · exact Or.inr (Or.inr h')
        · simp only [hc, if_false] at h
          obtain ⟨r, hr, rfl⟩ := Outcome.map_eq_done h
          obtain ⟨i1, i2, i3⟩ := ih false m r hr
          refine ⟨by simp [i1], ?_, ?_⟩
          · intro hlast
            have hmne : m ≠ [] := by
              intro h0; subst h0
              cases f <;> simp [normalize_loop] at hr
            have hrne : r ≠ [] := by
              intro h0; subst h0
              simp at i1
              exact hmne (List.length_eq_zero.1 i1.symm)
            rw [getLast?_cons_of_ne_nil _ _ hmne] at hlast
            rw [getLast?_cons_of_ne_nil _ _ hrne]
            exact i2 hlast
          · intro x hx
            simp only [List.mem_cons] at hx
            rcases hx with h | h
            · exact Or.inl (by simp [h])
            · rcases i3 x h with h' | h' | h'
              · exact Or.inl (List.mem_cons_of_mem _ h')
              · exact Or.inr (Or.inl h')
              · exact Or.inr (Or.inr h')

/-- The first loop on a string, its terminator and arbitrary memory `rest` behind it: a
string on which the loop does not step over the terminator is normalized and `rest` stays
as it is; otherwise the string is normalized, the terminator stays, and the loop goes on
in `rest`. -/
theorem normalize_loop_any (s rest : List Nat) (hs : ∀ x ∈ s, x ≠ 0) (fuel : Nat)
    (hf : 2 * (s ++ 0 :: rest).length + 2 ≤ fuel) :
    ∃ k, (normalize_newlines s).length + k = s.length ∧
      normalize_loop fuel false (s ++ 0 :: rest) =
        if overruns s 0 false then
          (normalize_loop (2 * rest.length + 2) false rest).map
            (fun r => normalize_newlines s ++ 0 :: r)
        else .done (normalize_newlines s ++ 0 :: (List.replicate k 0 ++ rest)) := by
  have hR : ∀ f, 2 * rest.length + 2 ≤ f →
      normalize_loop f false rest = normalize_loop (2 * rest.length + 2) false rest := by
    intro f hf
    exact (normalize_loop_fuel (2 * rest.length + 1) false rest (by simp) f
      (2 * rest.length + 2) (by omega) (by omega)).1
  obtain ⟨k, hk, he⟩ := normalize_loop_gen rest _ (2 * rest.length + 2) hR s.length s
    (le_refl _) hs 0 false fuel
    (by simp only [List.length_append, List.length_cons] at hf; omega)
  refine ⟨k, hk, ?_⟩
  have e1 : s ++ (List.replicate (0 + 1) 0 ++ rest) = s ++ 0 :: rest := by simp
  have e2 : normalize_newlines s ++ (List.replicate (0 + 1 + k) 0 ++ rest) =
      normalize_newlines s ++ 0 :: (List.replicate k 0 ++ rest) := by
    rw [show 0 + 1 + k = k + 1 by omega, List.replicate_succ]
    simp
  rw [e1, e2] at he
  exact he

/-- Whenever the first loop comes to an end, the string it leaves is the normalized one. -/
theorem normalize_loop_cstr (s rest m1 : List Nat) (hs : ∀ x ∈ s, x ≠ 0) (fuel : Nat)
    (hf : 2 * (s ++ 0 :: rest).length + 2 ≤ fuel)
    (h : normalize_loop fuel false (s ++ 0 :: rest) = .done m1) :
    cstr m1 = normalize_newlines s := by
  obtain ⟨k, -, he⟩ := normalize_loop_any s rest hs fuel hf
  have hN := normalize_newlines_no_zero s s.length (le_refl _) hs
  rw [h] at he
  split at he
  · obtain ⟨r, -, hr⟩ := Outcome.map_eq_done he.symm
    rw [← hr]
    exact cstr_append_zero _ _ hN
  · simp only [Outcome.done.injEq] at he
    rw [he]
    exact cstr_append_zero _ _ hN

/-- The function `xml_decode` on a string and arbitrary memory behind it: whenever it
returns, the result is what the second loop makes of the normalized string. -/
theorem xml_decode_done (s rest : List Nat) (hs : ∀ x ∈ s, x ≠ 0) (type : Nat)
    (r : List Nat × List Nat) (h : xml_decode (s ++ 0 :: rest) type = .done r) :
    ∃ d, decode_loop ((normalize_newlines s).length + 1) type (normalize_newlines s) = .done d ∧
      r.1 = cstr d := by
  unfold xml_decode at h
  obtain ⟨m1, hm1, h1⟩ := Outcome.bind_eq_done h
  obtain ⟨d, hd, h2⟩ := Outcome.bind_eq_done h1
  have hc := normalize_loop_cstr s rest m1 hs _ (le_refl _) hm1
  rw [hc] at hd
  simp only [Outcome.done.injEq] at h2
  exact ⟨d, hd, by rw [← h2]⟩

/-- A string that ends with a carriage return, holds no pair "\r\n" and ends its
allocation: the first loop steps over the terminator and reads behind the allocation. -/
theorem normalize_loop_overrun (s : List Nat) (hs : ∀ x ∈ s, x ≠ 0)
    (h : overruns s 0 false = true) (type : Nat) :
    normalize_loop (2 * (s ++ [0]).length + 2) false (s ++ [0]) = .undefined ∧
      xml_decode (s ++ [0]) type = .undefined := by
  obtain ⟨k, -, he⟩ := normalize_loop_any s [] hs (2 * (s ++ [0]).length + 2) (le_refl _)
  rw [h] at he
  simp only [if_true, List.length_nil, Nat.mul_zero, Nat.zero_add] at he
  have h0 : normalize_loop 2 false [] = Outcome.undefined := by simp [normalize_loop]
  rw [h0] at he
  simp only [Outcome.map_undefined] at he
  refine ⟨he, ?_⟩
  unfold xml_decode
  rw [he]
  rfl

/-- C11: for every string `s` and whatever lies behind its terminator, the first pass of
`xml_decode` rewrites `s` to `normalize_newlines s` (every "\r\n" pair and every remaining
"\r" becomes one "\n", all other bytes keep order and value) and keeps it terminated:
either the pass ends there, leaving one more NUL per collapsed pair and the memory behind
as it was, or (a string that ends with "\r" and holds no pair) it goes on behind the
terminator. Whenever the pass ends the string in the buffer is the normalized one, and in
every mode the second pass runs on it; in CDATA mode it is the result.
"a\r\nb\rc\r\r\nd" becomes "a\nb\nc\n\nd" (of which the second pass, in attribute mode, makes
"a b c  d"). -/
theorem first_pass_normalizes (s rest : List Nat) (hs : ∀ x ∈ s, x ≠ 0) :
    (∃ k, (normalize_newlines s).length + k = s.length ∧
      normalize_loop (2 * (s ++ 0 :: rest).length + 2) false (s ++ 0 :: rest) =
        if overruns s 0 false then
          (normalize_loop (2 * rest.length + 2) false rest).map
            (fun r => normalize_newlines s ++ 0 :: r)
        else .done (normalize_newlines s ++ 0 :: (List.replicate k 0 ++ rest))) ∧
    (∀ m1, normalize_loop (2 * (s ++ 0 :: rest).length + 2) false (s ++ 0 :: rest) = .done m1 →
      cstr m1 = normalize_newlines s) ∧
    (∀ type r, xml_decode (s ++ 0 :: rest) type = .done r →
      ∃ d, decode_loop ((normalize_newlines s).length + 1) type (normalize_newlines s) =
        .done d ∧ r.1 = cstr d) ∧
    (∀ r, xml_decode (s ++ 0 :: rest) 99 = .done r → r.1 = normalize_newlines s) ∧
    normalize_newlines (ascii "a\r\nb\rc\r\r\nd") = ascii "a\nb\nc\n\nd" ∧
    (∀ type, type = 38 ∨ type = 99 →
      xml_decode (ascii "a\r\nb\rc\r\r\nd" ++ [0]) type = .done (ascii "a\nb\nc\n\nd", [])) ∧
    xml_decode (ascii "a\r\nb\rc\r\r\nd" ++ [0]) 32 = .done (ascii "a b c  d", []) := by
  refine ⟨normalize_loop_any s rest hs _ (le_refl _),
    fun m1 h => normalize_loop_cstr s rest m1 hs _ (le_refl _) h,
    fun type r h => xml_decode_done s rest hs type r h, ?_, by decide, ?_, by decide⟩
  · intro r h
    obtain ⟨d, hd, hr⟩ := xml_decode_done s rest hs 99 r h
    rw [decode_loop_cdata _ _ (le_refl _)] at hd
    simp only [Outcome.done.injEq] at hd
    rw [hr, ← hd]
    exact cstr_of_no_zero _ (normalize_newlines_no_zero s s.length (le_refl _) hs)
  · intro type ht
    rcases ht with h | h <;> subst h <;> decide

/-- C11 at the string "a\r\nb\rc\r\r\nd" with nothing behind its terminator: the first
pass ends and leaves "a\nb\nc\n\nd", the terminator, and two further NUL bytes. -/
theorem first_pass_normalizes_witness :
    (∀ x ∈ ascii "a\r\nb\rc\r\r\nd", x ≠ 0) ∧
    (∀ m1, normalize_loop (2 * (ascii "a\r\nb\rc\r\r\nd" ++ 0 :: []).length + 2) false
        (ascii "a\r\nb\rc\r\r\nd" ++ 0 :: []) = .done m1 →
      cstr m1 = normalize_newlines (ascii "a\r\nb\rc\r\r\nd")) ∧
    normalize_loop (2 * (ascii "a\r\nb\rc\r\r\nd" ++ 0 :: []).length + 2) false
        (ascii "a\r\nb\rc\r\r\nd" ++ 0 :: []) = .done (ascii "a\nb\nc\n\nd" ++ [0, 0, 0]) :=
  ⟨by decide, (first_pass_normalizes (ascii "a\r\nb\rc\r\r\nd") [] (by decide)).2.1, by decide⟩

/-- C18, the code at the failing inputs: on a string that ends with a carriage return, holds
no pair "\r\n" and ends its allocation (every such string, "a\r" among them), the first loop
steps over the terminating NUL and reads behind the allocation, so the call is undefined;
the document "hello\r" is such a call, made from the final flush of the text. With memory
behind the terminator the loop goes on in it: behind "a\r" it rewrites "b\rc" to "b\nc", and
in the document "a\r<b>\r\n" the text behind the tag is rewritten before it is scanned. -/
theorem first_loop_leaves_string :
    (∀ s : List Nat, (∀ x ∈ s, x ≠ 0) → overruns s 0 false = true → ∀ type : Nat,
      normalize_loop (2 * (s ++ [0]).length + 2) false (s ++ [0]) = .undefined ∧
        xml_decode (s ++ [0]) type = .undefined) ∧
    normalize_loop 8 false (ascii "a\r" ++ [0]) = .undefined ∧
    xml_decode (ascii "a\r" ++ [0]) 38 = .undefined ∧
    call_text_cb (ascii "hello\r") [] 38 = .undefined ∧
    dc_saxparser_parse (ascii "hello\r") = .undefined ∧
    normalize_loop 16 false (ascii "a\r" ++ 0 :: (ascii "b\rc" ++ [0])) =
      .done (ascii "a\n" ++ 0 :: (ascii "b\nc" ++ [0])) ∧
    dc_saxparser_parse (ascii "a\r<b>\r\n") =
      .done [Event.text (ascii "a\n") 2, Event.starttag (ascii "b") [],
        Event.text (ascii "\n") 1] := by
  refine ⟨fun s hs h type => normalize_loop_overrun s hs h type, by decide, by decide,
    by decide, by decide, by decide, by decide⟩

/-- C18 at the string "a\r": it ends with a carriage return and holds no pair, and the
call of `xml_decode` on it is undefined. -/
theorem first_loop_leaves_string_witness :
    overruns (ascii "a\r") 0 false = true ∧
    xml_decode (ascii "a\r" ++ [0]) 32 = .undefined :=
  ⟨by decide, (first_loop_leaves_string.1 (ascii "a\r") (by decide) (by decide) 32).2⟩

/-! ## The second loop: one step -/

set_option maxRecDepth 1000000 in
theorem s_ent_short : s_ent.all entity_short = true := by decide!

theorem strchr_some (s e : List Nat) (ch : Nat) (h : strchr s ch = some e) :
    ∃ pre t, s = pre ++ ch :: t ∧ e = ch :: t ∧ ∀ x ∈ pre, x ≠ ch := by
  induction s with
  | nil => simp [strchr] at h
  | cons c s ih =>
    rw [strchr] at h
    split at h
    · rename_i hc
      simp only [Option.some.injEq] at h
      subst hc
      exact ⟨[], s, by simp, h.symm, by simp⟩
    · rename_i hc
      obtain ⟨pre, t, h1, h2, h3⟩ := ih h
      refine ⟨c :: pre, t, by simp [h1], h2, ?_⟩
      intro x hx
      rcases List.mem_cons.1 hx with h' | h'
      · subst h'; exact hc
      · exact h3 x h'

/-- What a match of the entity search gives: the string behind the `&` starts with the
name, the first `;` of the string at the cursor is the one that ends the name, and the
replacement is no longer than the name. -/
theorem find_entity_some (t : List Nat) (ent : List Nat × List Nat)
    (h : find_entity s_ent t = some ent) :
    ∃ body t', ent.1 = body ++ [59] ∧ t = body ++ 59 :: t' ∧
      strchr (38 :: t) 59 = some (59 :: t') ∧ ent.2.length ≤ body.length + 1 ∧
      entity_short ent = true := by
  unfold find_entity at h
  have hmem := List.mem_of_find?_eq_some h
  have hp := List.find?_some h
  have hok := List.all_eq_true.1 s_ent_short ent hmem
  have hok' := hok
  simp only [entity_short, Bool.and_eq_true, beq_iff_eq, List.all_eq_true, bne_iff_ne,
    decide_eq_true_eq] at hok'
  obtain ⟨⟨⟨h1, h2⟩, h3⟩, -⟩ := hok'
  obtain ⟨t', ht'⟩ := List.isPrefixOf_iff_prefix.1 hp
  have hsplit : ent.1.dropLast ++ [59] = ent.1 := List.dropLast_append_getLast? 59 (by simp [h3])
  refine ⟨ent.1.dropLast, t', hsplit.symm, ?_, ?_, ?_, hok⟩
  · rw [← ht']
    conv_lhs => rw [← hsplit]
    simp
  · have e1 : 38 :: t = (38 :: ent.1.dropLast) ++ 59 :: t' := by
      rw [← ht']
      conv_lhs => rw [← hsplit]
      simp
    rw [e1]
    have := strchr_drop (38 :: ent.1.dropLast) t' (by
      intro x hx
      rcases List.mem_cons.1 hx with h' | h'
      · subst h'; decide
      · exact h2 x h') 0 (by simp)
    simpa using this
  · have : ent.1.length = ent.1.dropLast.length + 1 := by
      conv_lhs => rw [← hsplit]
      simp
    omega

/-- One step of the second loop at a byte `c`: the byte is kept (a plain byte, or a `&` that
starts nothing the loop decodes); or, in attribute mode, a white space byte becomes a
space; or the step is undefined; or a character reference is replaced by its bytes and the
scan goes on behind its `;`; or an entity is replaced and the scan goes on at the
replacement. -/
theorem decode_loop_step (fuel type c : Nat) (t : List Nat) :
    (decode_loop (fuel + 1) type (c :: t) = (decode_loop fuel type t).map (fun r => c :: r) ∧
      (type = 32 → isspace c = false)) ∨
    (type = 32 ∧ isspace c = true ∧
      decode_loop (fuel + 1) type (c :: t) = (decode_loop fuel type t).map (fun r => 32 :: r)) ∨
    decode_loop (fuel + 1) type (c :: t) = .undefined ∨
    (∃ ce w e, c = 38 ∧ t.head? = some 35 ∧ type ≠ 99 ∧
      ce = (if ((c :: t).drop 2).head? == some 120 then strtol ((c :: t).drop 3) 16
            else strtol ((c :: t).drop 2) 10) ∧
      ce.1 ≠ 0 ∧ ce.2.head? = some 59 ∧ char_ref_bytes ce.1 = .done w ∧
      strchr ((c :: t).drop w.length) 59 = some e ∧
      decode_loop (fuel + 1) type (c :: t) = (decode_loop fuel type e.tail).map (fun r => w ++ r)) ∨
    (∃ ent e, c = 38 ∧ (type = 38 ∨ type = 32) ∧ find_entity s_ent t = some ent ∧
      strchr (c :: t) 59 = some e ∧
      decode_loop (fuel + 1) type (c :: t) = decode_loop fuel type (ent.2 ++ e.tail)) := by
  rw [decode_loop]
  by_cases h1 : (c != 38 && !isspace c) = true
  · left
    simp only [h1, if_true, true_and]
    intro _
    simp only [Bool.and_eq_true, Bool.not_eq_true'] at h1
    exact h1.2
  · simp only [h1, Bool.false_eq_true, if_false]
    by_cases h2 : (type != 99 && (c :: t).take 2 == [38, 35]) = true
    · simp only [h2, if_true]
      have h2' := h2
      simp only [Bool.and_eq_true, bne_iff_ne, ne_eq, beq_iff_eq] at h2'
      obtain ⟨ht, htk⟩ := h2'
      have hc : c = 38 := by
        cases t with
        | nil => simp at htk
        | cons a l => simp at htk; exact htk.1
      have hh : t.head? = some 35 := by
        cases t with
        | nil => simp at htk
        | cons a l => simp at htk; simp [htk.2]
      generalize hce : (if ((c :: t).drop 2).head? == some 120 then strtol ((c :: t).drop 3) 16
            else strtol ((c :: t).drop 2) 10) = ce
      by_cases h3 : (ce.1 == 0 || ce.2.head? != some 59) = true
      · left
        simp only [h3, if_true, true_and]
        intro _
        subst hc
        decide
      · simp only [h3, Bool.false_eq_true, if_false]
        simp only [Bool.or_eq_true, beq_iff_eq, bne_iff_ne, ne_eq, not_or, not_not] at h3
        cases hw : char_ref_bytes ce.1 with
        | undefined => right; right; left; simp
        | outOfFuel =>
          exfalso
          unfold char_ref_bytes at hw
          split at hw
          · simp at hw
          · simp only at hw
            split at hw <;> simp at hw
        | done w =>
          simp only [Outcome.bind_done]
          cases he : strchr ((c :: t).drop w.length) 59 with
          | none => right; right; left; rfl
          | some e =>
            right; right; right; left
            exact ⟨ce, w, e, hc, hh, ht, rfl, h3.1, h3.2, hw, he, rfl⟩
    · simp only [h2, Bool.false_eq_true, if_false]
      by_cases h4 : (c == 38 && (type == 38 || type == 32)) = true
      · simp only [h4, if_true]
        have h4' := h4
        simp only [Bool.and_eq_true, Bool.or_eq_true, beq_iff_eq] at h4'
        cases hf : find_entity s_ent t with
        | none =>
          left
          simp only [true_and]
          intro _
          rw [h4'.1]
          decide
        | some ent =>
          simp only
          cases he : strchr (c :: t) 59 with
          | none => right; right; left; rfl
          | some e =>
            right; right; right; right
            exact ⟨ent, e, h4'.1, h4'.2, rfl, rfl, rfl⟩
      · simp only [h4, Bool.false_eq_true, if_false]
        by_cases h5 : (type == 32 && isspace c) = true
        · right; left
          have h5' := h5
          simp only [Bool.and_eq_true, beq_iff_eq] at h5'
          refine ⟨h5'.1, h5'.2, ?_⟩
          simp only [h5, if_true]
        · left
          simp only [h5, Bool.false_eq_true, if_false, true_and]
          intro ht
          subst ht
          simpa using h5

/-! ## The second loop: termination and length -/

theorem strchr_length (s e : List Nat) (ch : Nat) (h : strchr s ch = some e) :
    e.tail.length + 1 ≤ s.length ∧ ∀ x ∈ e.tail, x ∈ s := by
  obtain ⟨pre, t, h1, h2, -⟩ := strchr_some s e ch h
  subst h1 h2
  refine ⟨by simp, ?_⟩
  intro x hx
  simp only [List.tail_cons] at hx
  simp [hx]

/-- Where an entity is found, the replacement together with the text behind the `;` is
shorter than the string at the cursor, and the test for enlarging the buffer fails. -/
theorem entity_step (t : List Nat) (ent : List Nat × List Nat) (e : List Nat)
    (h : find_entity s_ent t = some ent) (he : strchr (38 :: t) 59 = some e) :
    (ent.2 ++ e.tail).length ≤ t.length ∧ enlarge_test ent.2 (38 :: t) e = false ∧
      (∀ x ∈ ent.2 ++ e.tail, x ∈ ent.2 ∨ x ∈ t) ∧ entity_short ent = true := by
  obtain ⟨body, t', h1, h2, h3, h4, h5⟩ := find_entity_some t ent h
  rw [h3] at he
  simp only [Option.some.injEq] at he
  subst he
  subst h2
  refine ⟨by simp; omega, ?_, ?_, h5⟩
  · simp only [enlarge_test, decide_eq_false_iff_not, not_lt, List.length_cons,
      List.length_append]
    push_cast
    omega
  · intro x hx
    simp only [List.tail_cons, List.mem_append] at hx
    rcases hx with h | h
    · exact Or.inl h
    · exact Or.inr (by simp [h])

/-- The second loop ends within `length + 1` steps. -/
theorem decode_loop_total :
    ∀ (fuel type : Nat) (s : List Nat), s.length < fuel →
      decode_loop fuel type s ≠ .outOfFuel := by
  intro fuel
  induction fuel with
  | zero => intro type s h; omega
  | succ f ih =>
    intro type s hs
    cases s with
    | nil => simp [decode_loop]
    | cons c t =>
      simp only [List.length_cons] at hs
      rcases decode_loop_step f type c t with ⟨h, -⟩ | ⟨-, -, h⟩ | h |
        ⟨ce, w, e, -, -, -, -, -, -, -, he, h⟩ | ⟨ent, e, hc, -, hf, he, h⟩
      · rw [h]; exact Outcome.map_ne_outOfFuel _ _ (ih type t (by omega))
      · rw [h]; exact Outcome.map_ne_outOfFuel _ _ (ih type t (by omega))
      · rw [h]; simp
      · rw [h]
        have hl := (strchr_length _ _ _ he).1
        have hd : ((c :: t).drop w.length).length ≤ t.length + 1 := by simp
        exact Outcome.map_ne_outOfFuel _ _ (ih type e.tail (by omega))
      · rw [h]
        subst hc
        have hl := (entity_step t ent e hf he).1
        exact ih type _ (by omega)

/-- The second loop never makes the string longer. -/
theorem decode_loop_length :
    ∀ (fuel type : Nat) (s r : List Nat), decode_loop fuel type s = .done r →
      r.length ≤ s.length := by
  intro fuel
  induction fuel with
  | zero => intro type s r h; simp [decode_loop] at h
  | succ f ih =>
    intro type s r hr
    cases s with
    | nil =>
      simp only [decode_loop, Outcome.done.injEq] at hr
      subst hr
      simp
    | cons c t =>
      rcases decode_loop_step f type c t with ⟨h, -⟩ | ⟨-, -, h⟩ | h |
        ⟨ce, w, e, -, -, -, -, -, -, -, he, h⟩ | ⟨ent, e, hc, -, hf, he, h⟩
      · rw [h] at hr
        obtain ⟨r', hr', rfl⟩ := Outcome.map_eq_done hr
        have := ih type t r' hr'
        simp; omega
      · rw [h] at hr
        obtain ⟨r', hr', rfl⟩ := Outcome.map_eq_done hr
        have := ih type t r' hr'
        simp; omega
      · rw [h] at hr; simp at hr
      · rw [h] at hr
        obtain ⟨r', hr', rfl⟩ := Outcome.map_eq_done hr
        have := ih type e.tail r' hr'
        have hl := (strchr_length _ _ _ he).1
        have hd : ((c :: t).drop w.length).length = t.length + 1 - w.length := by simp
        simp only [List.length_append, List.length_cons]
        omega
      · rw [h] at hr
        subst hc
        have := ih type _ r hr
        have hl := (entity_step t ent e hf he).1
        simp only [List.length_cons]
        omega

theorem cstr_length_le (m : List Nat) : (cstr m).length ≤ m.length := by
  unfold cstr
  exact (List.takeWhile_sublist _).length_le

/-- The function `xml_decode` ends, and the string it returns is no longer than the one it
was given. -/
theorem xml_decode_length (s rest : List Nat) (hs : ∀ x ∈ s, x ≠ 0) (type : Nat) :
    xml_decode (s ++ 0 :: rest) type ≠ .outOfFuel ∧
      ∀ r, xml_decode (s ++ 0 :: rest) type = .done r → r.1.length ≤ s.length := by
  refine ⟨?_, ?_⟩
  · unfold xml_decode
    refine Outcome.bind_ne_outOfFuel _ _ ?_ ?_
    · exact (normalize_loop_fuel (2 * (s ++ 0 :: rest).length + 1) false _ (by simp) _
        (2 * (s ++ 0 :: rest).length + 2) (by omega) (by omega)).2
    · intro m1 _
      refine Outcome.bind_ne_outOfFuel _ _ (decode_loop_total _ _ _ (by omega)) ?_
      intro r _
      simp
  · intro r h
    obtain ⟨d, hd, hr⟩ := xml_decode_done s rest hs type r h
    have h1 := decode_loop_length _ _ _ _ hd
    have h2 := normalize_newlines_length_le s s.length (le_refl _)
    have h3 := cstr_length_le d
    rw [hr]
    omega

/-- The first part of the last lemma for any memory. -/
theorem xml_decode_total (m : List Nat) (type : Nat) : xml_decode m type ≠ .outOfFuel := by
  unfold xml_decode
  refine Outcome.bind_ne_outOfFuel _ _ ?_ ?_
  · exact (normalize_loop_fuel (2 * m.length + 1) false _ (by simp) _
      (2 * m.length + 2) (by omega) (by omega)).2
  · intro m1 _
    refine Outcome.bind_ne_outOfFuel _ _ (decode_loop_total _ _ _ (by omega)) ?_
    intro r _
    simp

/-! ## Character references never grow -/

theorem count_bits_le : ∀ (fuel k d : Nat), d < 2 ^ k → count_bits fuel d ≤ k := by
  intro fuel
  induction fuel with
  | zero => intro k d _; simp [count_bits]
  | succ f ih =>
    intro k d hd
    rw [count_bits]
    split
    · omega
    · rename_i h0
      cases k with
      | zero => simp at hd; omega
      | succ k =>
        have := ih k (d / 2) (by rw [pow_succ] at hd; omega)
        omega

theorem payload_bytes_length (c : Nat) : ∀ b, (payload_bytes c b).length = b := by
  intro b
  induction b with
  | zero => simp [payload_bytes]
  | succ b ih => simp [payload_bytes, ih]

/-- A value below `16 ^ n` is written as at most `n + 1` bytes. -/
theorem char_ref_bytes_length (c : Int) (w : List Nat) (n : Nat) (hc : c < 16 ^ n)
    (h : char_ref_bytes c = .done w) : w.length ≤ n + 1 := by
  unfold char_ref_bytes at h
  split at h
  · simp only [Outcome.done.injEq] at h
    subst h
    simp
  · rename_i h80
    simp only at h
    split at h
    · simp at h
    · simp only [Outcome.done.injEq] at h
      subst h
      simp only [List.length_cons, payload_bytes_length]
      have hn : c.toNat < 2 ^ (4 * n) := by
        have h16 : (16 : Int) ^ n = ((2 ^ (4 * n) : Nat) : Int) := by
          rw [pow_mul]; norm_num
        rw [h16] at hc
        omega
      have := count_bits_le 64 (4 * n) c.toNat hn
      omega

theorem strtol_digits_bound (base : Nat) (hb : base ≤ 16) :
    ∀ (s : List Nat) (acc : Nat) (any : Bool),
      ∃ n, s.length = n + (strtol_digits base s acc any).2.2.length ∧
        (strtol_digits base s acc any).1 < (acc + 1) * 16 ^ n := by
  intro s
  induction s with
  | nil => intro acc any; exact ⟨0, by simp [strtol_digits], by simp [strtol_digits]⟩
  | cons c t ih =>
    intro acc any
    rw [strtol_digits]
    cases hd : digit_val c with
    | none => exact ⟨0, by simp, by simp⟩
    | some d =>
      simp only
      by_cases hdb : d < base
      · simp only [hdb, if_true]
        obtain ⟨n, h1, h2⟩ := ih (acc * base + d) true
        refine ⟨n + 1, by simp only [List.length_cons]; omega, ?_⟩
        have h3 : acc * base + d + 1 ≤ (acc + 1) * 16 := by nlinarith
        calc (strtol_digits base t (acc * base + d) true).1
            < (acc * base + d + 1) * 16 ^ n := h2
          _ ≤ ((acc + 1) * 16) * 16 ^ n := Nat.mul_le_mul_right _ h3
          _ = (acc + 1) * 16 ^ (n + 1) := by rw [pow_succ]; ring
      · simp only [hdb, if_false]
        exact ⟨0, by simp, by simp⟩

/-- The function `strtol` as its digit loop, run on a string that is no longer than the
argument. -/
theorem strtol_eq (nptr : List Nat) (base : Nat) :
    ∃ (s3 : List Nat) (neg : Bool), s3.length ≤ nptr.length ∧
      strtol nptr base =
        match strtol_digits base s3 0 false with
        | (_, false, _) => (0, nptr)
        | (v, true, e) =>
          if neg then (max (-(v : Int)) LONG_MIN, e) else (min (v : Int) LONG_MAX, e) := by
  refine ⟨_, _, ?_, rfl⟩
  have h1 : (nptr.dropWhile isspace).length ≤ nptr.length :=
    (List.dropWhile_sublist _).length_le
  have h2 : ∀ l : List Nat, l.tail.length ≤ l.length := by intro l; simp
  have h2' : (nptr.dropWhile isspace).tail.length ≤ nptr.length :=
    le_trans (h2 (nptr.dropWhile isspace)) h1
  split
  · rename_i x h t heq
    split
    · split at heq
      · have := congrArg List.length heq
        simp only [List.length_cons] at this ⊢
        omega
      · have := congrArg List.length heq
        simp only [List.length_cons] at this ⊢
        omega
    · split
      · exact h2'
      · exact h1
  · split
    · exact h2'
    · exact h1

/-- The number `strtol` returns is below `16 ^ n`, where `n` bytes or more lie between
the start of the string and the end pointer. -/
theorem strtol_bound (nptr : List Nat) (base : Nat) (hb : base ≤ 16) :
    ∃ n, n + (strtol nptr base).2.length ≤ nptr.length ∧ (strtol nptr base).1 < 16 ^ n := by
  obtain ⟨s3, neg, h3, heq⟩ := strtol_eq nptr base
  rw [heq]
  obtain ⟨n, hn1, hn2⟩ := strtol_digits_bound base hb s3 0 false
  rcases hsd : strtol_digits base s3 0 false with ⟨v, any, e⟩
  rw [hsd] at hn1 hn2
  simp only at hn1 hn2
  cases any with
  | false => exact ⟨0, by simp, by simp⟩
  | true =>
    simp only
    refine ⟨n, ?_, ?_⟩
    · split <;> simp only <;> omega
    · have hv : (v : Int) < 16 ^ n := by
        have : ((v : Nat) : Int) < ((16 ^ n : Nat) : Int) := by
          exact_mod_cast (by simpa using hn2)
        simpa using this
      have hpos : (0 : Int) < 16 ^ n := by positivity
      split
      · simp only
        have : max (-(v : Int)) LONG_MIN ≤ 0 := by
          apply max_le
          · omega
          · unfold LONG_MIN; omega
        omega
      · simp only
        have : min (v : Int) LONG_MAX ≤ v := min_le_left _ _
        omega

/-- The bytes written for a character reference end before the `;` of the reference. -/
theorem char_ref_fits (t : List Nat) (ce : Int × List Nat) (w : List Nat)
    (hh : t.head? = some 35)
    (hce : ce = (if ((38 :: t).drop 2).head? == some 120 then strtol ((38 :: t).drop 3) 16
            else strtol ((38 :: t).drop 2) 10))
    (hw : char_ref_bytes ce.1 = .done w) :
    w.length + ce.2.length + 1 ≤ (38 :: t).length := by
  obtain ⟨a, u, rfl⟩ : ∃ a u, t = a :: u := by
    cases t with
    | nil => simp at hh
    | cons a u => exact ⟨a, u, rfl⟩
  simp only [List.drop_succ_cons, List.drop_zero] at hce
  by_cases hx : (u.head? == some 120) = true
  · simp only [hx, if_true] at hce
    obtain ⟨n, h1, h2⟩ := strtol_bound (u.drop 1) 16 (by omega)
    rw [← hce] at h1 h2
    have := char_ref_bytes_length ce.1 w n h2 hw
    have hu : (u.drop 1).length + 1 ≤ u.length := by
      cases u with
      | nil => simp at hx
      | cons b v => simp
    simp only [List.length_cons]
    omega
  · simp only [hx, Bool.false_eq_true, if_false] at hce
    obtain ⟨n, h1, h2⟩ := strtol_bound u 10 (by omega)
    rw [← hce] at h1 h2
    have := char_ref_bytes_length ce.1 w n h2 hw
    simp only [List.length_cons]
    omega

/-- C19: for every string `s`, whatever lies behind it, and every decode mode: every
replacement of the table `s_ent` has at most as many bytes as the text "&name" it replaces;
wherever the entity search finds a pair, the test that sends the loop into the branch that
enlarges the buffer (malloc/realloc) fails, so the string returned is the buffer itself;
the bytes written for a numeric reference end before the `;` of the reference; and
`xml_decode` ends and the string it returns is no longer than `s`. -/
theorem decode_never_grows (s rest : List Nat) (hs : ∀ x ∈ s, x ≠ 0) (type : Nat) :
    (∀ e ∈ s_ent, e.2.length ≤ (38 :: e.1).length) ∧
    (∀ t ent e, find_entity s_ent t = some ent → strchr (38 :: t) 59 = some e →
      enlarge_test ent.2 (38 :: t) e = false) ∧
    (∀ t ce w, t.head? = some 35 →
      ce = (if ((38 :: t).drop 2).head? == some 120 then strtol ((38 :: t).drop 3) 16
            else strtol ((38 :: t).drop 2) 10) →
      char_ref_bytes ce.1 = .done w → w.length + ce.2.length + 1 ≤ (38 :: t).length) ∧
    xml_decode (s ++ 0 :: rest) type ≠ .outOfFuel ∧
    (∀ r, xml_decode (s ++ 0 :: rest) type = .done r → r.1.length ≤ s.length) := by
  refine ⟨?_, fun t ent e h he => (entity_step t ent e h he).2.1,
    fun t ce w hh hce hw => char_ref_fits t ce w hh hce hw,
    (xml_decode_length s rest hs type).1, (xml_decode_length s rest hs type).2⟩
  intro e he
  have hok := List.all_eq_true.1 s_ent_short e he
  simp only [entity_short, Bool.and_eq_true, decide_eq_true_eq] at hok
  simp only [List.length_cons]
  omega

/-- C19 at the string "&lt;b&gt;&#x20AC;" in general mode: it is returned as "<b>" and the
three bytes of the euro sign, 6 bytes for 17. -/
theorem decode_never_grows_witness :
    (∀ x ∈ ascii "&lt;b&gt;&#x20AC;", x ≠ 0) ∧
    xml_decode (ascii "&lt;b&gt;&#x20AC;" ++ 0 :: []) 38 =
      .done (ascii "<b>" ++ [226, 130, 172], []) ∧
    (ascii "<b>" ++ [226, 130, 172]).length ≤ (ascii "&lt;b&gt;&#x20AC;").length :=
  ⟨by decide, by decide,
    (decode_never_grows (ascii "&lt;b&gt;&#x20AC;") [] (by decide) 38).2.2.2.2
      (ascii "<b>" ++ [226, 130, 172], []) (by decide)⟩

/-! ## Attribute normalization and CDATA -/

theorem mem_cstr (m : List Nat) : ∀ x ∈ cstr m, x ∈ m := by
  intro x hx
  unfold cstr at hx
  exact (List.takeWhile_sublist _).subset hx

/-- In attribute mode the second loop leaves no white space but the space, unless the
string holds a `#`. -/
theorem decode_loop_attr_space :
    ∀ (fuel : Nat) (s r : List Nat), (∀ x ∈ s, x ≠ 35) → decode_loop fuel 32 s = .done r →
      ∀ x ∈ r, isspace x = true → x = 32 := by
  intro fuel
  induction fuel with
  | zero => intro s r _ h; simp [decode_loop] at h
  | succ f ih =>
    intro s r hs hr
    cases s with
    | nil =>
      simp only [decode_loop, Outcome.done.injEq] at hr
      subst hr
      simp
    | cons c t =>
      have ht : ∀ x ∈ t, x ≠ 35 := fun x hx => hs x (List.mem_cons_of_mem _ hx)
      rcases decode_loop_step f 32 c t with ⟨h, hc⟩ | ⟨-, -, h⟩ | h |
        ⟨ce, w, e, -, hh, -, -, -, -, -, -, -⟩ | ⟨ent, e, hc, -, hf, he, h⟩
      · rw [h] at hr
        obtain ⟨r', hr', rfl⟩ := Outcome.map_eq_done hr
        intro x hx hsp
        rcases List.mem_cons.1 hx with h1 | h1
        · subst h1
          rw [hc rfl] at hsp
          exact absurd hsp (by simp)
        · exact ih t r' ht hr' x h1 hsp
      · rw [h] at hr
        obtain ⟨r', hr', rfl⟩ := Outcome.map_eq_done hr
        intro x hx hsp
        rcases List.mem_cons.1 hx with h1 | h1
        · exact h1
        · exact ih t r' ht hr' x h1 hsp
      · rw [h] at hr; simp at hr
      · exfalso
        cases t with
        | nil => simp at hh
        | cons a u =>
          simp only [List.head?_cons, Option.some.injEq] at hh
          exact ht a (by simp) hh
      · rw [h] at hr
        subst hc
        obtain ⟨-, -, hmem, hok⟩ := entity_step t ent e hf he
        simp only [entity_short, Bool.and_eq_true, List.all_eq_true, bne_iff_ne] at hok
        refine ih _ r ?_ hr
        intro x hx
        rcases hmem x hx with h1 | h1
        · exact (hok.2 x h1).1
        · exact ht x h1

/-- The function `xml_decode` in CDATA mode returns the normalized string. -/
theorem xml_decode_cdata (s rest : List Nat) (hs : ∀ x ∈ s, x ≠ 0) (r : List Nat × List Nat)
    (h : xml_decode (s ++ 0 :: rest) 99 = .done r) : r.1 = normalize_newlines s := by
  obtain ⟨d, hd, hr⟩ := xml_decode_done s rest hs 99 r h
  rw [decode_loop_cdata _ _ (le_refl _)] at hd
  simp only [Outcome.done.injEq] at hd
  rw [hr, ← hd]
  exact cstr_of_no_zero _ (normalize_newlines_no_zero s s.length (le_refl _) hs)

/-- C15, the claim as stated fails: in attribute mode the reference "&#9;" is replaced by a
tab, and the scan goes on behind it, so the result holds a white space byte that is not
the space. -/
theorem xml_decode_attr_mode_keeps_tab_ref :
    xml_decode (ascii "&#9;" ++ [0]) 32 = .done ([9], []) ∧ isspace 9 = true ∧
      xml_decode (ascii "a&#10;b" ++ [0]) 32 = .done ([97, 10, 98], []) := by
  decide

/-- C15, as amended: for every string `s`, whatever lies behind it, in the result of
`xml_decode(s, ' ')` (1) there is no white space byte other than the space when `s` holds
no `#` (white space other than the space comes only from a numeric character reference);
(2) when `s` holds no `&`, the result is the normalized `s` with every tab, line feed,
vertical tab and form feed (a carriage return is a line feed by then) replaced, in its
place, by one space; and (3) `xml_decode(s, 'c')` returns the normalized `s`: CDATA mode
changes nothing but line endings. -/
theorem attr_mode_white_space (s rest : List Nat) (hs : ∀ x ∈ s, x ≠ 0)
    (r : List Nat × List Nat) :
    (xml_decode (s ++ 0 :: rest) 32 = .done r → (∀ x ∈ s, x ≠ 35) →
      ∀ x ∈ r.1, isspace x = true → x = 32) ∧
    (xml_decode (s ++ 0 :: rest) 32 = .done r → (∀ x ∈ s, x ≠ 38) →
      r.1 = (normalize_newlines s).map (fun c => if isspace c then 32 else c)) ∧
    (xml_decode (s ++ 0 :: rest) 99 = .done r → r.1 = normalize_newlines s) := by
  have hN0 := normalize_newlines_no_zero s s.length (le_refl _) hs
  refine ⟨?_, ?_, xml_decode_cdata s rest hs r⟩
  · intro h h35 x hx hsp
    obtain ⟨d, hd, hr⟩ := xml_decode_done s rest hs 32 r h
    refine decode_loop_attr_space _ _ d ?_ hd x (mem_cstr d x (by rw [← hr]; exact hx)) hsp
    intro y hy
    rcases mem_normalize_newlines s s.length (le_refl _) y hy with h1 | h1
    · exact h35 y h1
    · omega
  · intro h h38
    obtain ⟨d, hd, hr⟩ := xml_decode_done s rest hs 32 r h
    have hN38 : ∀ x ∈ normalize_newlines s, x ≠ 38 := by
      intro y hy
      rcases mem_normalize_newlines s s.length (le_refl _) y hy with h1 | h1
      · exact h38 y h1
      · omega
    rw [decode_loop_no_amp 32 _ hN38 _ (le_refl _)] at hd
    simp only [Outcome.done.injEq] at hd
    rw [hr, ← hd]
    have hmap : (normalize_newlines s).map (plain_byte 32) =
        (normalize_newlines s).map (fun c => if isspace c then 32 else c) := by
      apply List.map_congr_left
      intro a _
      simp [plain_byte]
    rw [hmap]
    apply cstr_of_no_zero
    intro x hx
    obtain ⟨y, hy, rfl⟩ := List.mem_map.1 hx
    have := hN0 y hy
    split <;> omega

/-- C15 as amended, at the string "a\tb\r\nc &lt;": in attribute mode the white space bytes
become spaces and the entity is decoded; in CDATA mode only the line ending changes. -/
theorem attr_mode_white_space_witness :
    (∀ x ∈ ascii "a\tb\r\nc &lt;", x ≠ 0) ∧
    xml_decode (ascii "a\tb\r\nc &lt;" ++ 0 :: []) 32 = .done (ascii "a b c <", []) ∧
    (∀ x ∈ ascii "a b c <", isspace x = true → x = 32) ∧
    xml_decode (ascii "a\tb\r\nc &lt;" ++ 0 :: []) 99 = .done (ascii "a\tb\nc &lt;", []) ∧
    ascii "a\tb\nc &lt;" = normalize_newlines (ascii "a\tb\r\nc &lt;") :=
  ⟨by decide, by decide,
    (attr_mode_white_space (ascii "a\tb\r\nc &lt;") [] (by decide) (ascii "a b c <", [])).1
      (by decide) (by decide),
    by decide,
    (attr_mode_white_space (ascii "a\tb\r\nc &lt;") [] (by decide)
      (ascii "a\tb\nc &lt;", [])).2.2 (by decide)⟩

/-! ## Malformed character references -/

/-- The prefix steps of `strtol` (white space, sign, `0x`) do nothing on a string that
starts with no white space and no sign and, for base 16, not with `0x` or `0X`. -/
theorem strtol_plain (base : Nat) (a : Nat) (t : List Nat)
    (ha : isspace a = false ∧ a ≠ 45 ∧ a ≠ 43)
    (ht : base = 16 → ∀ x u, a = 48 → t = x :: u → x ≠ 120 ∧ x ≠ 88) :
    strtol (a :: t) base =
      match strtol_digits base (a :: t) 0 false with
      | (_, false, _) => (0, a :: t)
      | (v, true, e) => (min (v : Int) LONG_MAX, e) := by
  obtain ⟨h1, h2, h3⟩ := ha
  have e0 : (a :: t).dropWhile isspace = a :: t := by simp [List.dropWhile_cons, h1]
  have e1 : ((a :: t).head? == some 45) = false := by simp [h2]
  have e2 : ((a :: t).head? == some 43) = false := by simp [h3]
  unfold strtol
  simp only [e0, e1, e2, Bool.or_self, Bool.false_eq_true, if_false]
  have hb : ∀ x, base = 16 → a = 48 → t.head? = some x → ¬ (x = 120 ∨ x = 88) := by
    intro x hb ha hx
    cases t with
    | nil => simp at hx
    | cons y u =>
      simp only [List.head?_cons, Option.some.injEq] at hx
      subst hx
      have := ht hb y u ha rfl
      omega
  congr 2
  split
  · rename_i x h t1 heq
    simp only [List.cons.injEq] at heq
    by_cases hb16 : base = 16
    · have := hb x hb16 heq.1 (by rw [heq.2]; rfl)
      have h120 : x ≠ 120 := fun h => this (Or.inl h)
      have h88 : x ≠ 88 := fun h => this (Or.inr h)
      simp [h120, h88]
    · simp [hb16]
  · rfl

theorem digit_val_dec (c : Nat) :
    (∃ d, digit_val c = some d ∧ d < 10) ↔ is_digit c = true := by
  unfold digit_val is_digit
  simp only [decide_eq_true_eq]
  constructor
  · rintro ⟨d, h, hd⟩
    split at h
    · assumption
    · split at h
      · simp only [Option.some.injEq] at h; omega
      · split at h
        · simp only [Option.some.injEq] at h; omega
        · simp at h
  · intro h
    exact ⟨c - 48, by simp [h], by omega⟩

theorem digit_val_hex (c : Nat) :
    (∃ d, digit_val c = some d ∧ d < 16) ↔ is_hex_digit c = true := by
  unfold digit_val is_hex_digit
  simp only [decide_eq_true_eq]
  constructor
  · rintro ⟨d, h, hd⟩
    split at h
    · left; assumption
    · split at h
      · simp only [Option.some.injEq] at h; right; left; omega
      · split at h
        · simp only [Option.some.injEq] at h; right; right; omega
        · simp at h
  · intro h
    rcases h with h | h | h
    · exact ⟨c - 48, by simp [h], by omega⟩
    · exact ⟨c - 87, by
        have h1 : ¬ (48 ≤ c ∧ c ≤ 57) := by omega
        have h2 : 97 ≤ c ∧ c ≤ 122 := by omega
        simp [h1, h2], by omega⟩
    · exact ⟨c - 55, by
        have h1 : ¬ (48 ≤ c ∧ c ≤ 57) := by omega
        have h2 : ¬ (97 ≤ c ∧ c ≤ 122) := by omega
        have h3 : 65 ≤ c ∧ c ≤ 90 := by omega
        simp [h1, h2, h3], by omega⟩

/-- The digit loop of `strtol` stops at the first byte that is no digit of the base, and
reports a digit exactly when the string starts with one. -/
theorem strtol_digits_end (base : Nat) (digit : Nat → Bool)
    (hd : ∀ c, (∃ d, digit_val c = some d ∧ d < base) ↔ digit c = true) :
    ∀ (s : List Nat) (acc : Nat) (any : Bool),
      (strtol_digits base s acc any).2.2 = s.dropWhile digit ∧
      (strtol_digits base s acc any).2.1 = (any || !(s.takeWhile digit).isEmpty) := by
  intro s
  induction s with
  | nil => intro acc any; simp [strtol_digits]
  | cons c t ih =>
    intro acc any
    rw [strtol_digits]
    by_cases hc : digit c = true
    · obtain ⟨d, h1, h2⟩ := (hd c).2 hc
      simp only [h1, h2, if_true, List.dropWhile_cons, List.takeWhile_cons, hc]
      obtain ⟨i1, i2⟩ := ih (acc * base + d) true
      exact ⟨i1, by simp [i2]⟩
    · have hno : ¬ ∃ d, digit_val c = some d ∧ d < base := fun h => hc ((hd c).1 h)
      simp only [List.dropWhile_cons, List.takeWhile_cons, hc, Bool.false_eq_true, if_false]
      cases hv : digit_val c with
      | none => simp
      | some d =>
        have : ¬ d < base := fun h => hno ⟨d, hv, h⟩
        simp [this]

/-- The call of `strtol` on a text that does not continue a well-formed reference gives
zero, or an end pointer that is not at a `;`. -/
theorem strtol_malformed (base : Nat) (digit : Nat → Bool)
    (hd : ∀ c, (∃ d, digit_val c = some d ∧ d < base) ↔ digit c = true)
    (hsp : ∀ c, digit c = true → isspace c = false ∧ c ≠ 45 ∧ c ≠ 43)
    (t : List Nat) (hx : base = 16 → ∀ x u, t = 48 :: x :: u → x ≠ 120 ∧ x ≠ 88)
    (h : malformed digit t = true) :
    ((strtol t base).1 == 0 || (strtol t base).2.head? != some 59) = true := by
  cases t with
  | nil => simp [strtol, strtol_digits]
  | cons a u =>
    obtain ⟨e1, e2⟩ := strtol_digits_end base digit hd (a :: u) 0 false
    by_cases ha : digit a = true
    · have hst := strtol_plain base a u (hsp a ha) (by
        intro hb x v h48 hu
        exact hx hb x v (by rw [h48, hu]))
      rcases hsd : strtol_digits base (a :: u) 0 false with ⟨v, any, e⟩
      rw [hsd] at e1 e2 hst
      simp only [List.takeWhile_cons, ha, if_true, List.isEmpty_cons, Bool.not_false,
        Bool.or_true] at e2
      simp only at e1
      subst e2
      simp only at hst
      rw [hst]
      simp only [malformed, List.takeWhile_cons, ha, if_true] at h
      rw [e1]
      simp only [h, Bool.or_true]
    · simp only [malformed, List.takeWhile_cons, ha, Bool.false_eq_true, if_false,
        Bool.and_eq_true, Bool.not_eq_true', bne_iff_ne, ne_eq] at h
      have hst := strtol_plain base a u ⟨h.1.1, h.2, h.1.2⟩ (by
        intro hb x v h48 hu
        exact hx hb x v (by rw [h48, hu]))
      rcases hsd : strtol_digits base (a :: u) 0 false with ⟨v, any, e⟩
      rw [hsd] at e1 e2 hst
      simp only [List.takeWhile_cons, ha, Bool.false_eq_true, if_false, List.isEmpty_nil,
        Bool.not_true, Bool.or_false] at e2
      subst e2
      simp only at hst
      rw [hst]
      simp

theorem Outcome.map_map {α β γ : Type} (x : Outcome α) (f : α → β) (g : β → γ) :
    (x.map f).map g = x.map (fun a => g (f a)) := by
  cases x <;> rfl

/-- The second loop at "&#" followed by a text that does not continue a well-formed
decimal reference: the two bytes stay and the scan goes on behind them. -/
theorem decode_loop_malformed_dec (type : Nat) (ht : type = 38 ∨ type = 32) (t : List Nat)
    (hx : t.head? ≠ some 120) (h : malformed is_digit t = true) (fuel : Nat) :
    decode_loop (fuel + 2) type (38 :: 35 :: t) =
      (decode_loop fuel type t).map (fun r => 38 :: 35 :: r) := by
  have h99 : (type != 99) = true := by rcases ht with h | h <;> subst h <;> decide
  have hst := strtol_malformed 10 is_digit digit_val_dec
    (by intro c hc; simp only [is_digit, decide_eq_true_eq] at hc
        refine ⟨?_, by omega, by omega⟩
        simp only [isspace, Bool.or_eq_false_iff, beq_eq_false_iff_ne, ne_eq,
          Bool.and_eq_false_imp, decide_eq_true_eq, decide_eq_false_iff_not, not_le]
        omega)
    t (by intro hb; omega) h
  have hx' : (t.head? == some 120) = false := by simpa using hx
  rw [decode_loop]
  simp only [List.drop_succ_cons, List.drop_zero, hx', Bool.false_eq_true, if_false, hst,
    if_true]
  have e1 : (38 != 38 && !isspace 38) = false := by decide
  have e2 : (h99' : (type != 99) = true) →
      (type != 99 && List.take 2 (38 :: 35 :: t) == [38, 35]) = true := by
    intro h99'; simp [h99']
  simp only [e1, Bool.false_eq_true, if_false, e2 h99, if_true]
  rw [decode_loop]
  have e3 : (35 != 38 && !isspace 35) = true := by decide
  simp only [e3, if_true, Outcome.map_map]

/-- The same for "&#x" and a text that does not continue a well-formed hexadecimal
reference. -/
theorem decode_loop_malformed_hex (type : Nat) (ht : type = 38 ∨ type = 32) (t : List Nat)
    (hx : ∀ x u, t = 48 :: x :: u → x ≠ 120 ∧ x ≠ 88) (h : malformed is_hex_digit t = true)
    (fuel : Nat) :
    decode_loop (fuel + 3) type (38 :: 35 :: 120 :: t) =
      (decode_loop fuel type t).map (fun r => 38 :: 35 :: 120 :: r) := by
  have h99 : (type != 99) = true := by rcases ht with h | h <;> subst h <;> decide
  have hst := strtol_malformed 16 is_hex_digit digit_val_hex
    (by intro c hc; simp only [is_hex_digit, decide_eq_true_eq] at hc
        refine ⟨?_, by omega, by omega⟩
        simp only [isspace, Bool.or_eq_false_iff, beq_eq_false_iff_ne, ne_eq,
          Bool.and_eq_false_imp, decide_eq_true_eq, decide_eq_false_iff_not, not_le]
        omega)
    t (fun _ => hx) h
  rw [decode_loop]
  have e0 : ((120 :: t).head? == some 120) = true := by simp
  simp only [List.drop_succ_cons, List.drop_zero, e0, if_true, hst]
  have e1 : (38 != 38 && !isspace 38) = false := by decide
  have e2 : (type != 99 && List.take 2 (38 :: 35 :: 120 :: t) == [38, 35]) = true := by
    simp [h99]
  simp only [e1, Bool.false_eq_true, if_false, e2, if_true]
  rw [decode_loop]
  have e3 : (35 != 38 && !isspace 35) = true := by decide
  simp only [e3, if_true, Outcome.map_map]
  rw [decode_loop]
  have e4 : (120 != 38 && !isspace 120) = true := by decide
  simp only [e4, if_true, Outcome.map_map]

/-- A literal prefix in front of a string without carriage return, seen by `xml_decode`. -/
theorem xml_decode_literal_front (type : Nat) (pre t tail : List Nat)
    (hpre : ∀ x ∈ pre, x ≠ 0 ∧ x ≠ 13) (h0 : ∀ x ∈ t, x ≠ 0 ∧ x ≠ 13)
    (h : decode_loop (t.length + 1 + pre.length) type (pre ++ t) =
      (decode_loop (t.length + 1) type t).map (fun r => pre ++ r)) :
    xml_decode (pre ++ t ++ 0 :: tail) type =
      (xml_decode (t ++ 0 :: tail) type).map (fun r => (pre ++ r.1, r.2)) := by
  have h1 : ∀ x ∈ pre ++ t, x ≠ 0 ∧ x ≠ 13 := by
    intro x hx
    rcases List.mem_append.1 hx with h | h
    · exact hpre x h
    · exact h0 x h
  rw [xml_decode_no_cr type (pre ++ t) tail h1, xml_decode_no_cr type t tail h0]
  have hl : (pre ++ t).length + 1 = t.length + 1 + pre.length := by simp; omega
  rw [hl, h]
  cases decode_loop (t.length + 1) type t with
  | done r =>
    simp only [Outcome.map_done, Outcome.bind_done]
    have : cstr (pre ++ r) = pre ++ cstr r := by
      unfold cstr
      rw [List.takeWhile_append_of_pos]
      intro x hx
      simpa using (hpre x hx).1
    rw [this]
  | undefined => rfl
  | outOfFuel => rfl

/-- C14, the claim as stated fails: the text behind an undecoded "&#" is scanned on as
ordinary text, so in attribute mode the tab in the payload of "&#1\t2;" becomes a space,
in general mode the carriage return in the payload of "&#1\r2;" becomes a line feed, and
the entity in the payload of "&#&lt;;" is decoded. -/
theorem malformed_ref_payload_rewritten :
    xml_decode (ascii "&#1\t2;" ++ [0]) 32 = .done (ascii "&#1 2;", []) ∧
    9 ∈ ascii "1\t2" ∧ 9 ∉ ascii "&#1 2;" ∧
    xml_decode (ascii "&#1\r2;" ++ [0]) 38 = .done (ascii "&#1\n2;", []) ∧
    13 ∈ ascii "1\r2" ∧ 13 ∉ ascii "&#1\n2;" ∧
    xml_decode (ascii "&#&lt;;" ++ [0]) 38 = .done (ascii "&#<;", []) := by
  decide

/-- C14, as amended: let `t` be the text behind "&#" (the payload and what follows), not
starting with `x`, white space or a sign, whose leading decimal digits are missing (the
payload is empty or starts with a byte that is no digit) or are not followed by `;`.
Then in general and in attribute mode the second loop keeps "&#" and goes on behind it;
`xml_decode`, on a text without carriage return, returns "&#" followed by what it returns
for `t`; and a `t` without `&` comes out byte by byte, unchanged in general mode and with
white space turned into spaces in attribute mode. The same holds for "&#x", hexadecimal
digits, and a `t` that does not start with "0x" or "0X". -/
theorem malformed_char_ref (type : Nat) (ht : type = 38 ∨ type = 32) (t tail : List Nat) :
    (t.head? ≠ some 120 → malformed is_digit t = true →
      (∀ fuel, decode_loop (fuel + 2) type (38 :: 35 :: t) =
        (decode_loop fuel type t).map (fun r => 38 :: 35 :: r)) ∧
      ((∀ x ∈ t, x ≠ 0 ∧ x ≠ 13) →
        xml_decode (38 :: 35 :: t ++ 0 :: tail) type =
          (xml_decode (t ++ 0 :: tail) type).map (fun r => (38 :: 35 :: r.1, r.2))) ∧
      ((∀ x ∈ t, x ≠ 0 ∧ x ≠ 13 ∧ x ≠ 38) →
        xml_decode (38 :: 35 :: t ++ 0 :: tail) type =
          .done (38 :: 35 :: t.map (plain_byte type), tail))) ∧
    ((∀ x u, t = 48 :: x :: u → x ≠ 120 ∧ x ≠ 88) → malformed is_hex_digit t = true →
      (∀ fuel, decode_loop (fuel + 3) type (38 :: 35 :: 120 :: t) =
        (decode_loop fuel type t).map (fun r => 38 :: 35 :: 120 :: r)) ∧
      ((∀ x ∈ t, x ≠ 0 ∧ x ≠ 13) →
        xml_decode (38 :: 35 :: 120 :: t ++ 0 :: tail) type =
          (xml_decode (t ++ 0 :: tail) type).map (fun r => (38 :: 35 :: 120 :: r.1, r.2))) ∧
      ((∀ x ∈ t, x ≠ 0 ∧ x ≠ 13 ∧ x ≠ 38) →
        xml_decode (38 :: 35 :: 120 :: t ++ 0 :: tail) type =
          .done (38 :: 35 :: 120 :: t.map (plain_byte type), tail))) := by
  have key : ∀ pre : List Nat, (∀ x ∈ pre, x ≠ 0 ∧ x ≠ 13) →
      (∀ fuel, decode_loop (fuel + pre.length) type (pre ++ t) =
        (decode_loop fuel type t).map (fun r => pre ++ r)) →
      ((∀ x ∈ t, x ≠ 0 ∧ x ≠ 13) →
        xml_decode (pre ++ t ++ 0 :: tail) type =
          (xml_decode (t ++ 0 :: tail) type).map (fun r => (pre ++ r.1, r.2))) ∧
      ((∀ x ∈ t, x ≠ 0 ∧ x ≠ 13 ∧ x ≠ 38) →
        xml_decode (pre ++ t ++ 0 :: tail) type =
          .done (pre ++ t.map (plain_byte type), tail)) := by
    intro pre hpre hd
    have h1 : (∀ x ∈ t, x ≠ 0 ∧ x ≠ 13) →
        xml_decode (pre ++ t ++ 0 :: tail) type =
          (xml_decode (t ++ 0 :: tail) type).map (fun r => (pre ++ r.1, r.2)) :=
      fun h0 => xml_decode_literal_front type pre t tail hpre h0 (hd (t.length + 1))
    refine ⟨h1, ?_⟩
    intro h0
    rw [h1 (fun x hx => ⟨(h0 x hx).1, (h0 x hx).2.1⟩),
      xml_decode_no_amp type t tail (fun x hx => ⟨(h0 x hx).1, (h0 x hx).2.2, (h0 x hx).2.1⟩)]
    rfl
  refine ⟨?_, ?_⟩
  · intro hx h
    have hd := decode_loop_malformed_dec type ht t hx h
    exact ⟨hd, key [38, 35] (by decide) hd⟩
  · intro hx h
    have hd := decode_loop_malformed_hex type ht t hx h
    exact ⟨hd, key [38, 35, 120] (by decide) hd⟩

/-- C14 as amended, at the text "&#1a;" (the payload holds a byte that is no digit), in
general mode: it is returned as it is; so are "&#;", "&#12" and "&#xg;". -/
theorem malformed_char_ref_witness :
    xml_decode (38 :: 35 :: ascii "1a;" ++ 0 :: []) 38 =
      .done (38 :: 35 :: (ascii "1a;").map (plain_byte 38), []) ∧
    38 :: 35 :: (ascii "1a;").map (plain_byte 38) = ascii "&#1a;" ∧
    xml_decode (ascii "&#;" ++ [0]) 38 = .done (ascii "&#;", []) ∧
    xml_decode (ascii "&#12" ++ [0]) 38 = .done (ascii "&#12", []) ∧
    xml_decode (ascii "&#12 x" ++ [0]) 32 = .done (ascii "&#12 x", []) ∧
    xml_decode (ascii "&#xg;" ++ [0]) 38 = .done (ascii "&#xg;", []) :=
  ⟨((malformed_char_ref 38 (Or.inl rfl) (ascii "1a;") []).1 (by decide) (by decide)).2.2
      (by decide),
    by decide, by decide, by decide, by decide, by decide⟩

/-- C12, the code at the failing input: the attribute value "&#-64;" is valid UTF-8 (it
is ASCII); `strtol` accepts the sign, the value -64 is below 0x80 and is stored as the one
byte 0xC0, so the decoded value is a lead byte that announces one continuation byte and
is followed by none. The value "&#-128;" gives a lone continuation byte. A reference
without sign, such as "&#8364;", gives a complete sequence. -/
theorem negative_ref_breaks_utf8 :
    utf8_terminated 0 (ascii "&#-64;") = true ∧
    strtol (ascii "-64;") 10 = (-64, [59]) ∧
    char_ref_bytes (-64) = .done [192] ∧
    xml_decode (ascii "&#-64;" ++ [0]) 32 = .done ([192], []) ∧
    utf8_terminated 0 [192] = false ∧
    dc_saxparser_parse (ascii "<a b=\"&#-64;\">") =
      .done [Event.starttag (ascii "a") [(ascii "b", [192])]] ∧
    xml_decode (ascii "&#-128;" ++ [0]) 32 = .done ([128], []) ∧
    utf8_terminated 0 [128] = false ∧
    xml_decode (ascii "&#8364;" ++ [0]) 32 = .done ([226, 130, 172], []) ∧
    utf8_terminated 0 [226, 130, 172] = true := by
  decide

/-! ## The tokenizer: what a step leaves of the buffer -/

theorem derived_of_suffix {q p : List Nat} (h : q <:+ p) (hp : ∀ x ∈ p, x ≠ 0) :
    derived q p :=
  ⟨h.length_le, fun x hx => ⟨hp x (h.subset hx), Or.inl (h.subset hx)⟩⟩

theorem derived_refl (p : List Nat) (hp : ∀ x ∈ p, x ≠ 0) : derived p p :=
  derived_of_suffix (List.suffix_refl p) hp

theorem derived_trans {a b c : List Nat} (h1 : derived a b) (h2 : derived b c) :
    derived a c := by
  refine ⟨le_trans h1.1 h2.1, ?_⟩
  intro x hx
  refine ⟨(h1.2 x hx).1, ?_⟩
  rcases (h1.2 x hx).2 with h | h
  · exact (h2.2 x h).2
  · exact Or.inr h

theorem derived_no_zero {q p : List Nat} (h : derived q p) : ∀ x ∈ q, x ≠ 0 :=
  fun x hx => (h.2 x hx).1

theorem derived_suffix {a b c : List Nat} (h1 : a <:+ b) (h2 : derived b c) : derived a c :=
  derived_trans (derived_of_suffix h1 (derived_no_zero h2)) h2

theorem cstr_no_zero_mem (m : List Nat) : ∀ x ∈ cstr m, x ≠ 0 := by
  intro x hx
  unfold cstr at hx
  have := List.mem_takeWhile_imp hx
  simpa using this

theorem cstr_length_lt (m : List Nat) (h : m.getLast? = some 0) :
    (cstr m).length + 1 ≤ m.length := by
  induction m with
  | nil => simp at h
  | cons c m ih =>
    unfold cstr
    by_cases hc : c = 0
    · simp [List.takeWhile_cons, hc]
    · cases m with
      | nil =>
        simp only [List.getLast?_singleton, Option.some.injEq] at h
        exact absurd h hc
      | cons a l =>
        rw [List.getLast?_cons_cons] at h
        have := ih h
        unfold cstr at this
        simp only [List.takeWhile_cons, bne_iff_ne, ne_eq, hc, not_false_eq_true, decide_True,
          if_true, List.length_cons] at this ⊢
        omega

/-- The memory `xml_decode` returns behind the terminator of a string that is followed by
the rest of the buffer: the string in it derives from that rest. -/
theorem xml_decode_rest (s after : List Nat) (hs : ∀ x ∈ s, x ≠ 0) (type : Nat)
    (r : List Nat × List Nat) (h : xml_decode (s ++ 0 :: (after ++ [0])) type = .done r) :
    derived (cstr r.2) after := by
  unfold xml_decode at h
  obtain ⟨m1, hm1, h1⟩ := Outcome.bind_eq_done h
  obtain ⟨d, -, h2⟩ := Outcome.bind_eq_done h1
  simp only [Outcome.done.injEq] at h2
  rw [cstr_append_zero s _ hs] at h2
  have hr2 : r.2 = m1.drop (s.length + 1) := by rw [← h2]
  obtain ⟨k, hk, he⟩ := normalize_loop_any s (after ++ [0]) hs _ (le_refl _)
  rw [hm1] at he
  -- the memory behind the terminator is the rest, as it was or as the loop left it
  have hcase : r.2 = after ++ [0] ∨
      ∃ f, normalize_loop f false (after ++ [0]) = .done r.2 := by
    by_cases hov : overruns s 0 false = true
    · right
      simp only [hov, if_true] at he
      obtain ⟨r', hr', hm⟩ := Outcome.map_eq_done he.symm
      refine ⟨2 * (after ++ [0]).length + 2, ?_⟩
      rw [hr', hr2, ← hm]
      have hlen : (normalize_newlines s).length = s.length := by
        simp only [overruns, Bool.and_eq_true, beq_iff_eq] at hov
        exact hov.1.2
      rw [show normalize_newlines s ++ 0 :: r' = (normalize_newlines s ++ [0]) ++ r' by simp,
        List.drop_left' (by simp [hlen])]
    · left
      simp only [hov, Bool.false_eq_true, if_false, Outcome.done.injEq] at he
      rw [hr2, he]
      rw [show normalize_newlines s ++ 0 :: (List.replicate k 0 ++ (after ++ [0])) =
        (normalize_newlines s ++ 0 :: List.replicate k 0) ++ (after ++ [0]) by simp,
        List.drop_left' (by simp; omega)]
  have hshape : r.2.length = after.length + 1 ∧ r.2.getLast? = some 0 ∧
      ∀ x ∈ r.2, x ∈ after ∨ x = 10 ∨ x = 0 := by
    rcases hcase with h | ⟨f, hf⟩
    · rw [h]
      refine ⟨by simp, by simp, ?_⟩
      intro x hx
      rcases List.mem_append.1 hx with h' | h'
      · exact Or.inl h'
      · simp at h'; exact Or.inr (Or.inr h')
    · obtain ⟨i1, i2, i3⟩ := normalize_loop_shape f false _ _ hf
      refine ⟨by simpa using i1, i2 (by simp), ?_⟩
      intro x hx
      rcases i3 x hx with h' | h' | h'
      · rcases List.mem_append.1 h' with h'' | h''
        · exact Or.inl h''
        · simp at h''; exact Or.inr (Or.inr h'')
      · exact Or.inr (Or.inl h')
      · exact Or.inr (Or.inr h')
  obtain ⟨i1, i2, i3⟩ := hshape
  have hl := cstr_length_lt r.2 i2
  refine ⟨by omega, ?_⟩
  intro x hx
  have h0 := cstr_no_zero_mem r.2 x hx
  refine ⟨h0, ?_⟩
  rcases i3 x (mem_cstr r.2 x hx) with h' | h' | h'
  · exact Or.inl h'
  · exact Or.inr h'
  · exact absurd h' h0

/-- The function `call_text_cb` ends; it makes at most one call of the text callback, with
the length of the text as the length argument and a string that is no longer; and the
string it leaves at the end of the text starts with the byte that was there and derives
from the string that was there. -/
theorem call_text_cb_spec (text rest : List Nat) (type : Nat) (ht : ∀ x ∈ text, x ≠ 0)
    (hrest : ∀ x ∈ rest, x ≠ 0) :
    call_text_cb text rest type ≠ .outOfFuel ∧
      ∀ r, call_text_cb text rest type = .done r →
        derived r.2 rest ∧ r.2.head? = rest.head? ∧ derived r.2.tail rest.tail ∧
        ((text = [] ∧ r.1 = []) ∨
          (text ≠ [] ∧ ∃ d, r.1 = [Event.text d text.length] ∧ d.length ≤ text.length)) := by
  unfold call_text_cb
  by_cases hemp : text.isEmpty = true
  · have : text = [] := List.isEmpty_iff.1 hemp
    simp only [hemp, if_true]
    refine ⟨by simp, ?_⟩
    intro r hr
    simp only [Outcome.done.injEq] at hr
    subst hr
    exact ⟨derived_refl _ hrest, rfl,
      derived_of_suffix (List.suffix_refl _) (fun x hx => hrest x (List.mem_of_mem_tail hx)),
      Or.inl ⟨this, rfl⟩⟩
  · have hne : text ≠ [] := fun h => hemp (List.isEmpty_iff.2 h)
    simp only [hemp, Bool.false_eq_true, if_false]
    cases rest with
    | nil =>
      simp only
      refine ⟨Outcome.bind_ne_outOfFuel _ _ (xml_decode_total _ _) (by intro a _; simp), ?_⟩
      intro r hr
      obtain ⟨a, ha, hv⟩ := Outcome.bind_eq_done hr
      simp only [Outcome.done.injEq] at hv
      subst hv
      refine ⟨derived_refl _ (by simp), rfl, derived_refl _ (by simp), Or.inr ⟨hne, _, rfl, ?_⟩⟩
      exact (xml_decode_length text [] ht type).2 a ha
    | cons bak after =>
      simp only
      refine ⟨Outcome.bind_ne_outOfFuel _ _ (xml_decode_total _ _) (by intro a _; simp), ?_⟩
      intro r hr
      obtain ⟨a, ha, hv⟩ := Outcome.bind_eq_done hr
      simp only [Outcome.done.injEq] at hv
      subst hv
      have hd := xml_decode_rest text after ht type a ha
      have hbak : bak ≠ 0 := hrest bak (by simp)
      refine ⟨⟨by simp only [List.length_cons]; have := hd.1; omega, ?_⟩, rfl, hd,
        Or.inr ⟨hne, _, rfl, (xml_decode_length text _ ht type).2 a ha⟩⟩
      intro x hx
      rcases List.mem_cons.1 hx with h' | h'
      · subst h'
        exact ⟨hbak, Or.inl (by simp)⟩
      · refine ⟨(hd.2 x h').1, ?_⟩
        rcases (hd.2 x h').2 with h'' | h''
        · exact Or.inl (List.mem_cons_of_mem _ h'')
        · exact Or.inr h''

theorem strchr_suffix (s e : List Nat) (ch : Nat) (h : strchr s ch = some e) : e <:+ s := by
  obtain ⟨pre, t, h1, h2, -⟩ := strchr_some s e ch h
  subst h1 h2
  exact List.suffix_append _ _

theorem strstr_suffix (needle : List Nat) :
    ∀ (s q : List Nat), strstr s needle = some q → q <:+ s := by
  intro s
  induction s with
  | nil =>
    intro q h
    rw [strstr] at h
    split at h
    · simp only [Option.some.injEq] at h
      subst h
      exact List.suffix_refl _
    · simp at h
  | cons c t ih =>
    intro q h
    rw [strstr] at h
    split at h
    · simp only [Option.some.injEq] at h
      subst h
      exact List.suffix_refl _
    · exact (ih q h).trans (List.suffix_cons c t)

theorem attr_value_unquoted_spec (p : List Nat) (hp : ∀ x ∈ p, x ≠ 0) :
    attr_value_unquoted p ≠ .outOfFuel ∧
      ∀ v, attr_value_unquoted p = .done v → derived v.2 p := by
  unfold attr_value_unquoted
  refine ⟨Outcome.bind_ne_outOfFuel _ _ (xml_decode_total _ _) (by intro a _; simp), ?_⟩
  intro v hv
  obtain ⟨a, -, h⟩ := Outcome.bind_eq_done hv
  simp only [Outcome.done.injEq] at h
  subst h
  exact derived_of_suffix (List.dropWhile_suffix _) hp

/-- The scan of an attribute value ends, and leaves a string that derives from the one it
started at. -/
theorem attr_value_spec (p : List Nat) (hp : ∀ x ∈ p, x ≠ 0) :
    attr_value p ≠ .outOfFuel ∧ ∀ v, attr_value p = .done v → derived v.2 p := by
  unfold attr_value
  have hs1 : p.dropWhile is_xml_ws <:+ p := List.dropWhile_suffix _
  have hp1 : ∀ x ∈ p.dropWhile is_xml_ws, x ≠ 0 := fun x hx => hp x (hs1.subset hx)
  simp only
  by_cases h1 : ((p.dropWhile is_xml_ws).head? == some 61) = true
  · simp only [h1, if_true]
    have hs2 : (p.dropWhile is_xml_ws).dropWhile ws_or_eq <:+ p :=
      (List.dropWhile_suffix _).trans hs1
    cases h2 : (p.dropWhile is_xml_ws).dropWhile ws_or_eq with
    | nil =>
      simp only
      obtain ⟨i1, i2⟩ := attr_value_unquoted_spec [] (by simp)
      refine ⟨i1, ?_⟩
      intro v hv
      have := i2 v hv
      exact ⟨by have := this.1; simp at this; simp [this], fun x hx => by
        have := this.1; simp at this; simp [this] at hx⟩
    | cons quote t =>
      rw [h2] at hs2
      have hqt : ∀ x ∈ quote :: t, x ≠ 0 := fun x hx => hp x (hs2.subset hx)
      simp only
      by_cases h3 : (quote == 34 || quote == 39) = true
      · simp only [h3, if_true]
        have htk : ∀ x ∈ t.takeWhile (fun x => x != quote), x ≠ 0 := by
          intro x hx
          exact hqt x (List.mem_cons_of_mem _ ((List.takeWhile_sublist _).subset hx))
        cases h4 : t.dropWhile (fun x => x != quote) with
        | nil =>
          simp only
          refine ⟨Outcome.bind_ne_outOfFuel _ _ (xml_decode_total _ _) (by intro a _; simp), ?_⟩
          intro v hv
          obtain ⟨a, -, h⟩ := Outcome.bind_eq_done hv
          simp only [Outcome.done.injEq] at h
          subst h
          exact ⟨by simp, by simp⟩
        | cons q1 t1 =>
          simp only
          refine ⟨Outcome.bind_ne_outOfFuel _ _ (xml_decode_total _ _) (by intro a _; simp), ?_⟩
          intro v hv
          obtain ⟨a, ha, h⟩ := Outcome.bind_eq_done hv
          simp only [Outcome.done.injEq] at h
          subst h
          have hd := xml_decode_rest _ t1 htk 32 a ha
          have hs3 : t1 <:+ p := by
            have e1 : q1 :: t1 <:+ t := by rw [← h4]; exact List.dropWhile_suffix _
            exact ((List.suffix_cons q1 t1).trans e1).trans
              ((List.suffix_cons quote t).trans hs2)
          exact derived_trans hd (derived_of_suffix hs3 hp)
      · simp only [h3, Bool.false_eq_true, if_false]
        obtain ⟨i1, i2⟩ := attr_value_unquoted_spec (quote :: t) hqt
        exact ⟨i1, fun v hv => derived_trans (i2 v hv) (derived_of_suffix hs2 hp)⟩
  · simp only [h1, Bool.false_eq_true, if_false]
    refine ⟨by simp, ?_⟩
    intro v hv
    simp only [Outcome.done.injEq] at hv
    subst hv
    exact derived_of_suffix hs1 hp

theorem length_dropWhile_lt (f : Nat → Bool) (l : List Nat) (h : l.takeWhile f ≠ []) :
    (l.dropWhile f).length < l.length := by
  have := congrArg List.length (List.takeWhile_append_dropWhile f l)
  simp only [List.length_append] at this
  have : 0 < (l.takeWhile f).length := List.length_pos.2 h
  omega

/-- The attribute loop ends within `length + 1` turns, and leaves a string that derives
from the one it started at. -/
theorem attr_loop_spec :
    ∀ (fuel : Nat) (p : List Nat) (attr : List (List Nat × List Nat)), p.length < fuel →
      (∀ x ∈ p, x ≠ 0) →
      attr_loop fuel p attr ≠ .outOfFuel ∧
        ∀ a, attr_loop fuel p attr = .done a → derived a.2 p := by
  intro fuel
  induction fuel with
  | zero => intro p attr h; omega
  | succ f ih =>
    intro p attr hlen hp
    cases p with
    | nil =>
      simp only [attr_loop]
      refine ⟨by simp, ?_⟩
      intro a ha
      simp only [Outcome.done.injEq] at ha
      subst ha
      exact derived_refl _ (by simp)
    | cons c t =>
      simp only [List.length_cons] at hlen
      have ht : ∀ x ∈ t, x ≠ 0 := fun x hx => hp x (List.mem_cons_of_mem _ hx)
      rw [attr_loop]
      by_cases h1 : (c == 47 || c == 62) = true
      · simp only [h1, if_true]
        refine ⟨by simp, ?_⟩
        intro a ha
        simp only [Outcome.done.injEq] at ha
        subst ha
        exact derived_refl _ hp
      · simp only [h1, Bool.false_eq_true, if_false]
        by_cases h2 : (c == 61) = true
        · simp only [h2, if_true]
          obtain ⟨i1, i2⟩ := ih t attr (by omega) ht
          exact ⟨i1, fun a ha => derived_trans (i2 a ha)
            (derived_of_suffix (List.suffix_cons c t) hp)⟩
        · simp only [h2, Bool.false_eq_true, if_false]
          by_cases h3 : (List.takeWhile (fun x => !attr_name_stop x) (c :: t)).isEmpty = true
          · simp only [h3, if_true]
            -- the byte at `p` is white space and is skipped
            have hstop : attr_name_stop c = true := by
              by_contra hn
              simp only [List.takeWhile_cons, hn, Bool.not_false, if_true,
                List.isEmpty_cons, Bool.false_eq_true] at h3
            have hd : (c :: t).dropWhile (fun x => !attr_name_stop x) = c :: t := by
              simp [List.dropWhile_cons, hstop]
            have hws : isspace c = true := by
              apply is_xml_ws_isspace
              simp only [attr_name_stop, Bool.or_eq_true, beq_iff_eq] at hstop
              simp only [Bool.or_eq_true, beq_iff_eq, not_or] at h1
              simp only [beq_iff_eq] at h2
              rcases hstop with ((h | h) | h) | h
              · exact h
              · exact absurd h h2
              · exact absurd h h1.1
              · exact absurd h h1.2
            have hd2 : (c :: t).dropWhile isspace = t.dropWhile isspace := by
              simp [List.dropWhile_cons, hws]
            rw [hd, hd2]
            have hsuf : t.dropWhile isspace <:+ t := List.dropWhile_suffix _
            obtain ⟨i1, i2⟩ := ih (t.dropWhile isspace) attr
              (by have := hsuf.length_le; omega) (fun x hx => ht x (hsuf.subset hx))
            exact ⟨i1, fun a ha => derived_trans (i2 a ha)
              (derived_of_suffix (hsuf.trans (List.suffix_cons c t)) hp)⟩
          · simp only [h3, Bool.false_eq_true, if_false]
            have hne : List.takeWhile (fun x => !attr_name_stop x) (c :: t) ≠ [] :=
              fun h => h3 (by rw [h]; rfl)
            have hlt := length_dropWhile_lt _ _ hne
            have hsuf : (c :: t).dropWhile (fun x => !attr_name_stop x) <:+ c :: t :=
              List.dropWhile_suffix _
            obtain ⟨v1, v2⟩ := attr_value_spec _ (fun x hx => hp x (hsuf.subset hx))
            refine ⟨Outcome.bind_ne_outOfFuel _ _ v1 ?_, ?_⟩
            · intro v hv
              have hd := v2 v hv
              have hsuf2 : v.2.dropWhile isspace <:+ v.2 := List.dropWhile_suffix _
              exact (ih _ _ (by
                have := hsuf2.length_le
                have := hd.1
                simp only [List.length_cons] at hlt
                omega) (fun x hx => (hd.2 x (hsuf2.subset hx)).1)).1
            · intro a ha
              obtain ⟨v, hv, hv2⟩ := Outcome.bind_eq_done ha
              have hd := v2 v hv
              have hsuf2 : v.2.dropWhile isspace <:+ v.2 := List.dropWhile_suffix _
              have := (ih _ _ (by
                have := hsuf2.length_le
                have := hd.1
                simp only [List.length_cons] at hlt
                omega) (fun x hx => (hd.2 x (hsuf2.subset hx)).1)).2 a hv2
              exact derived_trans this (derived_suffix hsuf2
                (derived_trans hd (derived_of_suffix hsuf hp)))

/-! ## The main loop -/

theorem events_ok_done (evs : List Event) (h : ∀ e ∈ evs, text_len_ok e) :
    events_ok (.done evs) := by
  refine ⟨by simp, ?_⟩
  intro evs' h' e he
  simp only [Outcome.done.injEq] at h'
  subst h'
  exact h e he

theorem events_ok_map (x : Outcome (List Event)) (pre : List Event)
    (hpre : ∀ e ∈ pre, text_len_ok e) (hx : events_ok x) :
    events_ok (x.map (fun ev => pre ++ ev)) := by
  refine ⟨Outcome.map_ne_outOfFuel _ _ hx.1, ?_⟩
  intro evs h e he
  obtain ⟨ev, hev, rfl⟩ := Outcome.map_eq_done h
  rcases List.mem_append.1 he with h1 | h1
  · exact hpre e h1
  · exact hx.2 ev hev e h1

theorem events_ok_bind {α : Type} (x : Outcome α) (f : α → Outcome (List Event))
    (hx : x ≠ .outOfFuel) (hf : ∀ a, x = .done a → events_ok (f a)) :
    events_ok (x.bind f) := by
  refine ⟨Outcome.bind_ne_outOfFuel _ _ hx (fun a ha => (hf a ha).1), ?_⟩
  intro evs h
  obtain ⟨a, ha, hv⟩ := Outcome.bind_eq_done h
  exact (hf a ha).2 evs hv

theorem ok_append {a b : List Event} (ha : ∀ e ∈ a, text_len_ok e)
    (hb : ∀ e ∈ b, text_len_ok e) : ∀ e ∈ a ++ b, text_len_ok e := by
  intro e he
  rcases List.mem_append.1 he with h | h
  · exact ha e h
  · exact hb e h

theorem call_text_cb_ok (text rest : List Nat) (type : Nat) (ht : ∀ x ∈ text, x ≠ 0)
    (hrest : ∀ x ∈ rest, x ≠ 0) (r : List Event × List Nat)
    (h : call_text_cb text rest type = .done r) : ∀ e ∈ r.1, text_len_ok e := by
  obtain ⟨-, -, -, hev⟩ := (call_text_cb_spec text rest type ht hrest).2 r h
  rcases hev with ⟨-, h1⟩ | ⟨hne, d, h1, h2⟩
  · rw [h1]; simp
  · rw [h1]
    intro e he
    simp only [List.mem_singleton] at he
    subst he
    exact ⟨h2, List.length_pos.2 hne⟩

/-- The branch for a start or end tag ends, makes no call of the text callback, and leaves
a string that derives from the one it started at. -/
theorem parse_tag_spec (p : List Nat) (hp : ∀ x ∈ p, x ≠ 0) :
    parse_tag p ≠ .outOfFuel ∧
      ∀ r, parse_tag p = .done r → derived r.2 p ∧ ∀ e ∈ r.1, text_len_ok e := by
  unfold parse_tag
  have hs1 : p.dropWhile is_xml_ws <:+ p := List.dropWhile_suffix _
  simp only
  by_cases h1 : ((p.dropWhile is_xml_ws).head? == some 47) = true
  · simp only [h1, if_true]
    refine ⟨by simp, ?_⟩
    intro r hr
    simp only [Outcome.done.injEq] at hr
    subst hr
    refine ⟨derived_of_suffix ((List.dropWhile_suffix _).trans
      ((List.dropWhile_suffix _).trans ((List.tail_suffix _).trans hs1))) hp, ?_⟩
    intro e he
    simp only at he
    split at he
    · simp at he
    · simp only [List.mem_singleton] at he
      subst he
      trivial
  · simp only [h1, Bool.false_eq_true, if_false]
    have hs2 : (p.dropWhile is_xml_ws).dropWhile (fun x => !tag_name_stop x) <:+ p :=
      (List.dropWhile_suffix _).trans hs1
    by_cases h2 : (List.takeWhile (fun x => !tag_name_stop x)
        (List.dropWhile is_xml_ws p)).isEmpty = true
    · simp only [h2, if_true]
      refine ⟨by simp, ?_⟩
      intro r hr
      simp only [Outcome.done.injEq] at hr
      subst hr
      exact ⟨derived_of_suffix hs2 hp, by simp⟩
    · simp only [h2, Bool.false_eq_true, if_false]
      have hs3 : ((p.dropWhile is_xml_ws).dropWhile (fun x => !tag_name_stop x)).dropWhile
          isspace <:+ (p.dropWhile is_xml_ws).dropWhile (fun x => !tag_name_stop x) :=
        List.dropWhile_suffix _
      obtain ⟨i1, i2⟩ := attr_loop_spec
        (((p.dropWhile is_xml_ws).dropWhile (fun x => !tag_name_stop x)).length + 1)
        _ [] (by have := hs3.length_le; omega)
        (fun x hx => hp x ((hs3.trans hs2).subset hx))
      refine ⟨Outcome.bind_ne_outOfFuel _ _ i1 ?_, ?_⟩
      · intro a _
        split <;> simp
      · intro r hr
        obtain ⟨a, ha, hv⟩ := Outcome.bind_eq_done hr
        have hd := derived_trans (i2 a ha) (derived_of_suffix (hs3.trans hs2) hp)
        have hs4 : a.2.dropWhile is_xml_ws <:+ a.2 := List.dropWhile_suffix _
        by_cases h3 : ((List.dropWhile is_xml_ws a.2).head? == some 47) = true
        · simp only [h3, if_true, Outcome.done.injEq] at hv
          subst hv
          refine ⟨derived_suffix ((List.tail_suffix _).trans hs4) hd, ?_⟩
          intro e he
          simp only [List.mem_cons, List.mem_singleton, List.not_mem_nil, or_false] at he
          rcases he with h | h <;> subst h <;> trivial
        · simp only [h3, Bool.false_eq_true, if_false, Outcome.done.injEq] at hv
          subst hv
          refine ⟨derived_suffix hs4 hd, ?_⟩
          intro e he
          simp only [List.mem_singleton] at he
          subst he
          trivial

/-- The main loop ends within `length + 1` turns, whatever the buffer holds, and every call
of the text callback passes the length of the text span and a text that is no longer. -/
theorem parse_loop_spec :
    ∀ (fuel : Nat) (text p : List Nat), p.length < fuel → (∀ x ∈ text, x ≠ 0) →
      (∀ x ∈ p, x ≠ 0) → events_ok (parse_loop fuel text p) := by
  intro fuel
  induction fuel with
  | zero => intro text p h; omega
  | succ f ih =>
    intro text p hlen htext hp
    cases p with
    | nil =>
      rw [parse_loop]
      refine events_ok_bind _ _ (call_text_cb_spec text [] 38 htext hp).1 ?_
      intro r hr
      exact events_ok_done _ (call_text_cb_ok text [] 38 htext hp r hr)
    | cons c t =>
      simp only [List.length_cons] at hlen
      have ht : ∀ x ∈ t, x ≠ 0 := fun x hx => hp x (List.mem_cons_of_mem _ hx)
      rw [parse_loop]
      split
      · refine ih _ _ (by omega) ?_ ht
        intro x hx
        rcases List.mem_append.1 hx with h | h
        · exact htext x h
        · simp only [List.mem_singleton] at h
          subst h
          exact hp x (by simp)
      · refine events_ok_bind _ _ (call_text_cb_spec text (c :: t) 38 htext hp).1 ?_
        intro r hr
        have hr1 := call_text_cb_ok text (c :: t) 38 htext hp r hr
        obtain ⟨-, -, hd, -⟩ := (call_text_cb_spec text (c :: t) 38 htext hp).2 r hr
        simp only [List.tail_cons] at hd
        -- `q` is any string the loop goes on at
        have next : ∀ q : List Nat, q <:+ r.2.tail → events_ok (parse_loop f [] q) := by
          intro q hq
          have hdq := derived_suffix hq hd
          exact ih [] q (by have := hdq.1; omega) (by simp) (derived_no_zero hdq)
        have hp0 : ∀ x ∈ r.2.tail, x ≠ 0 := derived_no_zero hd
        simp only
        split
        · split
          · exact events_ok_done _ hr1
          · rename_i q hq
            exact events_ok_map _ _ hr1
              (next _ ((List.drop_suffix _ _).trans (strstr_suffix _ _ _ hq)))
        · split
          · split
            · rename_i q hq
              have hqs := strstr_suffix _ _ _ hq
              have hq0 : ∀ x ∈ q, x ≠ 0 := fun x hx => hp0 x (hqs.subset hx)
              have htx : ∀ x ∈ (r.2.tail.drop 8).take ((r.2.tail.drop 8).length - q.length),
                  x ≠ 0 := by
                intro x hx
                exact hp0 x ((List.drop_suffix _ _).subset ((List.take_sublist _ _).subset hx))
              refine events_ok_bind _ _ (call_text_cb_spec _ q 99 htx hq0).1 ?_
              intro r1 hr1'
              obtain ⟨hd1, -, -, -⟩ := (call_text_cb_spec _ q 99 htx hq0).2 r1 hr1'
              have hok1 := call_text_cb_ok _ q 99 htx hq0 r1 hr1'
              have hdq : derived (r1.2.drop 3) t :=
                derived_suffix (List.drop_suffix _ _) (derived_trans hd1 (derived_suffix hqs hd))
              exact events_ok_map _ _ (ok_append hr1 hok1)
                (ih [] _ (by have := hdq.1; omega) (by simp) (derived_no_zero hdq))
            · have htx : ∀ x ∈ r.2.tail.drop 8, x ≠ 0 :=
                fun x hx => hp0 x ((List.drop_suffix _ _).subset hx)
              refine events_ok_bind _ _ (call_text_cb_spec _ [] 99 htx (by simp)).1 ?_
              intro r1 hr1'
              exact events_ok_done _ (ok_append hr1
                (call_text_cb_ok _ [] 99 htx (by simp) r1 hr1'))
          · split
            · split
              · exact events_ok_done _ hr1
              · rename_i d t1 hdt
                have hs1 : d :: t1 <:+ r.2.tail := by
                  rw [← hdt]; exact List.dropWhile_suffix _
                split
                · split
                  · exact events_ok_done _ hr1
                  · rename_i q hq
                    exact events_ok_map _ _ hr1
                      (next _ ((List.drop_suffix _ _).trans
                        ((strstr_suffix _ _ _ hq).trans hs1)))
                · exact events_ok_map _ _ hr1
                    (next _ ((List.suffix_cons d t1).trans hs1))
            · split
              · split
                · exact events_ok_done _ hr1
                · rename_i q hq
                  exact events_ok_map _ _ hr1
                    (next _ ((List.drop_suffix _ _).trans (strstr_suffix _ _ _ hq)))
              · obtain ⟨t1, t2⟩ := parse_tag_spec r.2.tail hp0
                refine events_ok_bind _ _ t1 ?_
                intro r1 hr1'
                obtain ⟨hd1, hok1⟩ := t2 r1 hr1'
                split
                · exact events_ok_done _ (ok_append hr1 hok1)
                · rename_i q hq
                  have hdq : derived q.tail t :=
                    derived_suffix ((List.tail_suffix _).trans (strchr_suffix _ _ _ hq))
                      (derived_trans hd1 hd)
                  exact events_ok_map _ _ (ok_append hr1 hok1)
                    (ih [] _ (by have := hdq.1; omega) (by simp) (derived_no_zero hdq))

/-! ## Unclosed tags, termination, and the length passed with a text -/

theorem strchr_none (s : List Nat) (ch : Nat) (h : ∀ x ∈ s, x ≠ ch) : strchr s ch = none := by
  induction s with
  | nil => rfl
  | cons c t ih =>
    have hc : c ≠ ch := h c (by simp)
    simp [strchr, hc, ih (fun x hx => h x (List.mem_cons_of_mem _ hx))]

/-- The main loop on text without `<`: the bytes join the pending text. -/
theorem parse_loop_text (pre : List Nat) (hpre : ∀ x ∈ pre, x ≠ 60) :
    ∀ (text q : List Nat) (f : Nat),
      parse_loop (pre.length + f) text (pre ++ q) = parse_loop f (text ++ pre) q := by
  induction pre with
  | nil => intro text q f; simp
  | cons c t ih =>
    intro text q f
    have hc : (c != 60) = true := by simpa using hpre c (by simp)
    rw [show (c :: t).length + f = (t.length + f) + 1 by simp only [List.length_cons]; omega,
      List.cons_append, parse_loop]
    simp only [hc, if_true]
    rw [ih (fun x hx => hpre x (List.mem_cons_of_mem _ hx))]
    simp

/-- The callbacks of the branch for a start or end tag: none, one end tag, one start tag,
or a start tag and the end tag of the same name. -/
theorem parse_tag_events (p : List Nat) (r : List Event × List Nat)
    (h : parse_tag p = .done r) :
    r.1 = [] ∨ ∃ name attrs, r.1 = [Event.endtag name] ∨ r.1 = [Event.starttag name attrs] ∨
      r.1 = [Event.starttag name attrs, Event.endtag name] := by
  unfold parse_tag at h
  simp only at h
  by_cases h1 : ((p.dropWhile is_xml_ws).head? == some 47) = true
  · simp only [h1, if_true, Outcome.done.injEq] at h
    subst h
    simp only
    split
    · exact Or.inl rfl
    · exact Or.inr ⟨_, [], Or.inl rfl⟩
  · simp only [h1, Bool.false_eq_true, if_false] at h
    by_cases h2 : (List.takeWhile (fun x => !tag_name_stop x)
        (List.dropWhile is_xml_ws p)).isEmpty = true
    · simp only [h2, if_true, Outcome.done.injEq] at h
      subst h
      exact Or.inl rfl
    · simp only [h2, Bool.false_eq_true, if_false] at h
      obtain ⟨a, -, hv⟩ := Outcome.bind_eq_done h
      by_cases h3 : ((List.dropWhile is_xml_ws a.2).head? == some 47) = true
      · simp only [h3, if_true, Outcome.done.injEq] at hv
        subst hv
        exact Or.inr ⟨_, _, Or.inr (Or.inr rfl)⟩
      · simp only [h3, Bool.false_eq_true, if_false, Outcome.done.injEq] at hv
        subst hv
        exact Or.inr ⟨_, _, Or.inr (Or.inl rfl)⟩

/-- The main loop at the `<` of a start or end tag behind which the buffer holds no `>`. -/
theorem parse_loop_unclosed (fuel : Nat) (text p : List Nat) (tev evs : List Event)
    (q : List Nat) (hp : ∀ x ∈ p, x ≠ 62 ∧ x ≠ 0)
    (h1 : [33, 45, 45].isPrefixOf p = false)
    (h2 : [33, 91, 67, 68, 65, 84, 65, 91].isPrefixOf p = false)
    (h3 : [33, 68, 79, 67, 84, 89, 80, 69].isPrefixOf p = false)
    (h4 : p.head? ≠ some 63)
    (htext : call_text_cb text (60 :: p) 38 = .done (tev, 60 :: p))
    (htag : parse_tag p = .done (evs, q)) :
    strchr q 62 = none ∧ parse_loop (fuel + 1) text (60 :: p) = .done (tev ++ evs) := by
  have hd := ((parse_tag_spec p (fun x hx => (hp x hx).2)).2 _ htag).1
  have hq : strchr q 62 = none := by
    apply strchr_none
    intro x hx
    rcases (hd.2 x hx).2 with h | h
    · exact (hp x h).1
    · omega
  refine ⟨hq, ?_⟩
  have h4' : (p.head? == some 63) = false := by simpa using h4
  rw [parse_loop]
  have e0 : (60 != 60) = false := by decide
  simp only [e0, Bool.false_eq_true, if_false, htext, Outcome.bind_done, List.tail_cons, h1, h2,
    h3, h4', htag, hq]

/-- C17: `dc_saxparser_parse` ends on every input string: the main loop needs at most one
turn per byte of the buffer and one more; the attribute loop, too, ends within
`length + 1` turns (every turn moves `p` forward, also at a stray `=` as in the tag
interior `b="val"= c`); the second loop of `xml_decode` ends within `length + 1` steps
although it scans the replacement of an entity again, and `xml_decode` as a whole ends on
any memory. -/
theorem parse_terminates (buf : List Nat) :
    dc_saxparser_parse buf ≠ .outOfFuel ∧
    (∀ fuel text p, p.length < fuel → (∀ x ∈ text, x ≠ 0) → (∀ x ∈ p, x ≠ 0) →
      parse_loop fuel text p ≠ .outOfFuel) ∧
    (∀ fuel p attr, p.length < fuel → (∀ x ∈ p, x ≠ 0) →
      attr_loop fuel p attr ≠ .outOfFuel) ∧
    (∀ fuel type s, s.length < fuel → decode_loop fuel type s ≠ .outOfFuel) ∧
    (∀ m type, xml_decode m type ≠ .outOfFuel) ∧
    dc_saxparser_parse (ascii "<a b=\"val\"= c>") =
      .done [Event.starttag (ascii "a") [(ascii "b", ascii "val"), (ascii "c", [])]] ∧
    dc_saxparser_parse (ascii "&amp;amp;amp;lt;") = .done [Event.text (ascii "<") 16] := by
  refine ⟨?_, fun fuel text p h1 h2 h3 => (parse_loop_spec fuel text p h1 h2 h3).1,
    fun fuel p attr h1 h2 => (attr_loop_spec fuel p attr h1 h2).1,
    decode_loop_total, xml_decode_total, by decide, by decide⟩
  unfold dc_saxparser_parse
  exact (parse_loop_spec _ [] (cstr buf) (by omega) (by simp) (cstr_no_zero_mem buf)).1

/-- C17 at the tag interior with a stray `=`: the attribute loop, given one turn per byte
and one more, ends. -/
theorem parse_terminates_witness :
    (ascii " b=\"val\"= c>").length < 14 ∧
    attr_loop 14 (ascii " b=\"val\"= c>") [] ≠ .outOfFuel ∧
    dc_saxparser_parse (ascii "<a b=\"val\"= c>") ≠ .outOfFuel :=
  ⟨by decide,
    (parse_terminates []).2.2.1 14 (ascii " b=\"val\"= c>") [] (by decide) (by decide),
    (parse_terminates (ascii "<a b=\"val\"= c>")).1⟩

theorem clean_of_suffix {q p : List Nat} (h : q <:+ p) (hp : clean p) : clean q :=
  fun x hx => hp x (h.subset hx)

theorem clean_of_sublist {q p : List Nat} (h : q.Sublist p) (hp : clean p) : clean q :=
  fun x hx => hp x (h.subset hx)

theorem xml_decode_clean (v tail : List Nat) (hv : clean v) (type : Nat) :
    xml_decode (v ++ 0 :: tail) type = .done (v.map (plain_byte type), tail) :=
  xml_decode_no_amp type v tail (fun x hx => ⟨(hv x hx).1, (hv x hx).2.2, (hv x hx).2.1⟩)

theorem attr_value_clean (p : List Nat) (hp : clean p) :
    ∃ v, attr_value p = .done v ∧ v.2 <:+ p := by
  unfold attr_value
  have hs1 : p.dropWhile is_xml_ws <:+ p := List.dropWhile_suffix _
  simp only
  by_cases h1 : ((p.dropWhile is_xml_ws).head? == some 61) = true
  · simp only [h1, if_true]
    have hs2 : (p.dropWhile is_xml_ws).dropWhile ws_or_eq <:+ p :=
      (List.dropWhile_suffix _).trans hs1
    cases h2 : (p.dropWhile is_xml_ws).dropWhile ws_or_eq with
    | nil =>
      simp only [attr_value_unquoted]
      have := xml_decode_clean [] [] (by intro x hx; simp at hx) 32
      simp only [List.nil_append] at this
      simp only [List.takeWhile_nil, List.nil_append, this, Outcome.bind_done,
        List.dropWhile_nil]
      exact ⟨_, rfl, List.nil_suffix⟩
    | cons quote t =>
      rw [h2] at hs2
      simp only
      by_cases h3 : (quote == 34 || quote == 39) = true
      · simp only [h3, if_true]
        have hts : t <:+ p := (List.suffix_cons quote t).trans hs2
        have htk : clean (t.takeWhile (fun x => x != quote)) :=
          clean_of_sublist ((List.takeWhile_sublist _).trans hts.sublist) hp
        cases h4 : t.dropWhile (fun x => x != quote) with
        | nil =>
          simp only
          have := xml_decode_clean _ [] htk 32
          rw [this]
          exact ⟨_, rfl, List.nil_suffix⟩
        | cons q1 t1 =>
          simp only
          have hs3 : t1 <:+ p := by
            have e1 : q1 :: t1 <:+ t := by rw [← h4]; exact List.dropWhile_suffix _
            exact ((List.suffix_cons q1 t1).trans e1).trans hts
          rw [xml_decode_clean _ _ htk 32]
          simp only [Outcome.bind_done]
          rw [cstr_append_zero t1 [] (fun x hx => (hp x (hs3.subset hx)).1)]
          exact ⟨_, rfl, hs3⟩
      · simp only [h3, Bool.false_eq_true, if_false, attr_value_unquoted]
        have htk : clean ((quote :: t).takeWhile (fun x => !tag_name_stop x)) :=
          clean_of_sublist ((List.takeWhile_sublist _).trans hs2.sublist) hp
        have := xml_decode_clean _ [] htk 32
        rw [this]
        exact ⟨_, rfl, (List.dropWhile_suffix _).trans hs2⟩
  · simp only [h1, Bool.false_eq_true, if_false]
    exact ⟨_, rfl, hs1⟩

theorem attr_loop_clean :
    ∀ (fuel : Nat) (p : List Nat) (attr : List (List Nat × List Nat)), p.length < fuel →
      clean p → ∃ a, attr_loop fuel p attr = .done a ∧ a.2 <:+ p := by
  intro fuel
  induction fuel with
  | zero => intro p attr h; omega
  | succ f ih =>
    intro p attr hlen hp
    cases p with
    | nil => exact ⟨(attr, []), by simp [attr_loop], List.suffix_refl _⟩
    | cons c t =>
      simp only [List.length_cons] at hlen
      have ht : clean t := clean_of_suffix (List.suffix_cons c t) hp
      rw [attr_loop]
      by_cases h1 : (c == 47 || c == 62) = true
      · simp only [h1, if_true]
        exact ⟨_, rfl, List.suffix_refl _⟩
      · simp only [h1, Bool.false_eq_true, if_false]
        by_cases h2 : (c == 61) = true
        · simp only [h2, if_true]
          obtain ⟨a, ha, hsuf⟩ := ih t attr (by omega) ht
          exact ⟨a, ha, hsuf.trans (List.suffix_cons c t)⟩
        · simp only [h2, Bool.false_eq_true, if_false]
          by_cases h3 : (List.takeWhile (fun x => !attr_name_stop x) (c :: t)).isEmpty = true
          · simp only [h3, if_true]
            -- the byte at `p` is white space and is skipped
            have hstop : attr_name_stop c = true := by
              by_contra hn
              simp only [List.takeWhile_cons, hn, Bool.not_false, if_true,
                List.isEmpty_cons, Bool.false_eq_true] at h3
            have hd : (c :: t).dropWhile (fun x => !attr_name_stop x) = c :: t := by
              simp [List.dropWhile_cons, hstop]
            have hws : isspace c = true := by
              apply is_xml_ws_isspace
              simp only [attr_name_stop, Bool.or_eq_true, beq_iff_eq] at hstop
              simp only [Bool.or_eq_true, beq_iff_eq, not_or] at h1
              simp only [beq_iff_eq] at h2
              rcases hstop with ((h | h) | h) | h
              · exact h
              · exact absurd h h2
              · exact absurd h h1.1
              · exact absurd h h1.2
            have hd2 : (c :: t).dropWhile isspace = t.dropWhile isspace := by
              simp [List.dropWhile_cons, hws]
            rw [hd, hd2]
            have hsuf2 : t.dropWhile isspace <:+ t := List.dropWhile_suffix _
            obtain ⟨a, ha, hsa⟩ := ih (t.dropWhile isspace) attr
              (by have := hsuf2.length_le; omega) (clean_of_suffix hsuf2 ht)
            exact ⟨a, ha, hsa.trans (hsuf2.trans (List.suffix_cons c t))⟩
          · simp only [h3, Bool.false_eq_true, if_false]
            have hne : List.takeWhile (fun x => !attr_name_stop x) (c :: t) ≠ [] :=
              fun h => h3 (by rw [h]; rfl)
            have hlt := length_dropWhile_lt _ _ hne
            have hsuf : (c :: t).dropWhile (fun x => !attr_name_stop x) <:+ c :: t :=
              List.dropWhile_suffix _
            obtain ⟨v, hv, hsv⟩ := attr_value_clean _ (clean_of_suffix hsuf hp)
            rw [hv]
            simp only [Outcome.bind_done]
            have hsuf2 : v.2.dropWhile isspace <:+ c :: t :=
              (List.dropWhile_suffix _).trans (hsv.trans hsuf)
            obtain ⟨a, ha, hsa⟩ := ih (v.2.dropWhile isspace)
              (if 2 * attr.length < MAX_ATTR then
                attr ++ [(dc_strlower_in_place
                  (List.takeWhile (fun x => !attr_name_stop x) (c :: t)), v.1)]
               else attr)
              (by
                have h1 := ((List.dropWhile_suffix isspace).trans hsv : _ <:+ _).length_le
                simp only [List.length_cons] at hlt
                omega) (clean_of_suffix hsuf2 hp)
            exact ⟨a, ha, hsa.trans hsuf2⟩

/-- The branch for a start or end tag is defined on a text without NUL, carriage return
and `&`, and leaves the buffer as it is: it ends at a suffix of the text. -/
theorem parse_tag_clean (p : List Nat) (hp : clean p) :
    ∃ evs q, parse_tag p = .done (evs, q) ∧ q <:+ p := by
  unfold parse_tag
  have hs1 : p.dropWhile is_xml_ws <:+ p := List.dropWhile_suffix _
  simp only
  by_cases h1 : ((p.dropWhile is_xml_ws).head? == some 47) = true
  · simp only [h1, if_true]
    exact ⟨_, _, rfl, (List.dropWhile_suffix _).trans
      ((List.dropWhile_suffix _).trans ((List.tail_suffix _).trans hs1))⟩
  · simp only [h1, Bool.false_eq_true, if_false]
    have hs2 : (p.dropWhile is_xml_ws).dropWhile (fun x => !tag_name_stop x) <:+ p :=
      (List.dropWhile_suffix _).trans hs1
    by_cases h2 : (List.takeWhile (fun x => !tag_name_stop x)
        (List.dropWhile is_xml_ws p)).isEmpty = true
    · simp only [h2, if_true]
      exact ⟨_, _, rfl, hs2⟩
    · simp only [h2, Bool.false_eq_true, if_false]
      have hs3 : ((p.dropWhile is_xml_ws).dropWhile (fun x => !tag_name_stop x)).dropWhile
          isspace <:+ (p.dropWhile is_xml_ws).dropWhile (fun x => !tag_name_stop x) :=
        List.dropWhile_suffix _
      obtain ⟨a, ha, hsa⟩ := attr_loop_clean
        (((p.dropWhile is_xml_ws).dropWhile (fun x => !tag_name_stop x)).length + 1)
        _ [] (by have := hs3.length_le; omega) (clean_of_suffix (hs3.trans hs2) hp)
      rw [ha]
      simp only [Outcome.bind_done]
      have hs4 : a.2.dropWhile is_xml_ws <:+ p :=
        (List.dropWhile_suffix _).trans (hsa.trans (hs3.trans hs2))
      by_cases h3 : ((List.dropWhile is_xml_ws a.2).head? == some 47) = true
      · simp only [h3, if_true]
        exact ⟨_, _, rfl, (List.tail_suffix _).trans hs4⟩
      · simp only [h3, Bool.false_eq_true, if_false]
        exact ⟨_, _, rfl, hs4⟩

/-- The flush of a pending text without NUL, carriage return and `&` in front of a buffer
without NUL: the text is delivered as it is and the buffer stays as it is. -/
theorem call_text_cb_clean (text rest : List Nat) (ht : clean text)
    (hrest : ∀ x ∈ rest, x ≠ 0) :
    call_text_cb text rest 38 =
      .done (if text = [] then [] else [Event.text text text.length], rest) := by
  unfold call_text_cb
  cases text with
  | nil => simp
  | cons c t =>
    have hmap : (c :: t).map (plain_byte 38) = c :: t := by
      have : ∀ l : List Nat, l.map (plain_byte 38) = l := by
        intro l
        induction l with
        | nil => rfl
        | cons a l ih => simp [plain_byte, ih]
      exact this _
    simp only [List.isEmpty_cons, Bool.false_eq_true, if_false]
    cases rest with
    | nil =>
      simp only
      rw [xml_decode_clean (c :: t) [] ht 38, hmap]
      simp
    | cons bak after =>
      simp only
      rw [xml_decode_clean (c :: t) _ ht 38, hmap]
      simp only [Outcome.bind_done]
      rw [cstr_append_zero after [] (fun x hx => hrest x (List.mem_cons_of_mem _ hx))]
      simp

/-! ## Tags that are not closed -/

/-- Tags without `>`: let the main loop stand at the `<` of a start tag or an end tag (the
text behind the `<` starts neither a comment, a CDATA section, a doctype nor a processing
instruction) and let no `>` occur in the remaining input `p`. (1) Wherever in a buffer
the loop stands: when the pending text is flushed (callbacks `tev`) and the tag itself is
processed (callbacks `evs`, none of them a text callback), the search for the `>` fails
and the parse returns with exactly these callbacks, so nothing is reported for what
follows. (2) For a document that is a text without `<` followed by such a tag, both
without carriage return and `&`, the parse does return: it reports the text, if there is
one, then at most a start tag and an end tag for the unclosed tag, and nothing else. -/
theorem unclosed_tag_stops (text p : List Nat) (hp : ∀ x ∈ p, x ≠ 62 ∧ x ≠ 0)
    (h1 : [33, 45, 45].isPrefixOf p = false)
    (h2 : [33, 91, 67, 68, 65, 84, 65, 91].isPrefixOf p = false)
    (h3 : [33, 68, 79, 67, 84, 89, 80, 69].isPrefixOf p = false)
    (h4 : p.head? ≠ some 63) :
    (∀ tev evs q fuel, call_text_cb text (60 :: p) 38 = .done (tev, 60 :: p) →
      parse_tag p = .done (evs, q) →
      strchr q 62 = none ∧ parse_loop (fuel + 1) text (60 :: p) = .done (tev ++ evs) ∧
        ∀ e ∈ evs, ∀ d len, e ≠ Event.text d len) ∧
    (clean text → clean p → (∀ x ∈ text, x ≠ 60) →
      ∃ evs, (∀ e ∈ evs, ∀ d len, e ≠ Event.text d len) ∧ evs.length ≤ 2 ∧
        dc_saxparser_parse (text ++ 60 :: p) =
          .done ((if text = [] then [] else [Event.text text text.length]) ++ evs)) := by
  have notext : ∀ evs q, parse_tag p = .done (evs, q) →
      (∀ e ∈ evs, ∀ d len, e ≠ Event.text d len) ∧ evs.length ≤ 2 := by
    intro evs q htag
    rcases parse_tag_events p _ htag with h | ⟨name, attrs, h | h | h⟩ <;>
      simp only at h <;> subst h <;> simp
  refine ⟨?_, ?_⟩
  · intro tev evs q fuel htext htag
    obtain ⟨i1, i2⟩ := parse_loop_unclosed fuel text p tev evs q hp h1 h2 h3 h4 htext htag
    exact ⟨i1, i2, (notext evs q htag).1⟩
  · intro ht hpc h60
    obtain ⟨evs, q, htag, -⟩ := parse_tag_clean p hpc
    have htext := call_text_cb_clean text (60 :: p) ht (by
      intro x hx
      rcases List.mem_cons.1 hx with h | h
      · omega
      · exact (hp x h).2)
    refine ⟨evs, (notext evs q htag).1, (notext evs q htag).2, ?_⟩
    have h0 : ∀ x ∈ text ++ 60 :: p, x ≠ 0 := by
      intro x hx
      rcases List.mem_append.1 hx with h | h
      · exact (ht x h).1
      · rcases List.mem_cons.1 h with h' | h'
        · omega
        · exact (hp x h').2
    unfold dc_saxparser_parse
    rw [cstr_of_no_zero _ h0]
    have hl : (text ++ 60 :: p).length + 1 = text.length + (p.length + 1 + 1) := by
      simp only [List.length_append, List.length_cons]; omega
    rw [hl, parse_loop_text text h60 [] (60 :: p) (p.length + 1 + 1)]
    simpa using (parse_loop_unclosed (p.length + 1) text p _ evs q hp h1 h2 h3 h4 htext htag).2

/-- The lemma `unclosed_tag_stops` at the buffer "text<a b=\"c\" d", with the loop at the
`<` and the pending text "text": the text and the start tag `a` with its two attributes are reported and the parse
returns; so it does for the whole document, and for "text</a ". -/
theorem unclosed_tag_stops_witness :
    parse_loop (10 + 1) (ascii "text") (60 :: ascii "a b=\"c\" d") =
      .done ([Event.text (ascii "text") 4] ++
        [Event.starttag (ascii "a") [(ascii "b", ascii "c"), (ascii "d", [])]]) ∧
    dc_saxparser_parse (ascii "text<a b=\"c\" d") =
      .done [Event.text (ascii "text") 4,
        Event.starttag (ascii "a") [(ascii "b", ascii "c"), (ascii "d", [])]] ∧
    dc_saxparser_parse (ascii "text</a ") =
      .done [Event.text (ascii "text") 4, Event.endtag (ascii "a")] :=
  ⟨((unclosed_tag_stops (ascii "text") (ascii "a b=\"c\" d") (by decide) (by decide)
      (by decide) (by decide) (by decide)).1 [Event.text (ascii "text") 4]
      [Event.starttag (ascii "a") [(ascii "b", ascii "c"), (ascii "d", [])]] [] 10
      (by decide) (by decide)).2.1,
    by decide, by decide⟩

/-! ## Entities are decoded again, character references are not -/

set_option maxRecDepth 1000000 in
theorem s_ent_plain : s_ent.all entity_plain = true := by decide!

/-- More steps than needed do not change what the second loop returns. -/
theorem decode_loop_mono :
    ∀ (f type : Nat) (s r : List Nat), decode_loop f type s = .done r →
      ∀ g, f ≤ g → decode_loop g type s = .done r := by
  intro f
  induction f with
  | zero => intro type s r h; simp [decode_loop] at h
  | succ f ih =>
    intro type s r h g hg
    obtain ⟨g, rfl⟩ : ∃ g', g = g' + 1 := ⟨g - 1, by omega⟩
    have hfg : f ≤ g := by omega
    have hmap : ∀ (t : List Nat) (k : List Nat → List Nat),
        (decode_loop f type t).map k = .done r → (decode_loop g type t).map k = .done r := by
      intro t k hk
      obtain ⟨r', hr', rfl⟩ := Outcome.map_eq_done hk
      rw [ih type t r' hr' g hfg]
      rfl
    cases s with
    | nil => simpa [decode_loop] using h
    | cons c t =>
      rw [decode_loop] at h ⊢
      by_cases h1 : (c != 38 && !isspace c) = true
      · simp only [h1, if_true] at h ⊢
        exact hmap _ _ h
      · simp only [h1, Bool.false_eq_true, if_false] at h ⊢
        by_cases h2 : (type != 99 && (c :: t).take 2 == [38, 35]) = true
        · simp only [h2, if_true] at h ⊢
          generalize (if ((c :: t).drop 2).head? == some 120 then strtol ((c :: t).drop 3) 16
            else strtol ((c :: t).drop 2) 10) = ce at h ⊢
          by_cases h3 : (ce.1 == 0 || ce.2.head? != some 59) = true
          · simp only [h3, if_true] at h ⊢
            exact hmap _ _ h
          · simp only [h3, Bool.false_eq_true, if_false] at h ⊢
            obtain ⟨w, hw, hv⟩ := Outcome.bind_eq_done h
            rw [hw]
            simp only [Outcome.bind_done]
            cases he : strchr ((c :: t).drop w.length) 59 with
            | none => simp [he] at hv
            | some e =>
              simp only [he] at hv ⊢
              exact hmap _ _ hv
        · simp only [h2, Bool.false_eq_true, if_false] at h ⊢
          by_cases h4 : (c == 38 && (type == 38 || type == 32)) = true
          · simp only [h4, if_true] at h ⊢
            cases hf : find_entity s_ent t with
            | none =>
              simp only [hf] at h ⊢
              exact hmap _ _ h
            | some ent =>
              simp only [hf] at h ⊢
              cases he : strchr (c :: t) 59 with
              | none => simp [he] at h
              | some e =>
                simp only [he] at h ⊢
                exact ih type _ r h g hfg
          · simp only [h4, Bool.false_eq_true, if_false] at h ⊢
            by_cases h5 : (type == 32 && isspace c) = true
            · simp only [h5, if_true] at h ⊢
              exact hmap _ _ h
            · simp only [h5, Bool.false_eq_true, if_false] at h ⊢
              exact hmap _ _ h

/-- One step of the second loop at the `&` of an entity of the table: the reference is
replaced and the scan goes on at the first byte of the replacement. -/
theorem decode_loop_entity (type : Nat) (ht : type = 38 ∨ type = 32) (t : List Nat)
    (ent : List Nat × List Nat) (h : find_entity s_ent t = some ent) (fuel : Nat) :
    decode_loop (fuel + 1) type (38 :: t) =
      decode_loop fuel type (ent.2 ++ t.drop ent.1.length) := by
  obtain ⟨body, t', h1, h2, h3, -, -⟩ := find_entity_some t ent h
  have hmem : ent ∈ s_ent := by
    unfold find_entity at h
    exact List.mem_of_find?_eq_some h
  have hpl := List.all_eq_true.1 s_ent_plain ent hmem
  simp only [entity_plain, Bool.and_eq_true, bne_iff_ne, ne_eq] at hpl
  have hhead : t.head? = ent.1.head? := by
    rw [h1, h2]
    cases body <;> simp
  have h35 : t.head? ≠ some 35 := by rw [hhead]; exact hpl.1
  have hdrop : t.drop ent.1.length = t' := by
    rw [h1, h2, show body ++ 59 :: t' = (body ++ [59]) ++ t' by simp, List.drop_left]
  have e1 : (38 != 38 && !isspace 38) = false := by decide
  have e2 : (type != 99 && List.take 2 (38 :: t) == [38, 35]) = false := by
    cases t with
    | nil => simp
    | cons a u =>
      simp only [List.head?_cons, ne_eq, Option.some.injEq] at h35
      simp [h35]
  have e3 : (38 == 38 && (type == 38 || type == 32)) = true := by
    rcases ht with h | h <;> subst h <;> decide
  rw [decode_loop]
  simp only [e1, e2, e3, Bool.false_eq_true, if_false, if_true, h, h3, List.tail_cons, hdrop]

/-- One step of the second loop at a character reference that is followed by any text
`rest`: the reference is replaced by the UTF-8 bytes of its code point and the scan goes
on behind them, at `rest`. `pre` is empty for a decimal reference and `x` for a
hexadecimal one. -/
theorem decode_loop_char_ref_then (type : Nat) (ht : type ≠ 99) (base : Nat) (upper : Bool)
    (pre : List Nat) (hpre : (pre = [] ∧ base = 10) ∨ (pre = [120] ∧ base = 16))
    (c : Nat) (h1 : 1 ≤ c) (h2 : c ≤ 0x10FFFF) (rest : List Nat) (fuel : Nat) :
    decode_loop (fuel + 1) type ([38, 35] ++ pre ++ numeral base upper c ++ 59 :: rest) =
      (decode_loop fuel type rest).map (fun r => utf8_encode c ++ r) := by
  have hb : base = 10 ∨ base = 16 := by rcases hpre with h | h <;> simp [h.2]
  have hb1 : 2 ≤ base := by rcases hb with h | h <;> omega
  have hb2 : base ≤ 16 := by rcases hb with h | h <;> omega
  have hnum := numeral_props base hb1 hb2 upper c
  have hst := strtol_numeral base hb upper c (by omega) (by norm_num [LONG_MAX]; omega) rest
  have hlen1 := numeral_length_pos base upper c (by omega)
  -- the value and the end pointer of the `strtol` call
  have hce : (if (([38, 35] ++ pre ++ numeral base upper c ++ 59 :: rest).drop 2).head? ==
        some 120
      then strtol (([38, 35] ++ pre ++ numeral base upper c ++ 59 :: rest).drop 3) 16
      else strtol (([38, 35] ++ pre ++ numeral base upper c ++ 59 :: rest).drop 2) 10) =
      ((c : Int), 59 :: rest) := by
    rcases hpre with ⟨hp, hbase⟩ | ⟨hp, hbase⟩
    · subst hp hbase
      obtain ⟨a, l, hal⟩ : ∃ a l, numeral 10 upper c = a :: l := by
        cases hN : numeral 10 upper c with
        | nil => simp [hN] at hlen1
        | cons a l => exact ⟨a, l, rfl⟩
      have ha := hnum a (by simp [hal])
      have e : (some a == some 120) = false := by simp [ha.2.2.2.1]
      rw [hal] at hst
      have hst' : strtol (a :: (l ++ 59 :: rest)) 10 = ((c : Int), 59 :: rest) := by
        simpa using hst
      simp [hal, e, hst']
    · subst hp hbase
      simp [hst]
  -- the place of the `;`
  have hw : (utf8_encode c).length ≤ ([38, 35] ++ pre ++ numeral base upper c).length := by
    rw [utf8_encode_length]
    simp only [List.length_append, List.length_cons, List.length_nil]
    split
    · omega
    · split
      · omega
      · split
        · omega
        · have := numeral_length_two base hb1 upper c (by omega)
          omega
  have hsemi := strchr_drop ([38, 35] ++ pre ++ numeral base upper c) rest
    (by
      intro x hx
      simp only [List.mem_append, List.mem_cons, List.mem_singleton] at hx
      rcases hx with ((h | h | h) | h) | h
      · omega
      · omega
      · simp at h
      · rcases hpre with hp | hp
        · simp [hp.1] at h
        · simp [hp.1] at h
          omega
      · exact (hnum x h).2.2.2.2.2.1)
    (utf8_encode c).length hw
  have hcr := char_ref_bytes_utf8 c h1 h2
  have hc0 : ((c : Int) == 0) = false := by
    simp
    omega
  have hmem : [38, 35] ++ pre ++ numeral base upper c ++ 59 :: rest
      = 38 :: (35 :: (pre ++ numeral base upper c ++ 59 :: rest)) := by simp
  rw [hmem] at hce
  rw [hmem, decode_loop]
  simp only [hce]
  rw [← hmem, hcr]
  have hsemi' : strchr (List.drop (utf8_encode c).length
      (38 :: 35 :: (pre ++ (numeral base upper c ++ 59 :: rest)))) 59 = some (59 :: rest) := by
    simpa using hsemi
  simp [ht, hc0, isspace, hsemi']

/-- The entity search on a string that starts with "amp;" finds the pair of `&amp;`. -/
theorem find_entity_amp (rest : List Nat) :
    find_entity s_ent (ascii "amp;" ++ rest) = some (ascii "amp;", [38]) := by
  have h5 : s_ent.take 5 = [([108, 116, 59], [60]), ([103, 116, 59], [62]),
      ([113, 117, 111, 116, 59], [34]), ([97, 112, 111, 115, 59], [39]),
      ([97, 109, 112, 59], [38])] := by decide
  have ha : ascii "amp;" = [97, 109, 112, 59] := by decide
  have hfirst : List.find? (fun e : List Nat × List Nat =>
      e.1.isPrefixOf ([97, 109, 112, 59] ++ rest))
      [([108, 116, 59], [60]), ([103, 116, 59], [62]), ([113, 117, 111, 116, 59], [34]),
        ([97, 112, 111, 115, 59], [39]), ([97, 109, 112, 59], [38])] =
      some ([97, 109, 112, 59], [38]) := by
    simp [List.find?, List.isPrefixOf]
  unfold find_entity
  rw [ha]
  conv_lhs => rw [← List.take_append_drop 5 s_ent]
  rw [List.find?_append, h5, hfirst]
  rfl

/-- C21: (1) one step of the second loop at the `&` of a table entity replaces the
reference and goes on at the first byte of the replacement, in general and in attribute
mode, whatever follows; (2) one step at a character reference writes the bytes of the
code point and goes on behind them, at the text that follows the `;`. Hence, for every
pair (name, replacement) of the table, "&amp;" ++ name is decoded in general mode to the
replacement ("&amp;" gives "&", which starts the reference "&name" that is decoded in
turn), whereas "&#38;" ++ name is decoded to "&" ++ name, the `&` that the character
reference produced being left alone. "&amp;lt;" gives "<" and "&amp;#65;" gives "A";
"&#38;lt;" gives "&lt;" and "&#38;#65;" gives "&#65;". -/
theorem entities_decoded_again (e : List Nat × List Nat) (he : e ∈ s_ent) (tail : List Nat) :
    (∀ type t ent fuel, (type = 38 ∨ type = 32) → find_entity s_ent t = some ent →
      decode_loop (fuel + 1) type (38 :: t) =
        decode_loop fuel type (ent.2 ++ t.drop ent.1.length)) ∧
    (∀ type c upper rest fuel, type ≠ 99 → 1 ≤ c → c ≤ 0x10FFFF →
      decode_loop (fuel + 1) type ([38, 35] ++ numeral 10 upper c ++ 59 :: rest) =
        (decode_loop fuel type rest).map (fun r => utf8_encode c ++ r) ∧
      decode_loop (fuel + 1) type ([38, 35, 120] ++ numeral 16 upper c ++ 59 :: rest) =
        (decode_loop fuel type rest).map (fun r => utf8_encode c ++ r)) ∧
    xml_decode (ascii "&amp;" ++ e.1 ++ 0 :: tail) 38 = .done (e.2, tail) ∧
    xml_decode (ascii "&#38;" ++ e.1 ++ 0 :: tail) 38 = .done (38 :: e.1, tail) ∧
    xml_decode (ascii "&amp;lt;" ++ [0]) 38 = .done (ascii "<", []) ∧
    xml_decode (ascii "&amp;#65;" ++ [0]) 38 = .done (ascii "A", []) ∧
    xml_decode (ascii "&#38;lt;" ++ [0]) 38 = .done (ascii "&lt;", []) ∧
    xml_decode (ascii "&#38;#65;" ++ [0]) 38 = .done (ascii "&#65;", []) := by
  have hok := List.all_eq_true.1 s_ent_ok e he
  simp only [entity_ok, Bool.and_eq_true, beq_iff_eq, List.all_eq_true, bne_iff_ne] at hok
  obtain ⟨⟨⟨⟨⟨h1, -⟩, -⟩, h4⟩, -⟩, h6⟩ := hok
  have hpl := List.all_eq_true.1 s_ent_plain e he
  simp only [entity_plain, Bool.and_eq_true, bne_iff_ne, ne_eq, List.all_eq_true,
    Bool.not_eq_true'] at hpl
  refine ⟨fun type t ent fuel ht h => decode_loop_entity type ht t ent h fuel, ?_, ?_, ?_,
    by decide, by decide, by decide, by decide⟩
  · intro type c upper rest fuel ht hc1 hc2
    refine ⟨?_, ?_⟩
    · simpa using decode_loop_char_ref_then type ht 10 upper [] (Or.inl ⟨rfl, rfl⟩) c hc1 hc2
        rest fuel
    · simpa using decode_loop_char_ref_then type ht 16 upper [120] (Or.inr ⟨rfl, rfl⟩) c hc1
        hc2 rest fuel
  · -- "&amp;" ++ name: two entity steps
    have ha : ascii "&amp;" ++ e.1 = 38 :: (ascii "amp;" ++ e.1) := by
      have : ascii "&amp;" = 38 :: ascii "amp;" := by decide
      rw [this]; rfl
    have hs : ∀ x ∈ 38 :: (ascii "amp;" ++ e.1), x ≠ 0 ∧ x ≠ 13 := by
      intro x hx
      rcases List.mem_cons.1 hx with h | h
      · subst h; decide
      · rcases List.mem_append.1 h with h' | h'
        · have : ∀ y ∈ ascii "amp;", y ≠ 0 ∧ y ≠ 13 := by decide
          exact this x h'
        · exact h1 x h'
    rw [ha, xml_decode_no_cr 38 _ tail hs]
    have hdrop : (ascii "amp;" ++ e.1).drop (ascii "amp;").length = e.1 := List.drop_left _ _
    have h4len : (ascii "amp;").length = 4 := by decide
    have hlen : (38 :: (ascii "amp;" ++ e.1)).length + 1 = (ascii "amp;" ++ e.1).length + 1 + 1 :=
      by simp
    have hmono := decode_loop_mono _ 38 _ _ h4 ((ascii "amp;" ++ e.1).length + 1)
      (by simp only [List.length_append, h4len]; omega)
    have hstep2 := decode_loop_entity 38 (Or.inl rfl) (ascii "amp;" ++ e.1)
      (ascii "amp;", [38]) (find_entity_amp e.1) ((ascii "amp;" ++ e.1).length + 1)
    simp only [hdrop] at hstep2
    rw [hlen, hstep2]
    have : ([38] : List Nat) ++ e.1 = 38 :: e.1 := rfl
    rw [this, hmono]
    simp only [Outcome.bind_done, h6]
  · -- "&#38;" ++ name: one character reference, then plain bytes
    have hnum : numeral 10 false 38 = [51, 56] := by simp [numeral, digit_byte]
    have ha : ascii "&#38;" ++ e.1 = [38, 35] ++ [] ++ numeral 10 false 38 ++ 59 :: e.1 := by
      rw [hnum]
      have : ascii "&#38;" = [38, 35, 51, 56, 59] := by decide
      rw [this]; rfl
    have hs : ∀ x ∈ ascii "&#38;" ++ e.1, x ≠ 0 ∧ x ≠ 13 := by
      intro x hx
      rcases List.mem_append.1 hx with h' | h'
      · have : ∀ y ∈ ascii "&#38;", y ≠ 0 ∧ y ≠ 13 := by decide
        exact this x h'
      · exact h1 x h'
    rw [xml_decode_no_cr 38 _ tail hs]
    have hlen : (ascii "&#38;" ++ e.1).length + 1 = (e.1.length + 5) + 1 := by
      have : (ascii "&#38;").length = 5 := by decide
      simp only [List.length_append, this]; omega
    rw [hlen, ha, decode_loop_char_ref_then 38 (by decide) 10 false [] (Or.inl ⟨rfl, rfl⟩) 38
      (by decide) (by decide) e.1 (e.1.length + 5)]
    have h38 : ∀ x ∈ e.1, x ≠ 38 := fun x hx => (hpl.2 x hx).1.1.1
    rw [decode_loop_no_amp 38 e.1 h38 _ (by omega)]
    have hmap : e.1.map (plain_byte 38) = e.1 := by
      have : ∀ l : List Nat, l.map (plain_byte 38) = l := by
        intro l
        induction l with
        | nil => rfl
        | cons a l ih => simp [plain_byte, ih]
      exact this _
    have hutf : utf8_encode 38 = [38] := by decide
    simp only [Outcome.map_done, Outcome.bind_done, hmap, hutf, List.singleton_append]
    have : cstr (38 :: e.1) = 38 :: e.1 := by
      apply cstr_of_no_zero
      intro x hx
      rcases List.mem_cons.1 hx with h | h
      · omega
      · exact (h1 x h).1
    rw [this]

/-- C21 at the pair `("lt;", "<")`: "&amp;lt;" is decoded to "<" and "&#38;lt;" to
"&lt;". -/
theorem entities_decoded_again_witness :
    (ascii "lt;", [60]) ∈ s_ent ∧
    xml_decode (ascii "&amp;" ++ ascii "lt;" ++ 0 :: []) 38 = .done ([60], []) ∧
    xml_decode (ascii "&#38;" ++ ascii "lt;" ++ 0 :: []) 38 = .done (38 :: ascii "lt;", []) :=
  ⟨by decide,
    (entities_decoded_again (ascii "lt;", [60]) (by decide) []).2.2.1,
    (entities_decoded_again (ascii "lt;", [60]) (by decide) []).2.2.2.1⟩

/-! ## A start tag behind a text -/

/-- The pending text only adds its callback in front: the main loop at a `<`, when the
flush of the pending text leaves the buffer as it is, reports what the flush reports and
then what it reports there without pending text. -/
theorem parse_loop_flush (fuel : Nat) (text t : List Nat) (tev : List Event)
    (h : call_text_cb text (60 :: t) 38 = .done (tev, 60 :: t)) :
    parse_loop (fuel + 1) text (60 :: t) =
      (parse_loop (fuel + 1) [] (60 :: t)).map (fun ev => tev ++ ev) := by
  have e0 : (60 != 60) = false := by decide
  have hnil : call_text_cb [] (60 :: t) 38 = .done ([], 60 :: t) := by simp [call_text_cb]
  rw [parse_loop, parse_loop]
  simp only [e0, Bool.false_eq_true, if_false, h, hnil, Outcome.bind_done, List.tail_cons,
    List.nil_append]
  have hid : ∀ x : Outcome (List Event), (x.map fun ev => ev) = x := by
    intro x; cases x <;> rfl
  have hb : ∀ {α : Type} (x : Outcome α) (f : α → Outcome (List Event))
      (g : List Event → List Event), (x.bind f).map g = x.bind (fun a => (f a).map g) := by
    intro α x f g; cases x <;> rfl
  split
  · split
    · simp [Outcome.map]
    · simp [Outcome.map_map, hid]
  · split
    · split
      · rw [hb]; congr 1; try (funext r1; simp [Outcome.map_map])
      · rw [hb]; congr 1
    · split
      · split
        · simp [Outcome.map]
        · split
          · split
            · simp [Outcome.map]
            · simp [Outcome.map_map, hid]
          · simp [Outcome.map_map, hid]
      · split
        · split
          · simp [Outcome.map]
          · simp [Outcome.map_map, hid]
        · rw [hb]; congr 1; funext r1
          split
          · simp [Outcome.map]
          · simp [Outcome.map_map]

/-- A start tag behind a text: for a document that is a text without `<`, carriage return
and `&`, then a start tag, then anything, the text is reported, then the start tag with
the attributes recorded (and the end tag when the tag is self-closing), and the main loop
goes on behind the `>` of the tag. The tag holds no carriage return, unless it ends the
document. -/
theorem parse_text_start_tag (pre tag p rest : List Nat)
    (attrs : List (List Nat × List Nat)) (sc : Bool) (hpre : clean pre)
    (h60 : ∀ x ∈ pre, x ≠ 60) (htag : tag_ok tag) (hp : AttrText p attrs sc)
    (hstop : starts_with_stop p) (hcr : rest = [] ∨ ∀ x ∈ p, x ≠ 13)
    (hrest0 : ∀ x ∈ rest, x ≠ 0) :
    dc_saxparser_parse (pre ++ 60 :: (tag ++ (p ++ rest))) =
      (parse_loop ((tag ++ (p ++ rest)).length + 1) [] rest).map fun ev =>
        (if pre = [] then [] else [Event.text pre pre.length]) ++
          ((Event.starttag (dc_strlower_in_place tag) (attrs.take 50) ::
            (if sc then [Event.endtag (dc_strlower_in_place tag)] else [])) ++ ev) := by
  obtain ⟨hs1, hs2, hs3⟩ := hp.shape
  have hbuf : ∀ x ∈ 60 :: (tag ++ (p ++ rest)), x ≠ 0 := by
    intro x hx
    rcases List.mem_cons.1 hx with h | h
    · omega
    · rcases List.mem_append.1 h with h | h
      · exact (htag.2 x h).2
      · rcases List.mem_append.1 h with h | h
        · exact hs3 x h
        · exact hrest0 x h
  have hall : ∀ x ∈ pre ++ 60 :: (tag ++ (p ++ rest)), x ≠ 0 := by
    intro x hx
    rcases List.mem_append.1 hx with h | h
    · exact (hpre x h).1
    · exact hbuf x h
  unfold dc_saxparser_parse
  rw [cstr_of_no_zero _ hall]
  have hl : (pre ++ 60 :: (tag ++ (p ++ rest))).length + 1 =
      pre.length + ((tag ++ (p ++ rest)).length + 1 + 1) := by
    simp only [List.length_append, List.length_cons]; omega
  rw [hl, parse_loop_text pre h60 [] _ _, List.nil_append,
    parse_loop_flush _ pre _ _ (call_text_cb_clean pre _ hpre hbuf),
    parse_loop_start_tag _ tag p rest attrs sc htag hp hstop hcr hrest0, Outcome.map_map]

/-! ## Where the attribute cap and the overrun reach the tags -/

set_option maxRecDepth 1000000 in
/-- C6, the code at a failing input: in a start tag with fifty attributes `name=v` and
behind them the attribute name `disabled` without `=`, the name is not recorded: the
start tag is reported with the fifty attributes only, and no pair of the list has the name
`disabled`; the scan goes on behind the tag. With forty-nine attributes in front the pair
`("disabled", "")` is the fiftieth of the list, and behind a text, and with a text behind
it, `<input disabled>` is reported as specified. A tag with such a name and a quoted value
that ends with a carriage return, followed by a carriage return that ends the document,
makes the first loop of `xml_decode` read behind the buffer before anything is
reported. -/
theorem bare_attribute_not_recorded :
    dc_saxparser_parse (tag_with_bare 50) =
      .done [Event.starttag [116] ((List.range 50).map attr_pair)] ∧
    ascii "disabled" ∉ ((List.range 50).map attr_pair).map Prod.fst ∧
    dc_saxparser_parse (tag_with_bare 50 ++ ascii "x") =
      .done [Event.starttag [116] ((List.range 50).map attr_pair), Event.text (ascii "x") 1] ∧
    dc_saxparser_parse (tag_with_bare 49) =
      .done [Event.starttag [116]
        ((List.range 49).map attr_pair ++ [(ascii "disabled", [])])] ∧
    dc_saxparser_parse (ascii "text<input disabled>more") =
      .done [Event.text (ascii "text") 4,
        Event.starttag (ascii "input") [(ascii "disabled", [])],
        Event.text (ascii "more") 4] ∧
    dc_saxparser_parse (ascii "<input disabled a=\"\r\">") =
      .done [Event.starttag (ascii "input") [(ascii "disabled", []), (ascii "a", ascii " ")]] ∧
    dc_saxparser_parse (ascii "<input disabled a=\"\r\">\r") = .undefined := by
  decide!

set_option maxRecDepth 1000000 in
/-- C7, the code at a failing input: a start tag with fifty-one attributes written
`name="v"` is reported once, with the first fifty attributes; the attribute written last,
`y="1"`, is not in the list. With fifty attributes all of them are passed, and behind a
text, and with a text behind it, a tag with the three written forms is reported as
specified. The tag `<a b="\r">` alone gives the value `xml_decode` returns, a space; followed
by a carriage return that ends the document, the first loop of `xml_decode`, started on
that value, reads behind the buffer before the start tag is reported. -/
theorem attribute_values_not_passed :
    dc_saxparser_parse (tag_with_quoted 51) =
      .done [Event.starttag [116] ((List.range 50).map attr_pair)] ∧
    attr_pair 50 = (ascii "y", ascii "1") ∧
    attr_pair 50 ∉ (List.range 50).map attr_pair ∧
    dc_saxparser_parse (tag_with_quoted 50) =
      .done [Event.starttag [116] ((List.range 50).map attr_pair)] ∧
    dc_saxparser_parse (ascii "x<a b=\"1 &amp; 2\" c='3' d=4>y") =
      .done [Event.text (ascii "x") 1,
        Event.starttag (ascii "a")
          [(ascii "b", ascii "1 & 2"), (ascii "c", ascii "3"), (ascii "d", ascii "4")],
        Event.text (ascii "y") 1] ∧
    dc_saxparser_parse (ascii "<a b=\"\r\">") =
      .done [Event.starttag (ascii "a") [(ascii "b", ascii " ")]] ∧
    dc_saxparser_parse (ascii "<a b=\"\r\">\r") = .undefined := by
  decide!

set_option maxRecDepth 1000000 in
/-- C9, the code at a failing input: the self-closing tag `<a b="\r"/>` alone gives the
start tag and, as the next event, the end tag `a`; followed by a carriage return that ends
the document, the first loop of `xml_decode`, started on the attribute value, runs through
`/>` and the carriage return and reads behind the buffer, so the run is undefined and
neither callback is made. With a further byte behind the carriage return both events are
reported. Behind a text, `<br/>` gives the start tag and then the end tag, `<br>` the
start tag only. -/
theorem self_closing_overrun :
    dc_saxparser_parse (ascii "<a b=\"\r\"/>") =
      .done [Event.starttag (ascii "a") [(ascii "b", ascii " ")], Event.endtag (ascii "a")] ∧
    dc_saxparser_parse (ascii "<a b=\"\r\"/>\r") = .undefined ∧
    dc_saxparser_parse (ascii "<a b=\"\r\"/>\rx") =
      .done [Event.starttag (ascii "a") [(ascii "b", ascii " ")], Event.endtag (ascii "a"),
        Event.text (ascii "\nx") 2] ∧
    dc_saxparser_parse (ascii "x<br/>") =
      .done [Event.text (ascii "x") 1, Event.starttag (ascii "br") [],
        Event.endtag (ascii "br")] ∧
    dc_saxparser_parse (ascii "x<BR />y") =
      .done [Event.text (ascii "x") 1, Event.starttag (ascii "br") [],
        Event.endtag (ascii "br"), Event.text (ascii "y") 1] ∧
    dc_saxparser_parse (ascii "x<br>y") =
      .done [Event.text (ascii "x") 1, Event.starttag (ascii "br") [],
        Event.text (ascii "y") 1] := by
  decide!

set_option maxRecDepth 1000000 in
/-- C16, the code at a failing input: in the document `<a b="x\r` the start tag is never
closed and its quoted value ends, with a carriage return, at the end of the input; the
first loop of `xml_decode`, called on the value, steps over the terminator of the buffer
and reads behind it, so the run is undefined: the parse does not return normally. So it is
with a text in front and with a single quote. Without the carriage return, with a byte
behind it, or with `\r\n` at the end, the parse returns with the start tag and nothing
else, and an unclosed tag behind a text stops the parse as specified. -/
theorem unclosed_value_overrun :
    dc_saxparser_parse (ascii "<a b=\"x\r") = .undefined ∧
    dc_saxparser_parse (ascii "text<a b=\"x\r") = .undefined ∧
    dc_saxparser_parse (ascii "<a b='x\r") = .undefined ∧
    dc_saxparser_parse (ascii "<a b=\"x") =
      .done [Event.starttag (ascii "a") [(ascii "b", ascii "x")]] ∧
    dc_saxparser_parse (ascii "<a b=\"x\ry") =
      .done [Event.starttag (ascii "a") [(ascii "b", ascii "x y")]] ∧
    dc_saxparser_parse (ascii "<a b=\"x\r\n") =
      .done [Event.starttag (ascii "a") [(ascii "b", ascii "x ")]] ∧
    dc_saxparser_parse (ascii "text<a b=\"c\" d and more") =
      .done [Event.text (ascii "text") 4,
        Event.starttag (ascii "a") [(ascii "b", ascii "c"), (ascii "d", []),
          (ascii "and", []), (ascii "more", [])]] ∧
    dc_saxparser_parse (ascii "text</a and more") =
      .done [Event.text (ascii "text") 4, Event.endtag (ascii "a")] := by
  decide!

end DcSaxparser
